import Mathlib

/-!
# Hyperbolic word embeddings on the hyperboloid (lateral/minkowski)

A shallow embedding of `src/vector.{h,cc}`, `src/model.{h,cc}`,
`src/dictionary.{h,cc}`, `src/args.{h,cc}` and of `src/minkowski.{h,cc}`: the
vector operations and the ball model, the model updates, the vocabulary with its
hash table and the reading of lines, the command line, the lock acquisition
protocol and the skip-gram sweep, the negative table, and the epochs with their
seeds, learning rates and checkpoints.

Modelling conventions.

* `real` (declared in `real.h`, a floating-point type) is modelled by the exact
  real numbers `ℝ`; `std::sqrt`, `std::cosh`, `std::sinh`, `std::log`,
  `std::exp` are the real functions of the same name and `std::acosh` is
  `acosh` below.
* A `Vector` (`dimension_` plus `data_`) is the list of its coordinates;
  `dimension_` is the length of the list.  Reading a coordinate outside the
  array (undefined behaviour in C++) reads `0`.
* A C `assert` that fails and a `std::vector::at` that throws make the
  function return `none`.
* Division is the total division of `ℝ` (`x / 0 = 0`, where the floating-point
  code produces an infinity); this matters for the scratch tangent of
  `Model::update` when the step is `0`.  `random_hyperboloid_point`, whose
  result would be made of NaN, returns `none` when the norm it divides by is `0`.
* Values drawn from a random distribution (`normal_dist(rng)`, `uniform(rng)`)
  are inputs of the functions that draw them.
* Word ids (`int32_t`) are natural numbers: a negative id makes `at` throw
  exactly as an id beyond the end of the table does.
* A `std::mutex` of the lock table is a boolean, `true` when the lock is held;
  `try_lock` fails on a lock that is held.
* The two `while` loops of the lock acquisition take a bound `fuel` on the
  number of iterations; a loop that needs more iterations returns `none`.
* `int32_t` and `int64_t` values are integers of `ℤ`; `/` and `%` on them are
  the truncating `Int.tdiv` and `Int.tmod`.
* What `train_epochs` does is recorded as the list of its events: the files
  written and the worker threads started with their arguments.  The work of a
  thread is not part of that list.
* A `std::string` is a `String`; lexicographic order is `List.Lex` on the
  characters.  A byte of a file is a `Char` (with a code below 256), and `char`
  is a signed type, as on x86-64.
* The hash table `word2int_` of the dictionary is the function from its slots
  to the ids they hold; there the ids are integers, `-1` marking a free slot.
  The loops of the dictionary take a bound `fuel` as well; an exception that is
  thrown gives `none`.
* `std::sort` is a parameter of `Dictionary::threshold`, constrained by what the
  standard promises (`sort_contract`); `stl.sort` is the `std::sort` of
  libstdc++, used where the behaviour of the compiled program on entries of
  equal count is computed.  `std::stoi` is the function `stoi` below, and
  `std::stof` is a parameter of `Args::parse_args`.
* In `generate_negative_samples` the number of iterations of a loop depends on
  the rounding of a floating-point loop bound, so there the arithmetic on `real`
  (`pow`, `+`, `*`, `/`) is the parameter `real_arith`; `exact_arith` is the
  arithmetic without rounding.
* The calls of `log_bilinear_negative_sampling` that `skipgram` makes are
  observed by `Minkowski.skipgram_calls`, which follows the loops of
  `Minkowski.skipgram` and lists the arguments of each call.
* The reference tokenisation `reference_tokens` is written from the
  description of the tokens, not from `read_word`, and is compared with it.
-/

namespace minkowski

/-! ## vector.h / vector.cc -/

/-- The type `real` of `real.h`. -/
abbrev real := ℝ

/-- Class `Vector`: the coordinates `data_[0 .. dimension_-1]`. -/
abbrev Vector := List real

/-- `Vector::size`. -/
def Vector.size (v : Vector) : ℕ := v.length

/-- `Vector::operator[]`. -/
def Vector.get (v : Vector) (i : ℕ) : real := v.getD i 0

/-- `Vector::zero`. -/
def Vector.zero (v : Vector) : Vector := v.map (fun _ => 0)

/-- `Vector::multiply`: `data_[i] *= a` for every `i`. -/
def Vector.multiply (v : Vector) (a : real) : Vector := v.map (fun x => x * a)

/-- `Vector::add(source, s)`: asserts equal dimensions, then
`data_[i] += s * source.data_[i]` for every `i`. -/
def Vector.add (v source : Vector) (s : real) : Option Vector :=
  if v.size = source.size then some (List.zipWith (fun x y => x + s * y) v source)
  else none

/-- `minkowski_dot` of `vector.h`: the loop over `i < n-1` followed by the
subtraction of the time-like product. -/
def minkowski_dot (v w : Vector) : real :=
  let n := v.size
  let result := (List.range (n - 1)).foldl (fun r i => r + v.get i * w.get i) 0
  result - v.get (n - 1) * w.get (n - 1)

/-- `MDP_ERROR_TOLERANCE` of `vector.cc`. -/
def MDP_ERROR_TOLERANCE : real := 1e-15

/-- `Vector::project_onto_tangent_space`. -/
def Vector.project_onto_tangent_space (v hyperboloid_point : Vector) : Option Vector :=
  let mdp := minkowski_dot hyperboloid_point v
  Vector.add v hyperboloid_point mdp

/-- `Vector::ensure_on_hyperboloid`; `none` when the assertion `mdp < 0` fires. -/
noncomputable def Vector.ensure_on_hyperboloid (v : Vector) : Option Vector :=
  let mdp := minkowski_dot v v
  if |mdp + 1| > MDP_ERROR_TOLERANCE then
    if mdp < 0 then some (Vector.multiply v (1.0 / Real.sqrt (-mdp))) else none
  else some v

/-- `Vector::geodesic_update`. -/
noncomputable def Vector.geodesic_update (v tangent_unit_vec : Vector) (step_size : real) :
    Option Vector := do
  let v1 := Vector.multiply v (Real.cosh step_size)
  let v2 ← Vector.add v1 tangent_unit_vec (Real.sinh step_size)
  Vector.ensure_on_hyperboloid v2

/-- The inverse hyperbolic cosine `std::acosh` on `[1, ∞)`. -/
noncomputable def acosh (x : real) : real := Real.log (x + Real.sqrt (x ^ 2 - 1))

/-- `distance` of `vector.cc`. -/
noncomputable def distance (point0 point1 : Vector) : real :=
  acosh (-minkowski_dot point0 point1)

/-- The on-hyperboloid invariant of a point: Minkowski self-product `-1` and
positive last coordinate. -/
def on_hyperboloid (v : Vector) : Prop :=
  minkowski_dot v v = -1 ∧ 0 < v.get (v.size - 1)

/-- `Vector::to_ball_point`: the last coordinate plus one is the denominator,
the last coordinate is cleared and the vector is scaled by the inverse of the
denominator. -/
noncomputable def Vector.to_ball_point (v : Vector) : Vector :=
  let denom : real := v.get (v.size - 1) + 1
  let v1 : Vector := v.set (v.size - 1) 0
  Vector.multiply v1 (1.0 / denom)

/-- `Vector::to_hyperboloid_point`. -/
noncomputable def Vector.to_hyperboloid_point (v : Vector) : Vector :=
  let norm_sqd : real := minkowski_dot v v
  let v1 : Vector := Vector.multiply v (2.0 / (1 - norm_sqd))
  v1.set (v.size - 1) ((1 + norm_sqd) / (1 - norm_sqd))

/-- `Vector::to_ball_tangent`: the loop over the first `dimension_ - 1`
coordinates reads the last coordinate of the tangent in every iteration, and
the last coordinate is cleared after the loop. -/
noncomputable def Vector.to_ball_tangent (v hyperboloid_point : Vector) : Vector :=
  let denom : real := hyperboloid_point.get (v.size - 1) + 1
  let v1 : Vector := (List.range (v.size - 1)).foldl
    (fun data i =>
      data.set i ((Vector.get data i
        - hyperboloid_point.get i * Vector.get data (v.size - 1) / denom) / denom)) v
  v1.set (v.size - 1) 0

/-- `random_hyperboloid_point` of `vector.cc`.  The values drawn from the normal
distribution are an input: `normal j` is the value of the `j`-th draw.  The
fresh `Vector tangent(n)` starts as zeros.  When the norm of the tangent is `0`
the quotient `1. / tangent_norm` has no real value (the code goes on with an
infinity and the coordinates become NaN): the function returns `none`. -/
noncomputable def random_hyperboloid_point (vector : Vector) (normal : ℕ → real) :
    Option Vector :=
  let n := vector.size
  let tangent0 : Vector := List.replicate n 0
  let (tangent1, norm_sqd) := (List.range (n - 1)).foldl
    (fun (acc : Vector × real) j =>
      let t : Vector := acc.1.set j (normal j)
      (t, acc.2 + t.get j * t.get j)) (tangent0, 0)
  let tangent2 : Vector := tangent1.set (n - 1) 0
  let tangent_norm : real := Real.sqrt norm_sqd
  if tangent_norm = 0 then none
  else
    let tangent3 := Vector.multiply tangent2 (1.0 / tangent_norm)
    let vector1 : Vector := (Vector.zero vector).set (n - 1) 1
    Vector.geodesic_update vector1 tangent3 tangent_norm

/-! ## args.h -/

/-- Class `Args`: the configuration record, with the field names of `args.h`. -/
structure Args where
  input : String
  output : String
  start_lr : real
  end_lr : real
  burnin_lr : real
  max_step_size : real
  seed : ℤ
  dimension : ℤ
  checkpoint_interval : ℤ
  distribution_power : real
  window_size : ℤ
  epochs : ℤ
  burnin_epochs : ℤ
  min_count : ℤ
  number_negatives : ℤ
  threads : ℤ
  t : real
  init_std_dev : real

/-- The constructor `Args::Args()`: the documented defaults; `input` and
`output` start empty. -/
noncomputable def Args.default : Args where
  input := ""
  output := ""
  start_lr := 0.05
  end_lr := 0.05
  burnin_lr := 0.05
  max_step_size := 2.0
  dimension := 100
  window_size := 5
  checkpoint_interval := -1
  distribution_power := 0.5
  epochs := 5
  burnin_epochs := 0
  min_count := 5
  number_negatives := 5
  threads := 12
  t := 1e-4
  init_std_dev := 0.1
  seed := 1

/-! ## model.h / model.cc -/

/-- `SIGMOID_TABLE_SIZE` of `model.cc`. -/
def SIGMOID_TABLE_SIZE : ℕ := 512

/-- `MAX_SIGMOID` of `model.cc`. -/
def MAX_SIGMOID : ℕ := 8

/-- `MIN_STEP_SIZE` of `model.cc`. -/
def MIN_STEP_SIZE : real := 1e-10

/-- `SHIFT` of `model.cc`. -/
def SHIFT : real := 3.0

/-- Class `Model`: the embedding table `vectors_` (shared), the configuration,
the two scratch vectors, the performance accumulator, the example counter and
the sigmoid table. -/
structure Model where
  vectors_ : List Vector
  args_ : Args
  acc_grad_source_ : Vector
  grad_output_ : Vector
  performance_ : real
  nexamples_ : ℤ
  t_sigmoid : List real

/-- `Model::precompute_sigmoid`: the table of `SIGMOID_TABLE_SIZE + 1` entries. -/
noncomputable def precompute_sigmoid : List real :=
  (List.range (SIGMOID_TABLE_SIZE + 1)).map fun i =>
    let x : real := ((i * 2 * MAX_SIGMOID : ℕ) : real) / SIGMOID_TABLE_SIZE - MAX_SIGMOID
    1.0 / (1.0 + Real.exp (-x))

/-- The constructor `Model::Model(vectors, args)`; the two scratch vectors have
dimension `args->dimension` (their uninitialised coordinates are taken as `0`). -/
noncomputable def Model.init (vectors : List Vector) (args : Args) : Model where
  vectors_ := vectors
  args_ := args
  acc_grad_source_ := List.replicate args.dimension.toNat 0
  grad_output_ := List.replicate args.dimension.toNat 0
  performance_ := 0.0
  nexamples_ := 1
  t_sigmoid := precompute_sigmoid

/-- The conversion `int(x)` of a real: truncation towards zero. -/
noncomputable def truncate (x : real) : ℤ := if 0 ≤ x then ⌊x⌋ else ⌈x⌉

/-- `Model::sigmoid`. -/
noncomputable def Model.sigmoid (m : Model) (x : real) : real :=
  if x < -(MAX_SIGMOID : real) then 0.0
  else if x > (MAX_SIGMOID : real) then 1.0
  else
    let i := truncate ((x + MAX_SIGMOID) * SIGMOID_TABLE_SIZE / MAX_SIGMOID / 2)
    m.t_sigmoid.getD i.toNat 0

/-- `Model::update(point, tangent)`: both arguments are passed by reference;
the result is the pair of their values on return.  `std::sqrt` of a negative
number has no real value (the code goes on with a NaN); the model returns
`none` there.  When `step_size` is `0` the code multiplies the tangent by
`1.0 / 0.0`, an infinity, and leaves it with infinite or NaN coordinates; the
tangent returned by the model there (the total division gives the zero vector)
stands for no value of the code, and only the point is meaningful. -/
noncomputable def Model.update (m : Model) (point tangent : Vector) : Option (Vector × Vector) :=
  if minkowski_dot tangent tangent < 0 then none
  else
    let step_size := Real.sqrt (minkowski_dot tangent tangent)
    let tangent := Vector.multiply tangent (1.0 / step_size)
    if step_size < MIN_STEP_SIZE then some (point, tangent)
    else
      let step_size :=
        if step_size > m.args_.max_step_size then m.args_.max_step_size else step_size
      (Vector.geodesic_update point tangent step_size).map fun point => (point, tangent)

/-- `Model::binary_logistic(input, target, label, lr)`: the new state of the
model and the returned loss.  `input` is only read before the table is
written, so it is passed by value. -/
noncomputable def Model.binary_logistic (m : Model) (input : Vector) (target : ℕ) (label : Bool)
    (lr : real) : Option (Model × real) := do
  let v_target ← m.vectors_[target]?
  let score := m.sigmoid (minkowski_dot input v_target + SHIFT)
  let delta : real := (if label then 1 else 0) - score
  let acc ← Vector.add m.acc_grad_source_ v_target delta
  let grad := Vector.multiply input (lr * delta)
  let grad ← Vector.project_onto_tangent_space grad v_target
  let (point, grad) ← m.update v_target grad
  let loss : real :=
    if label then -Real.log (score + 1e-8) else -Real.log (1.0 - score + 1e-8)
  pure ({ m with vectors_ := m.vectors_.set target point,
                 acc_grad_source_ := acc, grad_output_ := grad }, loss)

/-- The `for` loop of `Model::log_bilinear_negative_sampling` over the samples
that remain, `n` being the index of the first of them. -/
noncomputable def Model.sampling_loop (source : ℕ) (lr : real) :
    Model → List ℕ → ℕ → Option Model
  | m, [], _ => some m
  | m, s :: rest, n => do
    let input ← m.vectors_[source]?
    let (m1, loss) ← m.binary_logistic input s (n == 0) lr
    Model.sampling_loop source lr { m1 with performance_ := m1.performance_ + loss } rest (n + 1)

/-- `Model::log_bilinear_negative_sampling`. -/
noncomputable def Model.log_bilinear_negative_sampling (m : Model) (source : ℕ)
    (samples : List ℕ) (lr : real) : Option Model := do
  let m0 := { m with acc_grad_source_ := Vector.zero m.acc_grad_source_ }
  let m1 ← Model.sampling_loop source lr m0 samples 0
  let m2 := { m1 with nexamples_ := m1.nexamples_ + 1 }
  let acc := Vector.multiply m2.acc_grad_source_ lr
  let v_source ← m2.vectors_[source]?
  let acc ← Vector.project_onto_tangent_space acc v_source
  let (point, acc) ← m2.update v_source acc
  pure { m2 with vectors_ := m2.vectors_.set source point, acc_grad_source_ := acc }

/-- `Model::get_performance`: the average, and the model with both counters
reset. -/
noncomputable def Model.get_performance (m : Model) : Model × real :=
  let avg : real := m.performance_ / (m.nexamples_ : real)
  ({ m with performance_ := 0.0, nexamples_ := 1 }, avg)

/-! ## minkowski.h / minkowski.cc: the lock acquisition protocol -/

/-- Class `Minkowski`: the configuration, the embedding table, the lock table
`vector_flags_`, the negative table and the burn-in flag. -/
structure Minkowski where
  args_ : Args
  vectors_ : List Vector
  vector_flags_ : List Bool
  negatives_ : List ℕ
  burnin_ : Bool

/-- `std::minstd_rand::operator()`: the next state of the generator, which is
also the value returned. -/
def minstd_rand (state : ℕ) : ℕ := 48271 * state % 2147483647

/-- `vector_flags_->at(i).try_lock()`: whether the lock was taken and the lock
table afterwards. -/
def try_lock (flags : List Bool) (i : ℕ) : Option (Bool × List Bool) :=
  match flags[i]? with
  | none => none
  | some held => if held then some (false, flags) else some (true, flags.set i true)

/-- `vector_flags_->at(i).unlock()`. -/
def unlock (flags : List Bool) (i : ℕ) : Option (List Bool) :=
  match flags[i]? with
  | none => none
  | some _ => some (flags.set i false)

/-- `Minkowski::get_negative_sample(target, rng)`: the negative and the state
of `rng` afterwards; at most `fuel` draws. -/
def Minkowski.get_negative_sample (mk : Minkowski) (target : ℕ) : ℕ → ℕ → Option (ℕ × ℕ)
  | 0, _ => none
  | fuel + 1, rng =>
    let rng := minstd_rand rng
    match mk.negatives_[rng % mk.negatives_.length]? with
    | none => none
    | some negative =>
      if target = negative then Minkowski.get_negative_sample mk target fuel rng
      else some (negative, rng)

/-- The value of `num_negatives + 1` after its conversion to `size_t` in the
comparison `samples.size() < num_negatives + 1`. -/
def samples_bound (num_negatives : ℤ) : ℕ := ((num_negatives + 1) % 2 ^ 64).toNat

/-- The `while` loop of `Minkowski::obtain_vectors`: lock table, `samples` and
state of `rng` when the loop is left; at most `fuel` iterations. -/
def Minkowski.obtain_loop (mk : Minkowski) (target : ℕ) (num_negatives : ℤ) :
    ℕ → List Bool → List ℕ → ℕ → Option (List Bool × List ℕ × ℕ)
  | 0, flags, samples, rng =>
    if samples.length < samples_bound num_negatives then none else some (flags, samples, rng)
  | fuel + 1, flags, samples, rng =>
    if samples.length < samples_bound num_negatives then
      match mk.get_negative_sample target (fuel + 1) rng with
      | none => none
      | some (next_negative, rng) =>
        match try_lock flags next_negative with
        | none => none
        | some (true, flags) =>
          Minkowski.obtain_loop mk target num_negatives fuel flags (samples ++ [next_negative]) rng
        | some (false, flags) =>
          Minkowski.obtain_loop mk target num_negatives fuel flags samples rng
    else some (flags, samples, rng)

/-- `Minkowski::obtain_vectors(source, target, samples, num_negatives, rng)`:
the returned boolean, the object (its lock table), `samples` and the state of
`rng` on return. -/
def Minkowski.obtain_vectors (mk : Minkowski) (source target : ℕ) (samples : List ℕ)
    (num_negatives : ℤ) (rng : ℕ) (fuel : ℕ) : Option (Bool × Minkowski × List ℕ × ℕ) :=
  match try_lock mk.vector_flags_ source with
  | none => none
  | some (false, _) => some (false, mk, samples, rng)
  | some (true, flags) =>
    match try_lock flags target with
    | none => none
    | some (false, flags) =>
      match unlock flags source with
      | none => none
      | some flags => some (false, { mk with vector_flags_ := flags }, samples, rng)
    | some (true, flags) =>
      match Minkowski.obtain_loop mk target num_negatives fuel flags [target] rng with
      | none => none
      | some (flags, samples, rng) => some (true, { mk with vector_flags_ := flags }, samples, rng)

/-- The `for` loop of `Minkowski::release_vectors`: unlock every id of `samples`. -/
def release_loop : List Bool → List ℕ → Option (List Bool)
  | flags, [] => some flags
  | flags, s :: rest =>
    match unlock flags s with
    | none => none
    | some flags => release_loop flags rest

/-- `Minkowski::release_vectors(source, samples)`. -/
def Minkowski.release_vectors (mk : Minkowski) (source : ℕ) (samples : List ℕ) :
    Option Minkowski :=
  match release_loop mk.vector_flags_ samples with
  | none => none
  | some flags =>
    match unlock flags source with
    | none => none
    | some flags => some { mk with vector_flags_ := flags }

/-- The body of the two loops of `Minkowski::skipgram` for the position `w` and
the offset `c`: the object, the model, `samples` and the state of `rng`
afterwards.  The embedding table is the one the model holds. -/
noncomputable def Minkowski.skipgram_step (lr : real) (line : List ℕ) (num_negatives : ℤ)
    (fuel w : ℕ) (c : ℤ) (st : Minkowski × Model × List ℕ × ℕ) :
    Option (Minkowski × Model × List ℕ × ℕ) :=
  if c ≠ 0 ∧ 0 ≤ (w : ℤ) + c ∧ (w : ℤ) + c < line.length then
    match (line)[w]?, (line)[((w : ℤ) + c).toNat]? with
    | some source, some target =>
      match st.1.obtain_vectors source target st.2.2.1 num_negatives st.2.2.2 fuel with
      | none => none
      | some (false, mk1, samples, rng) => some (mk1, st.2.1, samples, rng)
      | some (true, mk1, samples, rng) =>
        match st.2.1.log_bilinear_negative_sampling source samples lr with
        | none => none
        | some model =>
          match mk1.release_vectors source samples with
          | none => none
          | some mk2 => some (mk2, model, samples, rng)
    | _, _ => none
  else some st

/-- The inner loop of `Minkowski::skipgram` over the offsets `c` that remain. -/
noncomputable def Minkowski.skipgram_window (lr : real) (line : List ℕ) (num_negatives : ℤ)
    (fuel w : ℕ) : List ℤ → Minkowski × Model × List ℕ × ℕ →
    Option (Minkowski × Model × List ℕ × ℕ)
  | [], st => some st
  | c :: cs, st =>
    match Minkowski.skipgram_step lr line num_negatives fuel w c st with
    | none => none
    | some st => Minkowski.skipgram_window lr line num_negatives fuel w cs st

/-- The outer loop of `Minkowski::skipgram` over the positions `w` that remain;
`offsets` are the values `-window_size, ..., window_size` of `c`. -/
noncomputable def Minkowski.skipgram_line (lr : real) (line : List ℕ) (num_negatives : ℤ)
    (fuel : ℕ) (offsets : List ℤ) : List ℕ → Minkowski × Model × List ℕ × ℕ →
    Option (Minkowski × Model × List ℕ × ℕ)
  | [], st => some st
  | w :: ws, st =>
    match Minkowski.skipgram_window lr line num_negatives fuel w offsets st with
    | none => none
    | some st => Minkowski.skipgram_line lr line num_negatives fuel offsets ws st

/-- `Minkowski::skipgram(model, lr, line, rng)`: the object, the model and the
state of `rng` on return. -/
noncomputable def Minkowski.skipgram (mk : Minkowski) (model : Model) (lr : real)
    (line : List ℕ) (rng : ℕ) (fuel : ℕ) : Option (Minkowski × Model × ℕ) :=
  let num_negatives :=
    if mk.burnin_ then Int.tdiv mk.args_.number_negatives 10 else mk.args_.number_negatives
  let offsets : List ℤ :=
    (List.range (2 * mk.args_.window_size + 1).toNat).map
      fun j => -mk.args_.window_size + (j : ℤ)
  match Minkowski.skipgram_line lr line num_negatives fuel offsets
      (List.range line.length) (mk, model, [], rng) with
  | none => none
  | some (mk1, model, _, rng) => some (mk1, model, rng)

/-! ## minkowski.h / minkowski.cc: the negative table -/

/-- `NEGATIVE_TABLE_SIZE` of `minkowski.h`. -/
def NEGATIVE_TABLE_SIZE : ℕ := 100000000

/-- The floating-point arithmetic that `generate_negative_samples` does on the
type `real`: `pow(counts[i], args_->distribution_power)`, `+`, `*` and `/`.
Each operation of the code gives the exact value rounded to a number of the
type, and the number of iterations of the inner loop depends on that rounding
(the loop bound is compared with integers), so here the four operations are
parameters: what is proved holds for every rounding. -/
structure real_arith where
  pow : ℤ → real → real
  add : real → real → real
  mul : real → real → real
  div : real → real → real

/-- The inner loop `for (size_t j = ...; j < bound; j++) negatives_->push_back(i)`
of `generate_negative_samples`, from the current value of `j`.  The comparison
converts `j` to `real`, which is exact while `j` is at most `2^53` (`real` being
a double-precision type). -/
noncomputable def push_loop (i : ℕ) (bound : real) (j : ℕ) (negatives : List ℕ) : List ℕ :=
  if (j : real) < bound then push_loop i bound (j + 1) (negatives ++ [i]) else negatives
termination_by ⌈bound⌉₊ - j
decreasing_by
  have h : j < ⌈bound⌉₊ := Nat.lt_ceil.mpr (by assumption)
  omega

/-- `Minkowski::generate_negative_samples(counts)`: the entries are appended to
`negatives_`.  The arithmetic on `real` is that of `fl`. -/
noncomputable def Minkowski.generate_negative_samples (mk : Minkowski) (fl : real_arith)
    (counts : List ℤ) : Minkowski :=
  let z : real := (List.range counts.length).foldl
    (fun z i => fl.add z (fl.pow (counts.getD i 0) mk.args_.distribution_power)) 0.0
  let negatives := (List.range counts.length).foldl
    (fun negatives i =>
      let c : real := fl.pow (counts.getD i 0) mk.args_.distribution_power
      push_loop i (fl.div (fl.mul c NEGATIVE_TABLE_SIZE) z) 0 negatives) mk.negatives_
  { mk with negatives_ := negatives }

/-! ## minkowski.cc: epochs, seeds, learning rates and checkpoints -/

/-- What `Minkowski::train_epochs` does that is visible from outside, in order:
the files written by `save_vectors` and the worker threads started, each with
the arguments passed to `epoch_thread`. -/
inductive Event where
  | file_written (path : String)
  | epoch_thread (thread_id : ℤ) (seed : ℤ) (start_lr end_lr : real)

/-- The files written in a sequence of events. -/
def files_written (events : List Event) : List String :=
  events.filterMap fun e =>
    match e with
    | Event.file_written path => some path
    | Event.epoch_thread _ _ _ _ => none

/-- The seeds of the worker threads started in a sequence of events. -/
def thread_seeds (events : List Event) : List ℤ :=
  events.filterMap fun e =>
    match e with
    | Event.file_written _ => none
    | Event.epoch_thread _ seed _ _ => some seed

/-- `Minkowski::save_vectors(fn)`: the file `fn + ".csv"` is written (its
content is not modelled). -/
def Minkowski.save_vectors (_mk : Minkowski) (fn : String) : Event :=
  Event.file_written (fn ++ ".csv")

/-- `std::to_string` of an `int32_t`: the decimal digits, after a minus sign
for a negative number. -/
def to_string (n : ℤ) : String :=
  match n with
  | Int.ofNat m => String.mk (Nat.toDigits 10 m)
  | Int.negSucc m => String.mk ('-' :: Nat.toDigits 10 (m + 1))

/-- The epoch label of `save_checkpoint`:
`std::string(6 - epochs_done.length(), '0') + epochs_done`.  When the decimal
representation has more than six characters the count passed to the string
constructor wraps around and the constructor throws. -/
def epoch_label (epochs_trained : ℤ) : Option String :=
  let epochs_done := to_string epochs_trained
  if epochs_done.length ≤ 6 then
    some (String.mk (List.replicate (6 - epochs_done.length) '0') ++ epochs_done)
  else none

/-- `Minkowski::save_checkpoint(epochs_trained)`: the events it causes. -/
def Minkowski.save_checkpoint (mk : Minkowski) (epochs_trained : ℤ) : Option (List Event) :=
  if mk.args_.checkpoint_interval > 0
      ∧ Int.tmod epochs_trained mk.args_.checkpoint_interval = 0 then
    match epoch_label epochs_trained with
    | none => none
    | some epochs_done =>
      some [mk.save_vectors (mk.args_.output ++ "-after-" ++ epochs_done ++ "-epochs")]
  else some []

/-- `lr_delta_per_epoch` of `train_epochs`. -/
noncomputable def lr_delta_per_epoch (num_epochs : ℤ) (start_lr end_lr : real) : real :=
  (start_lr - end_lr) / (num_epochs : real)

/-- `epoch_start_lr` of `train_epochs`. -/
noncomputable def epoch_start_lr (num_epochs : ℤ) (start_lr end_lr : real) (epoch : ℤ) : real :=
  start_lr - (epoch : real) * lr_delta_per_epoch num_epochs start_lr end_lr

/-- `epoch_end_lr` of `train_epochs`. -/
noncomputable def epoch_end_lr (num_epochs : ℤ) (start_lr end_lr : real) (epoch : ℤ) : real :=
  start_lr - ((epoch + 1 : ℤ) : real) * lr_delta_per_epoch num_epochs start_lr end_lr

/-- `thread_seed` of `train_epochs`. -/
def thread_seed (seed epoch threads thread_id : ℤ) : ℤ := seed + epoch * threads + thread_id

/-- The loop of `train_epochs` over the worker threads of one epoch. -/
noncomputable def Minkowski.start_threads (mk : Minkowski) (num_epochs seed : ℤ)
    (start_lr end_lr : real) (epoch : ℤ) : List Event :=
  (List.range mk.args_.threads.toNat).map fun thread_id : ℕ =>
    Event.epoch_thread (thread_id : ℤ) (thread_seed seed epoch mk.args_.threads thread_id)
      (epoch_start_lr num_epochs start_lr end_lr epoch)
      (epoch_end_lr num_epochs start_lr end_lr epoch)

/-- The loop of `train_epochs` over the epochs that remain. -/
noncomputable def Minkowski.epochs_loop (mk : Minkowski) (num_epochs seed : ℤ)
    (start_lr end_lr : real) (checkpoint : Bool) : List ℕ → Option (List Event)
  | [] => some []
  | epoch :: rest =>
    match (if checkpoint then mk.save_checkpoint epoch else some []) with
    | none => none
    | some saved =>
      match Minkowski.epochs_loop mk num_epochs seed start_lr end_lr checkpoint rest with
      | none => none
      | some later =>
        some (saved ++ mk.start_threads num_epochs seed start_lr end_lr epoch ++ later)

/-- `Minkowski::train_epochs(num_epochs, seed, start_lr, end_lr, checkpoint)`. -/
noncomputable def Minkowski.train_epochs (mk : Minkowski) (num_epochs seed : ℤ)
    (start_lr end_lr : real) (checkpoint : Bool) : Option (List Event) :=
  match mk.epochs_loop num_epochs seed start_lr end_lr checkpoint
      (List.range num_epochs.toNat) with
  | none => none
  | some events =>
    match (if checkpoint then mk.save_checkpoint num_epochs else some []) with
    | none => none
    | some saved => some (events ++ saved)

/-- The burn-in phase of `Minkowski::train`: the first call of `train_epochs`. -/
noncomputable def Minkowski.train_burnin (mk : Minkowski) : Option (List Event) :=
  Minkowski.train_epochs { mk with burnin_ := true } mk.args_.burnin_epochs mk.args_.seed
    mk.args_.burnin_lr mk.args_.burnin_lr false

/-- The main phase of `Minkowski::train`: the second call of `train_epochs`. -/
noncomputable def Minkowski.train_main (mk : Minkowski) : Option (List Event) :=
  Minkowski.train_epochs { mk with burnin_ := false } mk.args_.epochs (-1 * mk.args_.seed)
    mk.args_.start_lr mk.args_.end_lr true

/-- `struct entry` of `dictionary.h`. -/
structure entry where
  word : String
  count : ℤ

/-- `Dictionary::HASHTABLE_SIZE`. -/
def Dictionary.HASHTABLE_SIZE : ℕ := 100000000

/-- `Dictionary::EOS`. -/
def Dictionary.EOS : String := "</s>"

/-- A `std::istream` that reads a file: the bytes of the file, the bytes not yet
read, and the `eofbit` of the stream state (in the code below the `failbit` is
set exactly when the `eofbit` is). -/
structure istream where
  content : List Char
  rest : List Char
  eofbit : Bool
deriving DecidableEq

/-- Class `Dictionary`.  The table `word2int_` (`HASHTABLE_SIZE` slots) is the
function from a slot to the id it holds, `-1` for a free slot. -/
structure Dictionary where
  args_ : Args
  word2int_ : ℕ → ℤ
  words_ : List entry
  retention_probas : List real
  nwords_ : ℤ
  ntokens_ : ℤ
  size_ : ℤ

/-- The constructor `Dictionary::Dictionary(args)`. -/
def Dictionary.init (args : Args) : Dictionary :=
  { args_ := args, word2int_ := fun _ => -1, words_ := [], retention_probas := [],
    nwords_ := 0, ntokens_ := 0, size_ := 0 }

/-- The conversion `uint32_t(c)` of a `char`: `char` is signed, a byte from 128
on is a negative value and wraps around modulo `2^32`. -/
def uint32_of_char (c : Char) : ℕ :=
  if c.toNat < 128 then c.toNat else (c.toNat + 4294967040) % 4294967296

/-- `Dictionary::hash` (FNV-1a on `uint32_t`). -/
def Dictionary.hash (str : String) : ℕ :=
  str.data.foldl (fun h c => ((h ^^^ uint32_of_char c) * 16777619) % 4294967296) 2166136261

/-- The element `words_[k]` for an `int32_t` index `k`; an index outside the
array (undefined behaviour) gives `none`. -/
def entry_at (words : List entry) (k : ℤ) : Option entry :=
  if k < 0 then none else words[k.toNat]?

/-- The `while` loop of `Dictionary::find`, started at slot `idx`; `fuel` bounds
the number of evaluations of the loop condition. -/
def Dictionary.find_loop (d : Dictionary) (w : String) : ℕ → ℕ → Option ℕ
  | 0, _ => none
  | fuel + 1, idx =>
    if d.word2int_ idx = -1 then some idx
    else
      match entry_at d.words_ (d.word2int_ idx) with
      | none => none
      | some e =>
        if e.word ≠ w then Dictionary.find_loop d w fuel ((idx + 1) % Dictionary.HASHTABLE_SIZE)
        else some idx

/-- `Dictionary::find`. -/
def Dictionary.find (d : Dictionary) (w : String) (fuel : ℕ) : Option ℕ :=
  d.find_loop w fuel (Dictionary.hash w % Dictionary.HASHTABLE_SIZE)

/-- `Dictionary::record_occurrence`. -/
def Dictionary.record_occurrence (d : Dictionary) (w : String) (fuel : ℕ) :
    Option Dictionary := do
  let h ← d.find w fuel
  let d1 := { d with ntokens_ := d.ntokens_ + 1 }
  if d1.word2int_ h = -1 then
    let e : entry := { word := w, count := 1 }
    pure { d1 with words_ := d1.words_ ++ [e],
                   word2int_ := Function.update d1.word2int_ h d1.size_,
                   size_ := d1.size_ + 1 }
  else
    let e ← entry_at d1.words_ (d1.word2int_ h)
    pure { d1 with
      words_ := d1.words_.set (d1.word2int_ h).toNat { e with count := e.count + 1 } }

/-- `Dictionary::discard`: the two asserts, then `rand > retention_probas[id]`. -/
noncomputable def Dictionary.discard (d : Dictionary) (id : ℤ) (rand : real) : Option Bool :=
  if 0 ≤ id ∧ id < d.nwords_ then
    (d.retention_probas[id.toNat]?).map fun p => decide (rand > p)
  else none

/-- The `while` loop of `Dictionary::read_word` on the bytes not yet read, with
the word read so far; the result is the returned boolean, the word, the bytes
left and the `eofbit`.  `sbumpc` returns `EOF` at the end of the bytes, and a
byte `0xFF` assigned to the (signed) `char c` also compares equal to `EOF`; the
loop is then left and `in.get()` extracts one more byte, or sets the `eofbit`
when there is none (and extracts nothing when the `eofbit` is already set).
After a word, a line break is put back by `sungetc`. -/
def read_word_loop (eofbit : Bool) : List Char → String → Bool × String × List Char × Bool
  | [], word => (!word.isEmpty, word, [], true)
  | c :: rest, word =>
    if c = Char.ofNat 255 then
      if eofbit then (!word.isEmpty, word, rest, eofbit)
      else
        match rest with
        | [] => (!word.isEmpty, word, [], true)
        | _ :: rest1 => (!word.isEmpty, word, rest1, eofbit)
    else if c = ' ' ∨ c = '\n' ∨ c = '\r' ∨ c = '\t' ∨ c = Char.ofNat 11 ∨ c = Char.ofNat 12
        ∨ c = Char.ofNat 0 then
      if word.isEmpty then
        if c = '\n' then (true, word ++ Dictionary.EOS, rest, eofbit)
        else read_word_loop eofbit rest word
      else (true, word, if c = '\n' then c :: rest else rest, eofbit)
    else read_word_loop eofbit rest (word.push c)

/-- `Dictionary::read_word`: the returned boolean, the word and the stream after
the call. -/
def Dictionary.read_word (stream : istream) : Bool × String × istream :=
  let r := read_word_loop stream.eofbit stream.rest ""
  (r.1, r.2.1, { stream with rest := r.2.2.1, eofbit := r.2.2.2 })

/-- The `while` loop of `Dictionary::determine_vocabulary`.  `fuel` bounds the
number of iterations of this loop and of every loop of `find`.  The exception
thrown when `size_ > 0.75 * HASHTABLE_SIZE` (that is `size_ > 75000000`) gives
`none`.  The progress messages are not modelled. -/
def Dictionary.count_loop (fuel0 : ℕ) : ℕ → Dictionary → istream → Option (Dictionary × istream)
  | 0, _, _ => none
  | fuel + 1, d, stream =>
    match Dictionary.read_word stream with
    | (true, word, stream1) => do
      let d1 ← d.record_occurrence word fuel0
      if d1.size_ > 75000000 then none
      else Dictionary.count_loop fuel0 fuel d1 stream1
    | (false, _, stream1) => some (d, stream1)

/-- The `for` loop of `Dictionary::threshold` that fills the hash table again,
over the entries of `words_` that remain. -/
def Dictionary.threshold_loop (fuel : ℕ) : List entry → Dictionary → Option Dictionary
  | [], d => some d
  | e :: rest, d => do
    let h ← d.find e.word fuel
    Dictionary.threshold_loop fuel rest
      { d with word2int_ := Function.update d.word2int_ h d.size_,
               size_ := d.size_ + 1, nwords_ := d.nwords_ + 1 }

/-- `Dictionary::threshold`.  `std::sort` is a function of the standard library:
`sort` is what it does to `words_` with the comparison `e1.count > e2.count`.
The standard only promises a permutation that is sorted with respect to the
comparison; the order of entries with equal counts is whatever `sort` leaves. -/
def Dictionary.threshold (sort : List entry → List entry) (d : Dictionary) (t : ℤ) (fuel : ℕ) :
    Option Dictionary :=
  let words := (sort d.words_).filter (fun e => ¬ (e.count < t))
  Dictionary.threshold_loop fuel words
    { d with words_ := words, size_ := 0, nwords_ := 0, word2int_ := fun _ => -1 }

/-- `Dictionary::calculate_retention_probas`.  `words_[i]` is read for
`i < size_`; where the function is called `size_` is the length of `words_` (an
index outside `words_` reads the count `0`). -/
noncomputable def Dictionary.calculate_retention_probas (d : Dictionary) : Dictionary :=
  { d with retention_probas := (List.range d.size_.toNat).map fun i =>
      if d.args_.t > 0 then
        let f : real := (((d.words_[i]?).map entry.count).getD 0 : ℤ) / (d.ntokens_ : real)
        let proba : real := Real.sqrt (d.args_.t / f) + d.args_.t / f
        if proba > 1.0 then 1.0 else proba
      else 1.0 }

/-- `Dictionary::determine_vocabulary`; both exceptions give `none`. -/
noncomputable def Dictionary.determine_vocabulary (sort : List entry → List entry)
    (d : Dictionary) (stream : istream) (fuel : ℕ) : Option (Dictionary × istream) := do
  let (d1, stream1) ← Dictionary.count_loop fuel fuel d stream
  let d2 ← d1.threshold sort d1.args_.min_count fuel
  let d3 := d2.calculate_retention_probas
  if d3.size_ = 0 then none else pure (d3, stream1)

/-- `Dictionary::get_counts`. -/
def Dictionary.get_counts (d : Dictionary) : List ℤ := d.words_.map entry.count

/-- The `while` loop of `Dictionary::get_line`.  The values that `uniform(rng)`
returns are an input: `uniform k` is the value of the `k`-th draw of the call,
and one value is drawn for every dictionary token, so the next draw has the
index `ntokens`. -/
noncomputable def Dictionary.get_line_loop (d : Dictionary) (uniform : ℕ → real) (fuel0 : ℕ) :
    ℕ → istream → List ℤ → ℕ → Option (istream × List ℤ × ℕ)
  | 0, _, _, _ => none
  | fuel + 1, stream, words, ntokens =>
    match Dictionary.read_word stream with
    | (true, token, stream1) => do
      let h ← d.find token fuel0
      let wid := d.word2int_ h
      if wid < 0 then Dictionary.get_line_loop d uniform fuel0 fuel stream1 words ntokens
      else
        let discarded ← d.discard wid (uniform ntokens)
        let words1 := if !discarded then words ++ [wid] else words
        if token = Dictionary.EOS then some (stream1, words1, ntokens + 1)
        else Dictionary.get_line_loop d uniform fuel0 fuel stream1 words1 (ntokens + 1)
    | (false, _, stream1) => some (stream1, words, ntokens)

/-- `Dictionary::get_line`: the stream after the call, the vector `words` and the
returned number of dictionary tokens.  A stream whose `eofbit` is set is first
cleared and put back to the start of the file. -/
noncomputable def Dictionary.get_line (d : Dictionary) (stream : istream) (uniform : ℕ → real)
    (fuel : ℕ) : Option (istream × List ℤ × ℕ) :=
  let stream0 : istream :=
    if stream.eofbit then { stream with rest := stream.content, eofbit := false } else stream
  d.get_line_loop uniform fuel fuel stream0 [] 0

/-! ## args.cc -/

/-- The two exceptions that `std::stoi` and `std::stof` throw. -/
inductive sto_error where
  | invalid_argument
  | out_of_range
deriving DecidableEq

/-- `std::stoi` in base 10: leading white space is skipped, an optional sign and
the decimal digits that follow are read and the rest of the string is ignored;
`std::invalid_argument` when there is no digit, `std::out_of_range` when the
value does not fit an `int`. -/
def stoi (str : String) : Except sto_error ℤ :=
  let cs := str.data.dropWhile fun c =>
    c = ' ' ∨ c = '\t' ∨ c = '\n' ∨ c = Char.ofNat 11 ∨ c = Char.ofNat 12 ∨ c = '\r'
  let negative := cs.head? = some '-'
  let cs1 := if cs.head? = some '-' ∨ cs.head? = some '+' then cs.tail else cs
  let digits := cs1.takeWhile Char.isDigit
  if digits = [] then Except.error sto_error.invalid_argument
  else
    let value : ℤ := digits.foldl (fun (a : ℤ) c => 10 * a + ((c.toNat - 48 : ℕ) : ℤ)) 0
    let value := if negative then -value else value
    if value < -2147483648 ∨ 2147483647 < value then Except.error sto_error.out_of_range
    else Except.ok value

/-- The two ways in which `Args::parse_args` does not return: after a message on
`std::cerr` it prints the help and calls `exit(EXIT_FAILURE)`; or a
`std::invalid_argument` thrown by `std::stoi` or `std::stof`, which the `catch`
clause for `std::out_of_range` does not catch, leaves the function. -/
inductive parse_failure where
  | exit_failure (message : String)
  | invalid_argument

/-- The value `args.at(ai + 1)`; the `std::out_of_range` that `at` throws when
there is no such element is caught in `parse_args`. -/
def arg_at (flag : String) (value : Option String) : Except parse_failure String :=
  match value with
  | some v => Except.ok v
  | none => Except.error (parse_failure.exit_failure (flag ++ " is missing an argument"))

/-- A call of `std::stoi` or `std::stof` inside the `try` block of `parse_args`:
`std::out_of_range` is caught like that of `at`, `std::invalid_argument` is
not caught. -/
def sto_result {α : Type} (flag : String) (r : Except sto_error α) : Except parse_failure α :=
  match r with
  | Except.ok x => Except.ok x
  | Except.error sto_error.out_of_range =>
    Except.error (parse_failure.exit_failure (flag ++ " is missing an argument"))
  | Except.error sto_error.invalid_argument => Except.error parse_failure.invalid_argument

/-- One iteration of the loop of `Args::parse_args`, for the argument `flag` at
position `ai` and the argument at position `ai + 1`, if there is one.  `stof` is
`std::stof`, whose result (a `float`) is taken as a real number. -/
noncomputable def Args.parse_arg (stof : String → Except sto_error real) (a : Args)
    (flag : String) (value : Option String) : Except parse_failure Args :=
  if flag.data.head? ≠ some '-' then
    Except.error (parse_failure.exit_failure "Provided argument without a dash! Usage:")
  else if flag = "-h" then
    Except.error (parse_failure.exit_failure "Here is the help! Usage:")
  else if flag = "-input" then do
    let v ← arg_at flag value
    pure { a with input := v }
  else if flag = "-output" then do
    let v ← arg_at flag value
    pure { a with output := v }
  else if flag = "-max-step-size" then do
    let v ← arg_at flag value
    let x ← sto_result flag (stof v)
    pure { a with max_step_size := x }
  else if flag = "-start-lr" then do
    let v ← arg_at flag value
    let x ← sto_result flag (stof v)
    pure { a with start_lr := x }
  else if flag = "-end-lr" then do
    let v ← arg_at flag value
    let x ← sto_result flag (stof v)
    pure { a with end_lr := x }
  else if flag = "-burnin-lr" then do
    let v ← arg_at flag value
    let x ← sto_result flag (stof v)
    pure { a with burnin_lr := x }
  else if flag = "-distribution-power" then do
    let v ← arg_at flag value
    let x ← sto_result flag (stof v)
    pure { a with distribution_power := x }
  else if flag = "-init-std-dev" then do
    let v ← arg_at flag value
    let x ← sto_result flag (stof v)
    pure { a with init_std_dev := x }
  else if flag = "-dimension" then do
    let v ← arg_at flag value
    let n ← sto_result flag (stoi v)
    pure { a with dimension := n }
  else if flag = "-window-size" then do
    let v ← arg_at flag value
    let n ← sto_result flag (stoi v)
    pure { a with window_size := n }
  else if flag = "-epochs" then do
    let v ← arg_at flag value
    let n ← sto_result flag (stoi v)
    pure { a with epochs := n }
  else if flag = "-burnin-epochs" then do
    let v ← arg_at flag value
    let n ← sto_result flag (stoi v)
    pure { a with burnin_epochs := n }
  else if flag = "-min-count" then do
    let v ← arg_at flag value
    let n ← sto_result flag (stoi v)
    pure { a with min_count := n }
  else if flag = "-checkpoint-interval" then do
    let v ← arg_at flag value
    let n ← sto_result flag (stoi v)
    pure { a with checkpoint_interval := n }
  else if flag = "-number-negatives" then do
    let v ← arg_at flag value
    let n ← sto_result flag (stoi v)
    pure { a with number_negatives := n }
  else if flag = "-threads" then do
    let v ← arg_at flag value
    let n ← sto_result flag (stoi v)
    pure { a with threads := n }
  else if flag = "-seed" then do
    let v ← arg_at flag value
    let n ← sto_result flag (stoi v)
    pure { a with seed := n }
  else if flag = "-t" then do
    let v ← arg_at flag value
    let x ← sto_result flag (stof v)
    pure { a with t := x }
  else Except.error (parse_failure.exit_failure ("Unknown argument: " ++ flag))

/-- The `for` loop of `Args::parse_args` over the arguments from position `ai`
on (`ai += 2` in every iteration). -/
noncomputable def Args.parse_loop (stof : String → Except sto_error real) :
    List String → Args → Except parse_failure Args
  | [], a => Except.ok a
  | [flag], a => Args.parse_arg stof a flag none
  | flag :: value :: rest, a => do
    let a1 ← Args.parse_arg stof a flag (some value)
    Args.parse_loop stof rest a1

/-- `Args::parse_args`: the loop starts at position 1 (position 0 holds the name
of the program), and an empty `input` or `output` after the loop is reported
like the other errors. -/
noncomputable def Args.parse_args (stof : String → Except sto_error real) (a : Args)
    (args : List String) : Except parse_failure Args := do
  let a1 ← Args.parse_loop stof args.tail a
  if a1.input.isEmpty ∨ a1.output.isEmpty then
    Except.error (parse_failure.exit_failure "Empty input or output path.")
  else pure a1

/-! ## std::sort of libstdc++ (bits/stl_algo.h)

`std::sort` is not part of the sources of the program.  The functions below
follow the implementation in GCC's standard library, `std::__sort` of
`bits/stl_algo.h` (an introsort: quicksort steps on ranges of more than
`_S_threshold = 16` elements, then one insertion sort), on an array given as the
list of its elements, with positions counted from the start of the array.  A
read outside the array gives `none`. -/

/-- `std::iter_swap(first + i, first + j)` on the array `xs`. -/
def stl.iter_swap {α : Type} (xs : List α) (i j : ℕ) : Option (List α) :=
  match xs[i]?, xs[j]? with
  | some a, some b => some ((xs.set i b).set j a)
  | _, _ => none

/-- `std::__move_median_to_first(result, a, b, c, comp)`. -/
def stl.move_median_to_first {α : Type} (comp : α → α → Bool) (xs : List α)
    (result a b c : ℕ) : Option (List α) :=
  match xs[a]?, xs[b]?, xs[c]? with
  | some va, some vb, some vc =>
    if comp va vb then
      if comp vb vc then stl.iter_swap xs result b
      else if comp va vc then stl.iter_swap xs result c
      else stl.iter_swap xs result a
    else if comp va vc then stl.iter_swap xs result a
    else if comp vb vc then stl.iter_swap xs result c
    else stl.iter_swap xs result b
  | _, _, _ => none

/-- The loop `while (comp(first, pivot)) ++first;` of `std::__unguarded_partition`:
the value of `first` when it is left. -/
def stl.partition_up {α : Type} (comp : α → α → Bool) (xs : List α) (pivot : ℕ) :
    ℕ → ℕ → Option ℕ
  | 0, _ => none
  | fuel + 1, first =>
    match xs[first]?, xs[pivot]? with
    | some x, some p =>
      if comp x p then stl.partition_up comp xs pivot fuel (first + 1) else some first
    | _, _ => none

/-- The loop `while (comp(pivot, last)) --last;` of `std::__unguarded_partition`. -/
def stl.partition_down {α : Type} (comp : α → α → Bool) (xs : List α) (pivot : ℕ) :
    ℕ → ℕ → Option ℕ
  | 0, _ => none
  | fuel + 1, last =>
    match xs[last]?, xs[pivot]? with
    | some x, some p =>
      if comp p x then
        if last = 0 then none else stl.partition_down comp xs pivot fuel (last - 1)
      else some last
    | _, _ => none

/-- `std::__unguarded_partition(first, last, pivot, comp)`: the array and the
returned position. -/
def stl.unguarded_partition {α : Type} (comp : α → α → Bool) (pivot : ℕ) :
    ℕ → List α → ℕ → ℕ → Option (List α × ℕ)
  | 0, _, _, _ => none
  | fuel + 1, xs, first, last =>
    match stl.partition_up comp xs pivot (xs.length + 1) first with
    | none => none
    | some first =>
      if last = 0 then none
      else
        match stl.partition_down comp xs pivot (xs.length + 1) (last - 1) with
        | none => none
        | some last =>
          if ¬ first < last then some (xs, first)
          else
            match stl.iter_swap xs first last with
            | none => none
            | some xs => stl.unguarded_partition comp pivot fuel xs (first + 1) last

/-- `std::__unguarded_partition_pivot(first, last, comp)`. -/
def stl.unguarded_partition_pivot {α : Type} (comp : α → α → Bool) (xs : List α)
    (first last : ℕ) : Option (List α × ℕ) :=
  let mid := first + (last - first) / 2
  match stl.move_median_to_first comp xs first (first + 1) mid (last - 1) with
  | none => none
  | some xs => stl.unguarded_partition comp first (xs.length + 1) xs (first + 1) last

/-- `std::__introsort_loop(first, last, depth_limit, comp)`.  When `depth_limit`
reaches `0` the code sorts the range with `std::__partial_sort` (heap sort),
which is not modelled: the result is `none` there. -/
def stl.introsort_loop {α : Type} (comp : α → α → Bool) : ℕ → List α → ℕ → ℕ → Option (List α)
  | 0, xs, first, last => if last - first > 16 then none else some xs
  | depth_limit + 1, xs, first, last =>
    if last - first > 16 then
      match stl.unguarded_partition_pivot comp xs first last with
      | none => none
      | some (xs, cut) =>
        match stl.introsort_loop comp depth_limit xs cut last with
        | none => none
        | some xs => stl.introsort_loop comp depth_limit xs first cut
    else some xs

/-- The loop of `std::__unguarded_linear_insert(last, comp)` with the value
`val` taken out of the array. -/
def stl.linear_insert_loop {α : Type} (comp : α → α → Bool) (val : α) :
    ℕ → List α → ℕ → Option (List α)
  | 0, _, _ => none
  | fuel + 1, xs, last =>
    if last = 0 then none
    else
      match xs[last - 1]? with
      | none => none
      | some x =>
        if comp val x then stl.linear_insert_loop comp val fuel (xs.set last x) (last - 1)
        else some (xs.set last val)

/-- `std::__unguarded_linear_insert(last, comp)`. -/
def stl.unguarded_linear_insert {α : Type} (comp : α → α → Bool) (xs : List α) (last : ℕ) :
    Option (List α) :=
  match xs[last]? with
  | none => none
  | some val => stl.linear_insert_loop comp val (xs.length + 1) xs last

/-- The `for` loop of `std::__insertion_sort(first, last, comp)` from the
position `i`, for `n` more positions. -/
def stl.insertion_sort_loop {α : Type} (comp : α → α → Bool) (first : ℕ) :
    ℕ → List α → ℕ → Option (List α)
  | 0, xs, _ => some xs
  | n + 1, xs, i =>
    match xs[i]?, xs[first]? with
    | some val, some x =>
      if comp val x then
        stl.insertion_sort_loop comp first n
          (xs.take first ++ val :: (xs.take i).drop first ++ xs.drop (i + 1)) (i + 1)
      else
        match stl.unguarded_linear_insert comp xs i with
        | none => none
        | some xs => stl.insertion_sort_loop comp first n xs (i + 1)
    | _, _ => none

/-- `std::__insertion_sort(first, last, comp)`. -/
def stl.insertion_sort {α : Type} (comp : α → α → Bool) (xs : List α) (first last : ℕ) :
    Option (List α) :=
  if first = last then some xs
  else stl.insertion_sort_loop comp first (last - (first + 1)) xs (first + 1)

/-- `std::__unguarded_insertion_sort(first, last, comp)`, for `n = last - first`
positions from `i = first`. -/
def stl.unguarded_insertion_sort {α : Type} (comp : α → α → Bool) :
    ℕ → List α → ℕ → Option (List α)
  | 0, xs, _ => some xs
  | n + 1, xs, i =>
    match stl.unguarded_linear_insert comp xs i with
    | none => none
    | some xs => stl.unguarded_insertion_sort comp n xs (i + 1)

/-- `std::__final_insertion_sort(first, last, comp)`. -/
def stl.final_insertion_sort {α : Type} (comp : α → α → Bool) (xs : List α) (first last : ℕ) :
    Option (List α) :=
  if last - first > 16 then
    match stl.insertion_sort comp xs first (first + 16) with
    | none => none
    | some xs => stl.unguarded_insertion_sort comp (last - (first + 16)) xs (first + 16)
  else stl.insertion_sort comp xs first last

/-- The halvings of `std::__lg(n)`. -/
def stl.lg_loop : ℕ → ℕ → ℕ
  | 0, _ => 0
  | fuel + 1, n => if n ≤ 1 then 0 else stl.lg_loop fuel (n / 2) + 1

/-- `std::__lg(n)`: the position of the highest bit of `n`. -/
def stl.lg (n : ℕ) : ℕ := stl.lg_loop n n

/-- `std::sort(first, last, comp)` on the whole array (`std::__sort`). -/
def stl.sort {α : Type} (comp : α → α → Bool) (xs : List α) : Option (List α) :=
  if xs.length = 0 then some xs
  else
    match stl.introsort_loop comp (stl.lg xs.length * 2) xs 0 xs.length with
    | none => none
    | some xs => stl.final_insertion_sort comp xs 0 xs.length

/-- The call `sort(words_.begin(), words_.end(), comp)` of `Dictionary::threshold`
with the comparison `e1.count > e2.count`, as libstdc++ executes it (the list is
left as it is where the model of `std::sort` gives no result). -/
def Dictionary.sort_words (words : List entry) : List entry :=
  (stl.sort (fun e1 e2 => decide (e1.count > e2.count)) words).getD words

/-! ## Auxiliary definitions for the proofs -/

/-- The Minkowski form of two coordinate functions in dimension `n`. -/
def mform (n : ℕ) (f g : ℕ → ℝ) : ℝ :=
  ∑ i in Finset.range (n - 1), f i * g i - f (n - 1) * g (n - 1)

/-- The invariant of the model in dimension `d`: every entry of the embedding
table has dimension `d` and lies on the hyperboloid, and the scratch vector
`acc_grad_source_` has dimension `d`. -/
def table_ok (d : ℕ) (m : Model) : Prop :=
  (∀ v ∈ m.vectors_, v.size = d ∧ on_hyperboloid v) ∧ m.acc_grad_source_.size = d

/-- The invariant of the `while` loop of `obtain_vectors`: the locks of `source`
and of every id in `samples` are held, the ids in `samples` are pairwise
distinct and differ from `source`, the first one is `target` and the later
ones are entries of the negative table other than `target`. -/
def lock_inv (mk : Minkowski) (source target : ℕ) (flags : List Bool) (samples : List ℕ) :
    Prop :=
  flags[source]? = some true
  ∧ (∀ x ∈ samples, flags[x]? = some true)
  ∧ samples.Nodup ∧ source ∉ samples
  ∧ samples[0]? = some target
  ∧ ∀ x ∈ samples.tail, x ∈ mk.negatives_ ∧ x ≠ target

/-- The frame of the lock acquisition: `flags` is `flags0` with the locks of
`source` and of the ids in `samples`, all free in `flags0`, now held. -/
def lock_frame (flags0 flags : List Bool) (source : ℕ) (samples : List ℕ) : Prop :=
  ∀ i, ((i = source ∨ i ∈ samples) → flags0[i]? = some false ∧ flags[i]? = some true)
    ∧ (¬ (i = source ∨ i ∈ samples) → flags[i]? = flags0[i]?)

/-- The number `n` written with `w` decimal digits, most significant first,
with leading zeros. -/
def fixed_digits : ℕ → ℕ → List Char
  | 0, _ => []
  | w + 1, n => fixed_digits w (n / 10) ++ [Nat.digitChar (n % 10)]

/-- The six-digit zero-padded decimal representation `NNNNNN` of an epoch. -/
def six_digits (n : ℕ) : String := String.mk (fixed_digits 6 n)

/-- Reading a string of decimal digits as a number. -/
def parse_decimal (s : String) : ℕ :=
  s.data.foldl (fun acc c => 10 * acc + (c.toNat - 48)) 0

/-- The path of the checkpoint file for `epoch`:
`<output>-after-NNNNNN-epochs.csv`. -/
def Minkowski.checkpoint_path (mk : Minkowski) (epoch : ℕ) : String :=
  mk.args_.output ++ "-after-" ++ six_digits epoch ++ "-epochs" ++ ".csv"

/-- The Euclidean norm of a vector: the square root of the sum of the squares of
all its coordinates. -/
noncomputable def euclid_norm (v : Vector) : real :=
  Real.sqrt (∑ i in Finset.range v.size, v.get i ^ 2)

/-- The slot that the loop of `Dictionary::find` inspects in its `j`-th
iteration for the word `w`. -/
def probe (w : String) (j : ℕ) : ℕ :=
  (Dictionary.hash w % Dictionary.HASHTABLE_SIZE + j) % Dictionary.HASHTABLE_SIZE

/-- The invariant of the hash table `T` with respect to the first `n` of the
words `names`: every slot is free or holds an id below `n`; every one of the
first `n` words is found by probing from its hash over occupied slots; the
first `n` words are pairwise distinct; and no id is held by two slots. -/
def table_inv (T : ℕ → ℤ) (names : List String) (n : ℕ) : Prop :=
  n ≤ names.length
  ∧ (∀ s, T s = -1 ∨ (0 ≤ T s ∧ T s < n))
  ∧ (∀ k w, k < n → names[k]? = some w →
      ∃ j, T (probe w j) = k ∧ ∀ i, i < j → T (probe w i) ≠ -1)
  ∧ (∀ i j w, i < n → j < n → names[i]? = some w → names[j]? = some w → i = j)
  ∧ (∀ s s1, T s = T s1 → T s ≠ -1 → s = s1)

/-- The words that successive calls of `read_word` return until a call returns
false; `none` when more than `fuel` calls are needed. -/
def read_words : ℕ → istream → Option (List String)
  | 0, _ => none
  | fuel + 1, stream =>
    match Dictionary.read_word stream with
    | (true, w, stream1) => (read_words fuel stream1).map (fun l => w :: l)
    | (false, _, _) => some []

/-- The tokens of a stream: all the words that `read_word` returns from the
current position on. -/
def all_words (stream : istream) : List String :=
  (read_words (stream.rest.length + 1) stream).getD []

/-- What the standard promises of `std::sort` with the comparison
`e1.count > e2.count`: the result is a permutation of the argument in which no
later entry compares before an earlier one. -/
def sort_contract (sort : List entry → List entry) : Prop :=
  ∀ l, (sort l).Perm l ∧ (sort l).Pairwise (fun a b => ¬ b.count > a.count)

/-- A sort that keeps entries of equal count in their order (insertion sort). -/
def stable_sort (l : List entry) : List entry :=
  List.insertionSort (fun a b => b.count ≤ a.count) l

/-- The invariant of the loop of `determine_vocabulary` after the tokens
`tokens` have been recorded. -/
def count_inv (d : Dictionary) (tokens : List String) : Prop :=
  d.size_ = d.words_.length
  ∧ d.ntokens_ = tokens.length
  ∧ table_inv d.word2int_ (d.words_.map entry.word) d.words_.length
  ∧ (∀ e ∈ d.words_, e.word ∈ tokens ∧ e.count = tokens.count e.word)
  ∧ (∀ w ∈ tokens, ∃ e ∈ d.words_, e.word = w)
  ∧ d.words_.length ≤ tokens.length

/-- The arguments at the positions 1, 3, 5, ... of the command line (the flag
positions), each with the argument that follows it, if there is one; the
argument list is given from position 1 on. -/
def flag_pairs : List String → List (String × Option String)
  | [] => []
  | [flag] => [(flag, none)]
  | flag :: value :: rest => (flag, some value) :: flag_pairs rest

/-- The value that follows the last occurrence of `flag` at a flag position. -/
def last_value (flag : String) : List (String × Option String) → Option String
  | [] => none
  | p :: rest =>
    match last_value flag rest with
    | some v => some v
    | none => if p.1 = flag then p.2 else none

/-- The flags whose value is a path. -/
def string_flags : List String := ["-input", "-output"]

/-- The flags whose value is read by `std::stof`. -/
def real_flags : List String :=
  ["-max-step-size", "-start-lr", "-end-lr", "-burnin-lr", "-distribution-power",
    "-init-std-dev", "-t"]

/-- The flags whose value is read by `std::stoi`. -/
def int_flags : List String :=
  ["-dimension", "-window-size", "-epochs", "-burnin-epochs", "-min-count",
    "-checkpoint-interval", "-number-negatives", "-threads", "-seed"]

/-- The field of `Args` that a path flag sets. -/
def Args.string_field (a : Args) (flag : String) : Option String :=
  if flag = "-input" then some a.input
  else if flag = "-output" then some a.output
  else none

/-- The field of `Args` that a flag with a real value sets. -/
def Args.real_field (a : Args) (flag : String) : Option real :=
  if flag = "-max-step-size" then some a.max_step_size
  else if flag = "-start-lr" then some a.start_lr
  else if flag = "-end-lr" then some a.end_lr
  else if flag = "-burnin-lr" then some a.burnin_lr
  else if flag = "-distribution-power" then some a.distribution_power
  else if flag = "-init-std-dev" then some a.init_std_dev
  else if flag = "-t" then some a.t
  else none

/-- The field of `Args` that a flag with an integer value sets. -/
def Args.int_field (a : Args) (flag : String) : Option ℤ :=
  if flag = "-dimension" then some a.dimension
  else if flag = "-window-size" then some a.window_size
  else if flag = "-epochs" then some a.epochs
  else if flag = "-burnin-epochs" then some a.burnin_epochs
  else if flag = "-min-count" then some a.min_count
  else if flag = "-checkpoint-interval" then some a.checkpoint_interval
  else if flag = "-number-negatives" then some a.number_negatives
  else if flag = "-threads" then some a.threads
  else if flag = "-seed" then some a.seed
  else none

/-- A flag position that `parse_args` rejects with a message, the help and
`exit(EXIT_FAILURE)`: an argument without a leading dash, `-h`, an unknown
flag, a flag without a value, or a numeric value out of range. -/
def pair_rejected (stof : String → Except sto_error real) (p : String × Option String) : Prop :=
  p.1.data.head? ≠ some '-' ∨ p.1 = "-h"
    ∨ (p.1 ∉ string_flags ∧ p.1 ∉ real_flags ∧ p.1 ∉ int_flags)
    ∨ p.2 = none
    ∨ (p.1 ∈ int_flags ∧ ∃ v, p.2 = some v ∧ stoi v = Except.error sto_error.out_of_range)
    ∨ (p.1 ∈ real_flags ∧ ∃ v, p.2 = some v ∧ stof v = Except.error sto_error.out_of_range)

/-- A numeric flag whose value is not a number: `std::stoi` or `std::stof` throws
`std::invalid_argument`. -/
def pair_non_numeric (stof : String → Except sto_error real) (p : String × Option String) :
    Prop :=
  (p.1 ∈ int_flags ∧ ∃ v, p.2 = some v ∧ stoi v = Except.error sto_error.invalid_argument)
    ∨ (p.1 ∈ real_flags ∧ ∃ v, p.2 = some v ∧ stof v = Except.error sto_error.invalid_argument)

/-- A command line (given from position 1 on) that `parse_args` rejects with a
message, the help and `exit(EXIT_FAILURE)`: some flag position is rejected, or
no non-empty `-input`, or no non-empty `-output`, is given. -/
def args_rejected (stof : String → Except sto_error real) (l : List String) : Prop :=
  (∃ p ∈ flag_pairs l, pair_rejected stof p)
    ∨ (last_value "-input" (flag_pairs l)).getD "" = ""
    ∨ (last_value "-output" (flag_pairs l)).getD "" = ""

/-- The white-space characters of the specification: space, `\t`, `\n`, `\r`,
`\v`, `\f` and `\0`. -/
def is_whitespace (c : Char) : Bool :=
  c = ' ' ∨ c = '\t' ∨ c = '\n' ∨ c = '\r' ∨ c = Char.ofNat 11 ∨ c = Char.ofNat 12
    ∨ c = Char.ofNat 0

/-- The words of one line: the line split at the white-space characters, with
the empty pieces dropped. -/
def line_words (line : List Char) : List String :=
  ((line.splitOnP is_whitespace).filter fun piece => piece ≠ []).map String.mk

/-- The reference tokenisation, after the words of the specification: the input
is split at the line breaks, every line gives its words, and one `</s>` stands
for every line break, at the position of that line break. -/
def reference_tokens (input : List Char) : List String :=
  List.intercalate [Dictionary.EOS] ((input.splitOnP fun c => c = '\n').map line_words)

/-- The call `model.log_bilinear_negative_sampling(source, samples, lr)` that the
body of the loops of `Minkowski::skipgram` makes for the position `w` and the
offset `c`, as the pair of its arguments `(source, samples)`; `none` when the
body makes no call (the pair is out of the line or `obtain_vectors` did not
return true). -/
def Minkowski.skipgram_step_call (line : List ℕ) (num_negatives : ℤ) (fuel w : ℕ) (c : ℤ)
    (st : Minkowski × Model × List ℕ × ℕ) : Option (ℕ × List ℕ) :=
  if c ≠ 0 ∧ 0 ≤ (w : ℤ) + c ∧ (w : ℤ) + c < line.length then
    match (line)[w]?, (line)[((w : ℤ) + c).toNat]? with
    | some source, some target =>
      match st.1.obtain_vectors source target st.2.2.1 num_negatives st.2.2.2 fuel with
      | some (true, _, samples, _) => some (source, samples)
      | _ => none
    | _, _ => none
  else none

/-- The arithmetic without rounding: the real power, sum, product and quotient. -/
noncomputable def exact_arith : real_arith :=
  ⟨fun count power => (count : ℝ) ^ power, fun x y => x + y, fun x y => x * y, fun x y => x / y⟩

/-- The loop bound `c * NEGATIVE_TABLE_SIZE / z` that `generate_negative_samples`
computes for the id `i` with the arithmetic `fl`. -/
noncomputable def computed_bound (fl : real_arith) (power : real) (counts : List ℤ) (i : ℕ) :
    real :=
  fl.div (fl.mul (fl.pow (counts.getD i 0) power) NEGATIVE_TABLE_SIZE)
    ((List.range counts.length).foldl (fun z j => fl.add z (fl.pow (counts.getD j 0) power)) 0.0)

/-- The real number `count_i^alpha * T / sum_j count_j^alpha` with
`T = NEGATIVE_TABLE_SIZE`, which the loop bound approximates. -/
noncomputable def exact_bound (power : real) (counts : List ℤ) (i : ℕ) : real :=
  ((counts.getD i 0 : ℤ) : ℝ) ^ power * NEGATIVE_TABLE_SIZE
    / ∑ j in Finset.range counts.length, ((counts.getD j 0 : ℤ) : ℝ) ^ power

/-! ### Basic facts about the vector operations -/

theorem foldl_add_eq_sum (f : ℕ → ℝ) (n : ℕ) (a : ℝ) :
    (List.range n).foldl (fun r i => r + f i) a = a + ∑ i in Finset.range n, f i := by
  induction n with
  | zero => simp
  | succ n ih => simp [List.range_succ, List.foldl_append, ih, Finset.sum_range_succ, add_assoc]

theorem minkowski_dot_sum (v w : Vector) :
    minkowski_dot v w
      = ∑ i in Finset.range (v.length - 1), v.get i * w.get i
        - v.get (v.length - 1) * w.get (v.length - 1) := by
  simp [minkowski_dot, Vector.size, foldl_add_eq_sum]

theorem minkowski_dot_mform (v w : Vector) :
    minkowski_dot v w = mform v.length v.get w.get := by
  rw [minkowski_dot_sum, mform]

theorem mform_comm (n : ℕ) (f g : ℕ → ℝ) : mform n f g = mform n g f := by
  simp only [mform, mul_comm]

theorem mform_lin_left (n : ℕ) (f g h x : ℕ → ℝ) (a b : ℝ)
    (hf : ∀ i, f i = a * g i + b * h i) :
    mform n f x = a * mform n g x + b * mform n h x := by
  simp only [mform, hf, add_mul, Finset.sum_add_distrib, mul_assoc, ← Finset.mul_sum]
  ring

theorem mform_lin_right (n : ℕ) (f g h x : ℕ → ℝ) (a b : ℝ)
    (hf : ∀ i, f i = a * g i + b * h i) :
    mform n x f = a * mform n x g + b * mform n x h := by
  rw [mform_comm n x f, mform_comm n x g, mform_comm n x h]
  exact mform_lin_left n f g h x a b hf

theorem get_multiply (v : Vector) (a : ℝ) (i : ℕ) :
    (Vector.multiply v a).get i = v.get i * a := by
  unfold Vector.multiply Vector.get
  rcases lt_or_le i v.length with h | h
  · simp [List.getD_eq_getElem?_getD, List.getElem?_eq_getElem, h]
  · simp [List.getD_eq_getElem?_getD, List.getElem?_eq_none, h]

theorem length_multiply (v : Vector) (a : ℝ) : (Vector.multiply v a).length = v.length := by
  simp [Vector.multiply]

theorem add_of_length {v w : Vector} (s : ℝ) (h : v.length = w.length) :
    Vector.add v w s = some (List.zipWith (fun x y => x + s * y) v w) := by
  simp [Vector.add, Vector.size, h]

theorem get_zipWith (v w : Vector) (s : ℝ) (h : v.length = w.length) (i : ℕ) :
    Vector.get (List.zipWith (fun x y => x + s * y) v w) i = v.get i + s * w.get i := by
  unfold Vector.get
  rcases lt_or_le i v.length with hi | hi
  · have hw : i < w.length := h ▸ hi
    simp [List.getD_eq_getElem?_getD, List.getElem?_zipWith, List.getElem?_eq_getElem, hi, hw]
  · have hw : w.length ≤ i := h ▸ hi
    simp [List.getD_eq_getElem?_getD, List.getElem?_zipWith, List.getElem?_eq_none, hi, hw]

theorem length_zipWith (v w : Vector) (s : ℝ) (h : v.length = w.length) :
    (List.zipWith (fun x y => x + s * y) v w).length = v.length := by
  simp [h]

theorem minkowski_dot_multiply_left (v w : Vector) (a : ℝ) :
    minkowski_dot (Vector.multiply v a) w = a * minkowski_dot v w := by
  rw [minkowski_dot_mform, minkowski_dot_mform, length_multiply,
    mform_lin_left v.length _ v.get v.get w.get a 0 (fun i => by rw [get_multiply]; ring)]
  ring

theorem minkowski_dot_multiply_right (v w : Vector) (a : ℝ) :
    minkowski_dot v (Vector.multiply w a) = a * minkowski_dot v w := by
  rw [minkowski_dot_mform, minkowski_dot_mform,
    mform_lin_right v.length _ w.get w.get v.get a 0 (fun i => by rw [get_multiply]; ring)]
  ring

theorem minkowski_dot_zipWith_left (v w x : Vector) (s : ℝ) (h : v.length = w.length) :
    minkowski_dot (List.zipWith (fun x y => x + s * y) v w) x
      = minkowski_dot v x + s * minkowski_dot w x := by
  rw [minkowski_dot_mform, minkowski_dot_mform, minkowski_dot_mform, length_zipWith v w s h, ← h,
    mform_lin_left v.length _ v.get w.get x.get 1 s (fun i => by rw [get_zipWith v w s h]; ring)]
  ring

theorem minkowski_dot_zipWith_right (v w x : Vector) (s : ℝ) (h : v.length = w.length) :
    minkowski_dot x (List.zipWith (fun x y => x + s * y) v w)
      = minkowski_dot x v + s * minkowski_dot x w := by
  rw [minkowski_dot_mform, minkowski_dot_mform, minkowski_dot_mform,
    mform_lin_right x.length _ v.get w.get x.get 1 s (fun i => by rw [get_zipWith v w s h]; ring)]
  ring

theorem minkowski_dot_comm (v w : Vector) (h : v.length = w.length) :
    minkowski_dot v w = minkowski_dot w v := by
  rw [minkowski_dot_mform, minkowski_dot_mform, h, mform_comm]

/-- Cauchy-Schwarz for the space-like part: a vector orthogonal to a point of
the hyperboloid is space-like or zero. -/
theorem mform_tangent_nonneg (n : ℕ) (p t : ℕ → ℝ) (hp : mform n p p = -1)
    (hpt : mform n p t = 0) : 0 ≤ mform n t t := by
  unfold mform at *
  have cs := Finset.sum_mul_sq_le_sq_mul_sq (Finset.range (n - 1)) p t
  have hP : 0 ≤ ∑ i in Finset.range (n - 1), p i ^ 2 := Finset.sum_nonneg fun i _ => sq_nonneg _
  have hT : 0 ≤ ∑ i in Finset.range (n - 1), t i ^ 2 := Finset.sum_nonneg fun i _ => sq_nonneg _
  have e1 : ∑ i in Finset.range (n - 1), p i * p i = ∑ i in Finset.range (n - 1), p i ^ 2 :=
    Finset.sum_congr rfl fun i _ => by ring
  have e2 : ∑ i in Finset.range (n - 1), t i * t i = ∑ i in Finset.range (n - 1), t i ^ 2 :=
    Finset.sum_congr rfl fun i _ => by ring
  rw [e1] at hp
  rw [e2]
  set P := ∑ i in Finset.range (n - 1), p i ^ 2
  set T := ∑ i in Finset.range (n - 1), t i ^ 2
  set PT := ∑ i in Finset.range (n - 1), p i * t i
  set a := p (n - 1)
  set b := t (n - 1)
  have hPT : PT = a * b := by linarith
  rw [hPT] at cs
  have hP' : P = a * a - 1 := by linarith
  rw [hP'] at cs hP
  by_contra hneg
  push_neg at hneg
  have hb : 0 ≤ b * b := mul_self_nonneg b
  nlinarith [mul_nonneg hP (by linarith : (0:ℝ) ≤ b * b - T), mul_self_nonneg a]

/-- Cauchy-Schwarz for the space-like part: the time coordinate of a unit
tangent vector is smaller than that of the point. -/
theorem mform_tangent_time (n : ℕ) (p t : ℕ → ℝ) (hp : mform n p p = -1)
    (hpt : mform n p t = 0) (ht : mform n t t = 1) :
    t (n - 1) ^ 2 ≤ p (n - 1) ^ 2 - 1 := by
  unfold mform at *
  have cs := Finset.sum_mul_sq_le_sq_mul_sq (Finset.range (n - 1)) p t
  have e1 : ∑ i in Finset.range (n - 1), p i * p i = ∑ i in Finset.range (n - 1), p i ^ 2 :=
    Finset.sum_congr rfl fun i _ => by ring
  have e2 : ∑ i in Finset.range (n - 1), t i * t i = ∑ i in Finset.range (n - 1), t i ^ 2 :=
    Finset.sum_congr rfl fun i _ => by ring
  rw [e1] at hp
  rw [e2] at ht
  set P := ∑ i in Finset.range (n - 1), p i ^ 2
  set T := ∑ i in Finset.range (n - 1), t i ^ 2
  set PT := ∑ i in Finset.range (n - 1), p i * t i
  set a := p (n - 1)
  set b := t (n - 1)
  have hPT : PT = a * b := by linarith
  have hP' : P = a * a - 1 := by linarith
  have hT' : T = b * b + 1 := by linarith
  rw [hPT, hP', hT'] at cs
  nlinarith

/-! ### The geodesic update -/

theorem ensure_on_hyperboloid_noop (v : Vector) (h : minkowski_dot v v = -1) :
    Vector.ensure_on_hyperboloid v = some v := by
  unfold Vector.ensure_on_hyperboloid
  simp [h, MDP_ERROR_TOLERANCE]
  norm_num

/-- The vector that `geodesic_update` computes before `ensure_on_hyperboloid`. -/
theorem geodesic_point_dot (p t : Vector) (s : ℝ) (hl : t.length = p.length)
    (hp : minkowski_dot p p = -1) (hpt : minkowski_dot p t = 0) (ht : minkowski_dot t t = 1) :
    minkowski_dot
      (List.zipWith (fun x y => x + Real.sinh s * y) (Vector.multiply p (Real.cosh s)) t)
      (List.zipWith (fun x y => x + Real.sinh s * y) (Vector.multiply p (Real.cosh s)) t) = -1 := by
  have hl' : (Vector.multiply p (Real.cosh s)).length = t.length := by
    rw [length_multiply, hl]
  have htp : minkowski_dot t p = 0 := by rw [minkowski_dot_comm t p hl]; exact hpt
  rw [minkowski_dot_zipWith_left _ _ _ _ hl', minkowski_dot_zipWith_right _ _ _ _ hl',
    minkowski_dot_zipWith_right _ _ _ _ hl', minkowski_dot_multiply_left,
    minkowski_dot_multiply_left, minkowski_dot_multiply_right, minkowski_dot_multiply_right,
    hp, hpt, htp, ht]
  have := Real.cosh_sq s
  nlinarith

theorem geodesic_point_last (p t : Vector) (s : ℝ) (hl : t.length = p.length)
    (hp : minkowski_dot p p = -1) (hpos : 0 < p.get (p.size - 1))
    (hpt : minkowski_dot p t = 0) (ht : minkowski_dot t t = 1) :
    0 < Real.cosh s * p.get (p.length - 1) + Real.sinh s * t.get (p.length - 1) := by
  rw [minkowski_dot_mform] at hp hpt ht
  rw [hl] at ht
  have hb := mform_tangent_time p.length p.get t.get hp hpt ht
  have hc := Real.cosh_sq s
  have hcp := Real.cosh_pos s
  unfold Vector.size at hpos
  set a := p.get (p.length - 1)
  set b := t.get (p.length - 1)
  set c := Real.cosh s
  set z := Real.sinh s
  have h1 : (z * b) ^ 2 < (c * a) ^ 2 := by nlinarith [sq_nonneg z, sq_nonneg a, sq_nonneg b]
  have h2 : |z * b| < |c * a| := sq_lt_sq.mp h1
  rw [abs_of_pos (mul_pos hcp hpos)] at h2
  have := (abs_lt.mp h2).1
  linarith

theorem geodesic_update_eq (p t : Vector) (s : ℝ) (hl : t.length = p.length)
    (hp : minkowski_dot p p = -1)
    (hpt : minkowski_dot p t = 0) (ht : minkowski_dot t t = 1) :
    Vector.geodesic_update p t s
      = some (List.zipWith (fun x y => x + Real.sinh s * y)
          (Vector.multiply p (Real.cosh s)) t) := by
  have hl' : (Vector.multiply p (Real.cosh s)).length = t.length := by
    rw [length_multiply, hl]
  unfold Vector.geodesic_update
  simp only [add_of_length _ hl', Option.bind_eq_bind, Option.some_bind]
  exact ensure_on_hyperboloid_noop _ (geodesic_point_dot p t s hl hp hpt ht)

theorem geodesic_update_on_hyperboloid (p t : Vector) (s : ℝ) (hl : t.length = p.length)
    (hp : on_hyperboloid p) (hpt : minkowski_dot p t = 0) (ht : minkowski_dot t t = 1) :
    ∃ q, Vector.geodesic_update p t s = some q ∧ q.length = p.length ∧ on_hyperboloid q
      ∧ (∀ i, q.get i = Real.cosh s * p.get i + Real.sinh s * t.get i)
      ∧ minkowski_dot p q = -Real.cosh s := by
  have hl' : (Vector.multiply p (Real.cosh s)).length = t.length := by
    rw [length_multiply, hl]
  have hget : ∀ i, Vector.get (List.zipWith (fun x y => x + Real.sinh s * y)
      (Vector.multiply p (Real.cosh s)) t) i
      = Real.cosh s * p.get i + Real.sinh s * t.get i := fun i => by
    rw [get_zipWith _ _ _ hl', get_multiply]; ring
  have hlen : (List.zipWith (fun x y => x + Real.sinh s * y)
      (Vector.multiply p (Real.cosh s)) t).length = p.length := by
    rw [length_zipWith _ _ _ hl', length_multiply]
  refine ⟨_, geodesic_update_eq p t s hl hp.1 hpt ht, hlen, ⟨?_, ?_⟩, hget, ?_⟩
  · exact geodesic_point_dot p t s hl hp.1 hpt ht
  · rw [Vector.size, hlen, hget]
    exact geodesic_point_last p t s hl hp.1 hp.2 hpt ht
  · rw [minkowski_dot_zipWith_right _ _ _ _ hl', minkowski_dot_multiply_right, hp.1, hpt]
    ring

theorem acosh_cosh (s : ℝ) (hs : 0 ≤ s) : acosh (Real.cosh s) = s := by
  unfold acosh
  have h1 : Real.cosh s ^ 2 - 1 = Real.sinh s ^ 2 := by rw [Real.cosh_sq]; ring
  rw [h1, Real.sqrt_sq (Real.sinh_nonneg_iff.mpr hs), Real.cosh_add_sinh, Real.log_exp]

theorem zipWith_multiply_left (p t : Vector) (c z : ℝ) :
    List.zipWith (fun x y => x + z * y) (Vector.multiply p c) t
      = List.zipWith (fun x y => c * x + z * y) p t := by
  unfold Vector.multiply
  rw [List.zipWith_map_left]
  congr 1
  funext x y
  rw [mul_comm]

theorem project_eq (v p : Vector) (hl : v.length = p.length) (hp : minkowski_dot p p = -1) :
    Vector.project_onto_tangent_space v p
        = some (List.zipWith (fun x y => x + minkowski_dot p v * y) v p)
      ∧ minkowski_dot p (List.zipWith (fun x y => x + minkowski_dot p v * y) v p) = 0 := by
  refine ⟨?_, ?_⟩
  · unfold Vector.project_onto_tangent_space
    exact add_of_length _ hl
  · rw [minkowski_dot_zipWith_right _ _ _ _ hl, hp]
    ring

/-- C5: `minkowski_dot v w` is the sum over `i < d-1` of `v[i]*w[i]` minus
`v[d-1]*w[d-1]`, where `d` is the dimension of `v`; for `v = (1, 0.5, -2)` and
`w = (0, 0.5, 1)` it is `2.25`. -/
theorem minkowski_dot_spec :
    (∀ v w : Vector,
      minkowski_dot v w
        = ∑ i in Finset.range (v.size - 1), v.get i * w.get i
          - v.get (v.size - 1) * w.get (v.size - 1))
    ∧ minkowski_dot [1, 0.5, -2] [0, 0.5, 1] = 2.25 := by
  refine ⟨fun v w => minkowski_dot_sum v w, ?_⟩
  simp [minkowski_dot, Vector.size, Vector.get, List.range_succ]
  norm_num


/-- C2: `geodesic_update` is the exponential map and stays on the upper sheet.
For a point `p` of the hyperboloid, a unit tangent vector `t` at `p` and any
real `s`, `p.geodesic_update(t, s)` returns `cosh s * p + sinh s * t`
(coordinatewise), which has Minkowski self-product `-1` and positive last
coordinate, so that the trailing `ensure_on_hyperboloid` changes nothing. -/
theorem geodesic_update_exponential_map (p t : Vector) (s : ℝ)
    (hl : t.size = p.size) (hp : minkowski_dot p p = -1) (hpos : 0 < p.get (p.size - 1))
    (hpt : minkowski_dot p t = 0) (ht : minkowski_dot t t = 1) :
    ∃ q, Vector.geodesic_update p t s = some q
      ∧ q = List.zipWith (fun x y => Real.cosh s * x + Real.sinh s * y) p t
      ∧ minkowski_dot q q = -1 ∧ 0 < q.get (q.size - 1)
      ∧ Vector.add (Vector.multiply p (Real.cosh s)) t (Real.sinh s) = some q
      ∧ Vector.ensure_on_hyperboloid q = some q := by
  obtain ⟨q, hq, _, hon, _, _⟩ := geodesic_update_on_hyperboloid p t s hl ⟨hp, hpos⟩ hpt ht
  have hl' : (Vector.multiply p (Real.cosh s)).length = t.length := by
    rw [length_multiply]; exact hl.symm
  have hq' := geodesic_update_eq p t s hl hp hpt ht
  rw [hq] at hq'
  have hq2 : q = List.zipWith (fun x y => Real.cosh s * x + Real.sinh s * y) p t := by
    rw [← zipWith_multiply_left]; exact Option.some.inj hq'
  refine ⟨q, hq, hq2, hon.1, hon.2, ?_, ensure_on_hyperboloid_noop q hon.1⟩
  rw [add_of_length _ hl', zipWith_multiply_left, hq2]

/-- The scenario of C2: `d = 2`, `p = (0, 1)`, `t = (1, 0)`, `s = 0.5` gives
`(sinh 0.5, cosh 0.5)`. -/
theorem geodesic_update_exponential_map_witness :
    Vector.geodesic_update [0, 1] [1, 0] 0.5 = some [Real.sinh 0.5, Real.cosh 0.5] := by
  obtain ⟨q, hq, hq2, _⟩ := geodesic_update_exponential_map [0, 1] [1, 0] 0.5 rfl
    (by simp [minkowski_dot, Vector.size, Vector.get, List.range_succ])
    (by simp [Vector.size, Vector.get])
    (by simp [minkowski_dot, Vector.size, Vector.get, List.range_succ])
    (by simp [minkowski_dot, Vector.size, Vector.get, List.range_succ])
  rw [hq, hq2]
  simp

/-- C3: the exponential map is a radial isometry.  For a point `p` of the
hyperboloid, a unit tangent vector `t` at `p` and `s > 0`, the point `q`
returned by `p.geodesic_update(t, s)` satisfies `distance(p, q) = s` and
`-<p, q>_M = cosh s`. -/
theorem geodesic_update_distance (p t : Vector) (s : ℝ)
    (hl : t.size = p.size) (hp : on_hyperboloid p)
    (hpt : minkowski_dot p t = 0) (ht : minkowski_dot t t = 1) (hs : 0 < s) :
    ∃ q, Vector.geodesic_update p t s = some q ∧ distance p q = s
      ∧ -minkowski_dot p q = Real.cosh s := by
  obtain ⟨q, hq, _, _, _, hd⟩ := geodesic_update_on_hyperboloid p t s hl hp hpt ht
  refine ⟨q, hq, ?_, by rw [hd]; ring⟩
  unfold distance
  rw [hd, neg_neg]
  exact acosh_cosh s hs.le

/-- The test `geodesicUpdate`: from the basepoint along `(1, 0)` for distance `3`. -/
theorem geodesic_update_distance_witness :
    ∃ q, Vector.geodesic_update [0, 1] [1, 0] 3 = some q ∧ distance [0, 1] q = 3
      ∧ -minkowski_dot [0, 1] q = Real.cosh 3 :=
  geodesic_update_distance [0, 1] [1, 0] 3 rfl
    ⟨by simp [minkowski_dot, Vector.size, Vector.get, List.range_succ],
     by simp [Vector.size, Vector.get]⟩
    (by simp [minkowski_dot, Vector.size, Vector.get, List.range_succ])
    (by simp [minkowski_dot, Vector.size, Vector.get, List.range_succ])
    (by norm_num)

/-- C4: `v.project_onto_tangent_space(p)` replaces `v` by `v + <p,v>_M * p`,
and when `<p,p>_M = -1` the result is Minkowski-orthogonal to `p`. -/
theorem project_onto_tangent_space_spec (v p : Vector)
    (hl : v.size = p.size) (hp : minkowski_dot p p = -1) :
    ∃ u, Vector.project_onto_tangent_space v p = some u
      ∧ u = List.zipWith (fun x y => x + minkowski_dot p v * y) v p
      ∧ minkowski_dot p u = 0 :=
  ⟨_, (project_eq v p hl hp).1, rfl, (project_eq v p hl hp).2⟩

/-- The test `projectOntoTangentSpace`: `(1.5, 1)` projected at the basepoint. -/
theorem project_onto_tangent_space_spec_witness :
    ∃ u, Vector.project_onto_tangent_space [1.5, 1] [0, 1] = some u
      ∧ u = List.zipWith (fun x y => x + minkowski_dot [0, 1] [1.5, 1] * y) [1.5, 1] [0, 1]
      ∧ minkowski_dot [0, 1] u = 0 :=
  project_onto_tangent_space_spec [1.5, 1] [0, 1] rfl
    (by simp [minkowski_dot, Vector.size, Vector.get, List.range_succ])


/-- C6: on a time-like vector (`<v,v>_M < 0`) `ensure_on_hyperboloid` returns
normally; the result is `v` itself when `|<v,v>_M + 1| <= 1e-15` and
`v / sqrt(-<v,v>_M)` otherwise, in which case its self-product is exactly `-1`.
In both cases the result is a positive multiple of `v`, its last coordinate has
the sign of that of `v`, and its self-product is within `1e-15` of `-1`. -/
theorem ensure_on_hyperboloid_spec (v : Vector) (h : minkowski_dot v v < 0) :
    ∃ r c, Vector.ensure_on_hyperboloid v = some r
      ∧ 0 < c ∧ r = Vector.multiply v c
      ∧ SignType.sign (r.get (r.size - 1)) = SignType.sign (v.get (v.size - 1))
      ∧ (|minkowski_dot v v + 1| ≤ 1e-15 → r = v)
      ∧ (¬ |minkowski_dot v v + 1| ≤ 1e-15 →
          r = v.map (fun x => x / Real.sqrt (-minkowski_dot v v)) ∧ minkowski_dot r r = -1)
      ∧ |minkowski_dot r r + 1| ≤ 1e-15 := by
  by_cases hc : |minkowski_dot v v + 1| ≤ 1e-15
  · have hr : Vector.ensure_on_hyperboloid v = some v := by
      unfold Vector.ensure_on_hyperboloid
      simp [MDP_ERROR_TOLERANCE, not_lt.mpr hc]
    refine ⟨v, 1, hr, one_pos, ?_, rfl, fun _ => rfl, fun hn => absurd hc hn, hc⟩
    simp [Vector.multiply]
  · have hs : 0 < Real.sqrt (-minkowski_dot v v) := Real.sqrt_pos.mpr (by linarith)
    have hr : Vector.ensure_on_hyperboloid v
        = some (Vector.multiply v (1.0 / Real.sqrt (-minkowski_dot v v))) := by
      unfold Vector.ensure_on_hyperboloid
      simp [MDP_ERROR_TOLERANCE, not_le.mp hc, h]
    have hdot : minkowski_dot (Vector.multiply v (1.0 / Real.sqrt (-minkowski_dot v v)))
        (Vector.multiply v (1.0 / Real.sqrt (-minkowski_dot v v))) = -1 := by
      rw [minkowski_dot_multiply_left, minkowski_dot_multiply_right]
      have hsq : Real.sqrt (-minkowski_dot v v) * Real.sqrt (-minkowski_dot v v)
          = -minkowski_dot v v := Real.mul_self_sqrt (by linarith)
      field_simp
      linarith
    refine ⟨_, 1.0 / Real.sqrt (-minkowski_dot v v), hr, by positivity, rfl, ?_,
      fun hn => absurd hn hc, fun _ => ⟨?_, hdot⟩, ?_⟩
    · rw [Vector.size, length_multiply, get_multiply, sign_mul, Vector.size]
      have : SignType.sign (1.0 / Real.sqrt (-minkowski_dot v v)) = 1 :=
        sign_pos (by positivity)
      rw [this, mul_one]
    · unfold Vector.multiply
      congr 1
      funext x
      rw [show (1.0 : ℝ) = 1 by norm_num]
      ring
    · rw [hdot]
      norm_num

/-- The scenarios of C6: `(0, 1.000001)` becomes `(0, 1)` and the basepoint
`(0, 1)` is unchanged. -/
theorem ensure_on_hyperboloid_spec_witness :
    Vector.ensure_on_hyperboloid [0, 1.000001] = some [0, 1]
    ∧ Vector.ensure_on_hyperboloid [0, 1] = some [0, 1] := by
  have e1 : minkowski_dot [0, 1.000001] [0, 1.000001] = -(1.000001 ^ 2) := by
    simp [minkowski_dot, Vector.size, Vector.get, List.range_succ]
    ring
  have e2 : minkowski_dot [0, 1] [0, 1] = -1 := by
    simp [minkowski_dot, Vector.size, Vector.get, List.range_succ]
  constructor
  · obtain ⟨r, c, hr, _, _, _, _, h2, _⟩ :=
      ensure_on_hyperboloid_spec [0, 1.000001] (by rw [e1]; norm_num)
    have hn : ¬ |minkowski_dot [0, 1.000001] [0, 1.000001] + 1| ≤ 1e-15 := by
      rw [e1, not_le, abs_of_neg (by norm_num)]
      norm_num
    rw [hr, (h2 hn).1, e1, neg_neg, Real.sqrt_sq (by norm_num)]
    norm_num
  · obtain ⟨r, c, hr, _, _, _, h1, _, _⟩ :=
      ensure_on_hyperboloid_spec [0, 1] (by rw [e2]; norm_num)
    rw [hr, h1 (by rw [e2]; norm_num)]

/-- C7: the assertion of `ensure_on_hyperboloid` fires exactly on the vectors
that are not time-like (`<v,v>_M >= 0`); on every time-like vector the function
returns normally. -/
theorem ensure_on_hyperboloid_fails_iff (v : Vector) :
    (Vector.ensure_on_hyperboloid v = none ↔ 0 ≤ minkowski_dot v v)
    ∧ ((Vector.ensure_on_hyperboloid v).isSome ↔ minkowski_dot v v < 0) := by
  have key : Vector.ensure_on_hyperboloid v = none ↔ 0 ≤ minkowski_dot v v := by
    unfold Vector.ensure_on_hyperboloid
    simp only [MDP_ERROR_TOLERANCE]
    constructor
    · intro hn
      split at hn
      · split at hn
        · simp at hn
        · linarith
      · simp at hn
    · intro h0
      have : |minkowski_dot v v + 1| > 1e-15 := by
        rw [abs_of_pos (by linarith)]
        have : (1e-15 : ℝ) < 1 := by norm_num
        linarith
      simp [this, not_lt.mpr h0]
  refine ⟨key, ?_⟩
  rw [← not_le, ← key, ← Option.not_isSome_iff_eq_none, not_not]


/-! ### `Model::update` -/

theorem update_small (m : Model) (p t : Vector) (h0 : 0 ≤ minkowski_dot t t)
    (h : Real.sqrt (minkowski_dot t t) < MIN_STEP_SIZE) :
    m.update p t = some (p, Vector.multiply t (1.0 / Real.sqrt (minkowski_dot t t))) := by
  unfold Model.update
  simp [h, not_lt.mpr h0]

theorem update_large (m : Model) (p t : Vector) (hl : t.length = p.length)
    (hp : on_hyperboloid p) (hpt : minkowski_dot p t = 0)
    (h : MIN_STEP_SIZE ≤ Real.sqrt (minkowski_dot t t)) :
    ∃ q, m.update p t = some (q, Vector.multiply t (1.0 / Real.sqrt (minkowski_dot t t)))
      ∧ q.length = p.length ∧ on_hyperboloid q
      ∧ minkowski_dot p q
          = -Real.cosh (min (Real.sqrt (minkowski_dot t t)) m.args_.max_step_size) := by
  have hMIN : (0 : ℝ) < MIN_STEP_SIZE := by unfold MIN_STEP_SIZE; norm_num
  have hst : 0 < Real.sqrt (minkowski_dot t t) := lt_of_lt_of_le hMIN h
  have hsq : Real.sqrt (minkowski_dot t t) * Real.sqrt (minkowski_dot t t)
      = minkowski_dot t t := Real.mul_self_sqrt (Real.sqrt_pos.mp hst).le
  set st := Real.sqrt (minkowski_dot t t) with hstdef
  have hl1 : (Vector.multiply t (1.0 / st)).size = p.size := by
    rw [Vector.size, length_multiply]; exact hl
  have hpt1 : minkowski_dot p (Vector.multiply t (1.0 / st)) = 0 := by
    rw [minkowski_dot_multiply_right, hpt, mul_zero]
  have ht1 : minkowski_dot (Vector.multiply t (1.0 / st)) (Vector.multiply t (1.0 / st)) = 1 := by
    rw [minkowski_dot_multiply_left, minkowski_dot_multiply_right, ← hsq]
    rw [show (1.0 : ℝ) = 1 by norm_num]
    field_simp
  have hclip : (if st > m.args_.max_step_size then m.args_.max_step_size else st)
      = min st m.args_.max_step_size := by
    rcases le_or_lt st m.args_.max_step_size with hle | hgt
    · rw [if_neg (not_lt.mpr hle), min_eq_left hle]
    · rw [if_pos hgt, min_eq_right hgt.le]
  obtain ⟨q, hq, hql, hqon, _, hqd⟩ := geodesic_update_on_hyperboloid p
    (Vector.multiply t (1.0 / st)) (min st m.args_.max_step_size) hl1 hp hpt1 ht1
  refine ⟨q, ?_, hql, hqon, hqd⟩
  unfold Model.update
  simp only [← hstdef, not_lt.mpr (Real.sqrt_pos.mp hst).le, not_lt.mpr h, if_false, hclip, hq,
    Option.map_some']

theorem update_preserves (m : Model) (p t : Vector) (hl : t.length = p.length)
    (hp : on_hyperboloid p) (hpt : minkowski_dot p t = 0) :
    ∃ q t1, m.update p t = some (q, t1) ∧ q.length = p.length ∧ on_hyperboloid q
      ∧ t1.length = t.length := by
  have h0 : 0 ≤ minkowski_dot t t := by
    have h1 := hp.1
    rw [minkowski_dot_mform] at h1 hpt ⊢
    rw [hl]
    exact mform_tangent_nonneg p.length p.get t.get h1 hpt
  rcases lt_or_le (Real.sqrt (minkowski_dot t t)) MIN_STEP_SIZE with h | h
  · exact ⟨p, _, update_small m p t h0 h, rfl, hp, length_multiply _ _⟩
  · obtain ⟨q, hq, hql, hqon, _⟩ := update_large m p t hl hp hpt h
    exact ⟨q, _, hq, hql, hqon, length_multiply _ _⟩

/-- C8 as the code has it: when `step = sqrt(<tangent,tangent>_M)` (the square
root of a non-negative number) is below `MIN_STEP_SIZE`, `Model::update` returns
with the point unchanged; and when moreover `0 < step`, the tangent has already
been multiplied by `1/step`, because the normalisation precedes the test of the
step size.  At `step = 0` the code multiplies the tangent by `1.0 / 0.0`, which
is no real number, and nothing is stated about the tangent there. -/
theorem update_small_step (m : Model) (point tangent : Vector)
    (h0 : 0 ≤ minkowski_dot tangent tangent)
    (h : Real.sqrt (minkowski_dot tangent tangent) < MIN_STEP_SIZE) :
    (∃ tangent1, m.update point tangent = some (point, tangent1))
    ∧ (0 < minkowski_dot tangent tangent →
      0 < Real.sqrt (minkowski_dot tangent tangent)
      ∧ m.update point tangent
        = some (point,
            Vector.multiply tangent (1.0 / Real.sqrt (minkowski_dot tangent tangent)))) :=
  ⟨⟨_, update_small m point tangent h0 h⟩,
    fun hpos => ⟨Real.sqrt_pos.mpr hpos, update_small m point tangent h0 h⟩⟩

/-- C8 at the basepoint of dimension 2 with the tangent `(1e-11, 0)`, whose step
is `1e-11 > 0`. -/
theorem update_small_step_witness :
    (Model.init [[0, 1]] { Args.default with dimension := 2 }).update [0, 1] [1e-11, 0]
      = some ([0, 1],
          Vector.multiply [1e-11, 0] (1.0 / Real.sqrt (minkowski_dot [1e-11, 0] [1e-11, 0]))) :=
  ((update_small_step _ [0, 1] [1e-11, 0]
    (by
      have e : minkowski_dot [1e-11, 0] [1e-11, 0] = (1e-11 : ℝ) ^ 2 := by
        simp [minkowski_dot, Vector.size, Vector.get, List.range_succ]
        ring
      rw [e]
      positivity)
    (by
      have e : minkowski_dot [1e-11, 0] [1e-11, 0] = (1e-11 : ℝ) ^ 2 := by
        simp [minkowski_dot, Vector.size, Vector.get, List.range_succ]
        ring
      rw [e, Real.sqrt_sq (by norm_num)]
      unfold MIN_STEP_SIZE
      norm_num)).2
    (by
      have e : minkowski_dot [1e-11, 0] [1e-11, 0] = (1e-11 : ℝ) ^ 2 := by
        simp [minkowski_dot, Vector.size, Vector.get, List.range_succ]
        ring
      rw [e]
      positivity)).2

/-- C8 fails as stated: at the basepoint of dimension 2 the tangent
`(1e-11, 0)` has step `1e-11 < MIN_STEP_SIZE`, the point is unchanged, and the
tangent comes back as `(1, 0)`, not as it was passed. -/
theorem update_tangent_changed_counterexample :
    Real.sqrt (minkowski_dot [1e-11, 0] [1e-11, 0]) < MIN_STEP_SIZE
    ∧ (Model.init [[0, 1]] { Args.default with dimension := 2 }).update [0, 1] [1e-11, 0]
        = some ([0, 1], [1, 0])
    ∧ ([1, 0] : Vector) ≠ [1e-11, 0] := by
  have e : minkowski_dot [1e-11, 0] [1e-11, 0] = (1e-11 : ℝ) ^ 2 := by
    simp [minkowski_dot, Vector.size, Vector.get, List.range_succ]
    ring
  have hs : Real.sqrt (minkowski_dot [1e-11, 0] [1e-11, 0]) = 1e-11 := by
    rw [e, Real.sqrt_sq (by norm_num)]
  have hlt : Real.sqrt (minkowski_dot [1e-11, 0] [1e-11, 0]) < MIN_STEP_SIZE := by
    rw [hs]; unfold MIN_STEP_SIZE; norm_num
  refine ⟨hlt, ?_, ?_⟩
  · rw [update_small _ _ _ (by rw [e]; positivity) hlt, hs]
    simp [Vector.multiply]
    norm_num
  · intro hne
    have := (List.cons.inj hne).1
    norm_num at this

/-- C9: `Model::update` bounds the displacement.  For a point `p` of the
hyperboloid, a tangent vector `t` at `p` with `sqrt(<t,t>_M) >= 1e-10` and
`max_step_size > 0`, `update(p, t)` returns and the hyperbolic distance between
the old and the new point is `min(sqrt(<t,t>_M), max_step_size)`, hence at
most `max_step_size`. -/
theorem update_bounded_displacement (m : Model) (p t : Vector)
    (hl : t.size = p.size) (hp : on_hyperboloid p) (hpt : minkowski_dot p t = 0)
    (hstep : (1e-10 : ℝ) ≤ Real.sqrt (minkowski_dot t t))
    (hmax : 0 < m.args_.max_step_size) :
    ∃ q t1, m.update p t = some (q, t1)
      ∧ distance p q = min (Real.sqrt (minkowski_dot t t)) m.args_.max_step_size
      ∧ distance p q ≤ m.args_.max_step_size := by
  obtain ⟨q, hq, _, _, hqd⟩ := update_large m p t hl hp hpt hstep
  have hpos : 0 ≤ min (Real.sqrt (minkowski_dot t t)) m.args_.max_step_size :=
    le_min (Real.sqrt_nonneg _) hmax.le
  have hd : distance p q = min (Real.sqrt (minkowski_dot t t)) m.args_.max_step_size := by
    unfold distance
    rw [hqd, neg_neg]
    exact acosh_cosh _ hpos
  exact ⟨q, _, hq, hd, hd ▸ min_le_right _ _⟩

/-- C9 at the basepoint of dimension 2 with the tangent `(3, 0)` and
`max_step_size = 2`, the value set by `Args::Args()`: the step is clipped. -/
theorem update_bounded_displacement_witness :
    ∃ q t1, (Model.init [[0, 1]] { Args.default with dimension := 2 }).update [0, 1] [3, 0]
        = some (q, t1)
      ∧ distance [0, 1] q = min (Real.sqrt (minkowski_dot [3, 0] [3, 0])) 2.0
      ∧ distance [0, 1] q ≤ 2.0 :=
  update_bounded_displacement (Model.init [[0, 1]] { Args.default with dimension := 2 })
    [0, 1] [3, 0] rfl
    ⟨by simp [minkowski_dot, Vector.size, Vector.get, List.range_succ],
     by simp [Vector.size, Vector.get]⟩
    (by simp [minkowski_dot, Vector.size, Vector.get, List.range_succ])
    (by
      have e : minkowski_dot [3, 0] [3, 0] = (3 : ℝ) ^ 2 := by
        simp [minkowski_dot, Vector.size, Vector.get, List.range_succ]
        ring
      rw [e, Real.sqrt_sq (by norm_num)]
      norm_num)
    (by
      simp only [Model.init, Args.default]
      norm_num)


/-! ### The on-hyperboloid invariant of the embedding table -/

theorem binary_logistic_preserves (d : ℕ) (m : Model) (input : Vector) (target : ℕ)
    (label : Bool) (lr : ℝ) (hm : table_ok d m) (hin : input.length = d)
    (ht : target < m.vectors_.length) :
    ∃ m1 loss, m.binary_logistic input target label lr = some (m1, loss)
      ∧ table_ok d m1 ∧ m1.vectors_.length = m.vectors_.length ∧ m1.args_ = m.args_ := by
  have hv : m.vectors_[target]? = some m.vectors_[target] := List.getElem?_eq_getElem ht
  obtain ⟨hvl, hvon⟩ := hm.1 _ (List.getElem_mem ht)
  set v := m.vectors_[target] with hvdef
  unfold Vector.size at hvl
  have hacc : m.acc_grad_source_.length = v.length := by rw [hvl]; exact hm.2
  set delta : ℝ := (if label then 1 else 0) - m.sigmoid (minkowski_dot input v + SHIFT)
    with hdelta
  have hgl : (Vector.multiply input (lr * delta)).length = v.length := by
    rw [length_multiply, hin, hvl]
  obtain ⟨hproj, hdot⟩ := project_eq (Vector.multiply input (lr * delta)) v hgl hvon.1
  have hgl2 : (List.zipWith (fun x y => x + minkowski_dot v (Vector.multiply input (lr * delta)) * y)
      (Vector.multiply input (lr * delta)) v).length = v.length := by
    rw [length_zipWith _ _ _ hgl, hgl]
  obtain ⟨q, t1, hq, hql, hqon, _⟩ := update_preserves m v _ hgl2 hvon hdot
  have heq : m.binary_logistic input target label lr
      = some ({ m with vectors_ := m.vectors_.set target q,
                       acc_grad_source_ :=
                         List.zipWith (fun x y => x + delta * y) m.acc_grad_source_ v,
                       grad_output_ := t1 },
              if label then -Real.log (m.sigmoid (minkowski_dot input v + SHIFT) + 1e-8)
              else -Real.log (1.0 - m.sigmoid (minkowski_dot input v + SHIFT) + 1e-8)) := by
    unfold Model.binary_logistic
    simp only [hv, Option.bind_eq_bind, Option.some_bind, add_of_length _ hacc, ← hdelta, hproj,
      hq, Option.pure_def]
  refine ⟨_, _, heq, ?_⟩
  · refine ⟨⟨?_, ?_⟩, ?_, rfl⟩
    · intro u hu
      rcases List.mem_or_eq_of_mem_set hu with h | h
      · exact hm.1 u h
      · rw [h]; exact ⟨by rw [Vector.size, hql, hvl], hqon⟩
    · show (List.zipWith _ m.acc_grad_source_ v).length = d
      rw [length_zipWith _ _ _ hacc]; exact hm.2
    · simp

theorem sampling_loop_preserves (d : ℕ) (source : ℕ) (lr : ℝ) (samples : List ℕ) :
    ∀ (m : Model) (n : ℕ), table_ok d m → source < m.vectors_.length →
      (∀ s ∈ samples, s < m.vectors_.length) →
      ∃ m1, Model.sampling_loop source lr m samples n = some m1
        ∧ table_ok d m1 ∧ m1.vectors_.length = m.vectors_.length ∧ m1.args_ = m.args_ := by
  induction samples with
  | nil =>
    intro m n hm _ _
    exact ⟨m, rfl, hm, rfl, rfl⟩
  | cons s rest ih =>
    intro m n hm hsrc hs
    have hv : m.vectors_[source]? = some m.vectors_[source] := List.getElem?_eq_getElem hsrc
    have hin : (m.vectors_[source]).length = d := (hm.1 _ (List.getElem_mem hsrc)).1
    obtain ⟨m1, loss, hbl, hok, hlen, hargs⟩ := binary_logistic_preserves d m m.vectors_[source] s
      (n == 0) lr hm hin (hs s (List.mem_cons_self _ _))
    obtain ⟨m2, hloop, hok2, hlen2, hargs2⟩ :=
      ih { m1 with performance_ := m1.performance_ + loss } (n + 1) hok
        (by show source < m1.vectors_.length; rw [hlen]; exact hsrc)
        (fun x hx => by
          show x < m1.vectors_.length
          rw [hlen]; exact hs x (List.mem_cons_of_mem _ hx))
    refine ⟨m2, ?_, hok2, hlen2.trans hlen, hargs2.trans hargs⟩
    unfold Model.sampling_loop
    simp only [hv, Option.bind_eq_bind, Option.some_bind, hbl]
    exact hloop

/-- C1: `Model::log_bilinear_negative_sampling` preserves the on-hyperboloid
invariant of the embedding table.  If every entry of the table has dimension
`d`, Minkowski self-product `-1` and positive last coordinate, the scratch
vector has dimension `d`, and `source` and all ids in `samples` are valid, then
the call returns normally (no assertion fires) and every entry of the table
again has dimension `d`, self-product `-1` and positive last coordinate.  This
holds for every learning rate and every `max_step_size`, and also when ids are
repeated. -/
theorem log_bilinear_negative_sampling_on_hyperboloid (d : ℕ) (m : Model) (source : ℕ)
    (samples : List ℕ) (lr : ℝ)
    (htab : ∀ v ∈ m.vectors_, v.size = d ∧ minkowski_dot v v = -1 ∧ 0 < v.get (v.size - 1))
    (hacc : m.acc_grad_source_.size = d)
    (hsource : source < m.vectors_.length)
    (hsamples : ∀ s ∈ samples, s < m.vectors_.length) :
    ∃ m1, m.log_bilinear_negative_sampling source samples lr = some m1
      ∧ m1.vectors_.length = m.vectors_.length
      ∧ ∀ v ∈ m1.vectors_, v.size = d ∧ minkowski_dot v v = -1 ∧ 0 < v.get (v.size - 1) := by
  have hm0 : table_ok d { m with acc_grad_source_ := Vector.zero m.acc_grad_source_ } :=
    ⟨htab, by show (Vector.zero m.acc_grad_source_).length = d
              rw [Vector.zero, List.length_map]; exact hacc⟩
  obtain ⟨m1, hloop, hok, hlen, _⟩ := sampling_loop_preserves d source lr samples
    { m with acc_grad_source_ := Vector.zero m.acc_grad_source_ } 0 hm0 hsource hsamples
  have hsrc1 : source < m1.vectors_.length := by rw [hlen]; exact hsource
  have hv : m1.vectors_[source]? = some m1.vectors_[source] := List.getElem?_eq_getElem hsrc1
  obtain ⟨hvl, hvon⟩ := hok.1 _ (List.getElem_mem hsrc1)
  set v := m1.vectors_[source] with hvdef
  unfold Vector.size at hvl
  have hal : (Vector.multiply m1.acc_grad_source_ lr).length = v.length := by
    rw [length_multiply, hvl]; exact hok.2
  obtain ⟨hproj, hdot⟩ := project_eq (Vector.multiply m1.acc_grad_source_ lr) v hal hvon.1
  have hal2 : (List.zipWith
      (fun x y => x + minkowski_dot v (Vector.multiply m1.acc_grad_source_ lr) * y)
      (Vector.multiply m1.acc_grad_source_ lr) v).length = v.length := by
    rw [length_zipWith _ _ _ hal, hal]
  obtain ⟨q, t1, hq, hql, hqon, _⟩ :=
    update_preserves { m1 with nexamples_ := m1.nexamples_ + 1 } v _ hal2 hvon hdot
  have heq : m.log_bilinear_negative_sampling source samples lr
      = some { m1 with nexamples_ := m1.nexamples_ + 1,
                       vectors_ := m1.vectors_.set source q,
                       acc_grad_source_ := t1 } := by
    unfold Model.log_bilinear_negative_sampling
    simp only [hloop, Option.bind_eq_bind, Option.some_bind, hv, hproj, hq, Option.pure_def]
  refine ⟨_, heq, ?_, ?_⟩
  · simp [hlen]
  · intro u hu
    rcases List.mem_or_eq_of_mem_set hu with h | h
    · exact hok.1 u h
    · rw [h]; exact ⟨by rw [Vector.size, hql, hvl], hqon⟩

/-- C1 on the table of dimension 2 that holds the basepoint `(0, 1)` and the
point `(0.75, 1.25)`, with source `0`, the single sample `1` and learning rate
`0.05`. -/
theorem log_bilinear_negative_sampling_on_hyperboloid_witness :
    ∃ m1, (Model.init [[0, 1], [0.75, 1.25]] { Args.default with dimension := 2 }
        ).log_bilinear_negative_sampling 0 [1] 0.05 = some m1
      ∧ m1.vectors_.length = 2
      ∧ ∀ v ∈ m1.vectors_, v.size = 2 ∧ minkowski_dot v v = -1 ∧ 0 < v.get (v.size - 1) :=
  log_bilinear_negative_sampling_on_hyperboloid 2
    (Model.init [[0, 1], [0.75, 1.25]] { Args.default with dimension := 2 }) 0 [1] 0.05
    (by
      intro v hv
      have hv2 : v = [0, 1] ∨ v = [0.75, 1.25] := by simpa [Model.init] using hv
      rcases hv2 with h | h
      · subst h
        simp [minkowski_dot, Vector.size, Vector.get, List.range_succ]
      · subst h
        simp [minkowski_dot, Vector.size, Vector.get, List.range_succ]
        norm_num)
    (by simp [Model.init, Vector.size])
    (by simp [Model.init])
    (by simp [Model.init])


/-! ### The lock acquisition protocol -/

theorem try_lock_true {flags flags1 : List Bool} {i : ℕ}
    (h : try_lock flags i = some (true, flags1)) :
    flags[i]? = some false ∧ flags1 = flags.set i true := by
  unfold try_lock at h
  cases hi : flags[i]? with
  | none => simp [hi] at h
  | some held =>
    cases held with
    | true => simp [hi] at h
    | false => simp [hi] at h; exact ⟨rfl, h.symm⟩

theorem try_lock_false {flags flags1 : List Bool} {i : ℕ}
    (h : try_lock flags i = some (false, flags1)) :
    flags[i]? = some true ∧ flags1 = flags := by
  unfold try_lock at h
  cases hi : flags[i]? with
  | none => simp [hi] at h
  | some held =>
    cases held with
    | true => simp [hi] at h; exact ⟨rfl, h.symm⟩
    | false => simp [hi] at h

theorem get_negative_sample_spec (mk : Minkowski) (target : ℕ) :
    ∀ (fuel rng negative rng1 : ℕ),
      mk.get_negative_sample target fuel rng = some (negative, rng1) →
      negative ∈ mk.negatives_ ∧ negative ≠ target := by
  intro fuel
  induction fuel with
  | zero => intro rng negative rng1 h; simp [Minkowski.get_negative_sample] at h
  | succ fuel ih =>
    intro rng negative rng1 h
    unfold Minkowski.get_negative_sample at h
    simp only at h
    cases hn : mk.negatives_[minstd_rand rng % mk.negatives_.length]? with
    | none => simp [hn] at h
    | some x =>
      simp only [hn] at h
      by_cases hx : target = x
      · rw [if_pos hx] at h
        exact ih _ _ _ h
      · rw [if_neg hx] at h
        simp only [Option.some.injEq, Prod.mk.injEq] at h
        rw [← h.1]
        exact ⟨List.getElem?_mem hn, fun e => hx e.symm⟩

theorem lock_inv_step (mk : Minkowski) (source target : ℕ) (flags : List Bool)
    (samples : List ℕ) (n : ℕ) (hinv : lock_inv mk source target flags samples)
    (hfree : flags[n]? = some false) (hn : n ∈ mk.negatives_ ∧ n ≠ target) :
    lock_inv mk source target (flags.set n true) (samples ++ [n]) := by
  obtain ⟨hsrc, hheld, hnd, hns, hhead, htail⟩ := hinv
  have hnsrc : n ≠ source := fun e => by rw [e, hsrc] at hfree; simp at hfree
  have hnmem : n ∉ samples := fun hm => by rw [hheld n hm] at hfree; simp at hfree
  have hlt : n < flags.length := (List.getElem?_eq_some.mp hfree).1
  have hne : samples ≠ [] := fun e => by rw [e] at hhead; simp at hhead
  refine ⟨?_, ?_, ?_, ?_, ?_, ?_⟩
  · rw [List.getElem?_set_ne hnsrc]; exact hsrc
  · intro x hx
    rcases List.mem_append.mp hx with h | h
    · have : n ≠ x := fun e => hnmem (e ▸ h)
      rw [List.getElem?_set_ne this]; exact hheld x h
    · rw [List.mem_singleton.mp h, List.getElem?_set_self hlt]
  · exact List.Nodup.append hnd (List.nodup_singleton n)
      (fun x hx hx1 => hnmem (List.mem_singleton.mp hx1 ▸ hx))
  · intro hm
    rcases List.mem_append.mp hm with h | h
    · exact hns h
    · exact hnsrc (List.mem_singleton.mp h).symm
  · rw [List.getElem?_append_left (List.length_pos.mpr hne)]; exact hhead
  · intro x hx
    rw [List.tail_append_of_ne_nil hne] at hx
    rcases List.mem_append.mp hx with h | h
    · exact htail x h
    · rw [List.mem_singleton.mp h]; exact hn

theorem obtain_loop_spec (mk : Minkowski) (source target : ℕ) (k : ℤ) :
    ∀ (fuel : ℕ) (flags : List Bool) (samples : List ℕ) (rng : ℕ)
      (flags1 : List Bool) (samples1 : List ℕ) (rng1 : ℕ),
      lock_inv mk source target flags samples →
      samples.length ≤ max 1 (samples_bound k) →
      mk.obtain_loop target k fuel flags samples rng = some (flags1, samples1, rng1) →
      lock_inv mk source target flags1 samples1
        ∧ samples_bound k ≤ samples1.length ∧ samples1.length ≤ max 1 (samples_bound k) := by
  intro fuel
  induction fuel with
  | zero =>
    intro flags samples rng flags1 samples1 rng1 hinv hlen h
    unfold Minkowski.obtain_loop at h
    split at h
    · simp at h
    · simp only [Option.some.injEq, Prod.mk.injEq] at h
      obtain ⟨h1, h2, _⟩ := h
      subst h1 h2
      exact ⟨hinv, by omega, hlen⟩
  | succ fuel ih =>
    intro flags samples rng flags1 samples1 rng1 hinv hlen h
    unfold Minkowski.obtain_loop at h
    split at h
    · rename_i hlt
      split at h
      · simp at h
      · rename_i n rng2 hneg
        split at h
        · simp at h
        · rename_i flags2 hlock
          obtain ⟨hfree, hset⟩ := try_lock_true hlock
          subst hset
          refine ih _ _ _ _ _ _ (lock_inv_step mk source target flags samples n hinv hfree
            (get_negative_sample_spec mk target _ _ _ _ hneg)) ?_ h
          rw [List.length_append, List.length_singleton]
          exact le_max_of_le_right hlt
        · rename_i flags2 hlock
          obtain ⟨_, hsame⟩ := try_lock_false hlock
          subst hsame
          exact ih _ _ _ _ _ _ hinv hlen h
    · simp only [Option.some.injEq, Prod.mk.injEq] at h
      obtain ⟨h1, h2, _⟩ := h
      subst h1 h2
      exact ⟨hinv, by omega, hlen⟩

theorem obtain_vectors_inv (mk : Minkowski) (source target : ℕ) (samples : List ℕ) (k : ℤ)
    (rng fuel : ℕ) (mk1 : Minkowski) (samples1 : List ℕ) (rng1 : ℕ)
    (h : mk.obtain_vectors source target samples k rng fuel = some (true, mk1, samples1, rng1)) :
    lock_inv mk source target mk1.vector_flags_ samples1
      ∧ samples1.length = max 1 (samples_bound k) := by
  unfold Minkowski.obtain_vectors at h
  split at h
  · simp at h
  · simp at h
  · rename_i flags2 hl1
    obtain ⟨hfree1, hset1⟩ := try_lock_true hl1
    split at h
    · simp at h
    · split at h <;> simp at h
    · rename_i flags3 hl2
      obtain ⟨hfree2, hset2⟩ := try_lock_true hl2
      split at h
      · simp at h
      · rename_i flags4 samples4 rng4 hloop
        simp only [Option.some.injEq, Prod.mk.injEq, true_and] at h
        obtain ⟨hmk, hs, _⟩ := h
        subst hs
        have hflags : mk1.vector_flags_ = flags4 := by rw [← hmk]
        rw [hflags]
        have hlt1 : source < mk.vector_flags_.length := (List.getElem?_eq_some.mp hfree1).1
        have hts : target ≠ source := by
          intro e
          rw [e, hset1, List.getElem?_set_self hlt1] at hfree2
          simp at hfree2
        have hlt2 : target < flags2.length := (List.getElem?_eq_some.mp hfree2).1
        have hinit : lock_inv mk source target flags3 [target] := by
          refine ⟨?_, ?_, List.nodup_singleton _, ?_, rfl, ?_⟩
          · rw [hset2, List.getElem?_set_ne hts, hset1, List.getElem?_set_self hlt1]
          · intro x hx
            rw [List.mem_singleton.mp hx, hset2, List.getElem?_set_self hlt2]
          · simpa using hts.symm
          · intro x hx; simp at hx
        obtain ⟨hinv, hge, hle⟩ := obtain_loop_spec mk source target k fuel flags3 [target] rng
          flags4 samples4 rng4 hinit (le_max_left _ _) hloop
        refine ⟨hinv, le_antisymm hle (max_le ?_ hge)⟩
        have hne : samples4 ≠ [] := fun e => by
          have := hinv.2.2.2.2.1
          rw [e] at this; simp at this
        exact List.length_pos.mpr hne

/-- C10 as the code has it, for `0 <= k` (with `k + 1` an `int32_t`): whenever `obtain_vectors(source,
target, samples, k, rng)` returns true, `samples` has exactly `k+1` entries,
`samples[0]` is `target`, every later entry is an element of the negative table
that differs from `target`, the entries are pairwise distinct and different
from `source`, and the locks of `source` and of every id in `samples` are
held. -/
theorem obtain_vectors_true (mk : Minkowski) (source target : ℕ) (samples : List ℕ) (k : ℤ)
    (rng fuel : ℕ) (mk1 : Minkowski) (samples1 : List ℕ) (rng1 : ℕ)
    (h : mk.obtain_vectors source target samples k rng fuel = some (true, mk1, samples1, rng1))
    (hk : 0 ≤ k) (hk31 : k + 1 < 2 ^ 31) :
    (samples1.length : ℤ) = k + 1
      ∧ samples1[0]? = some target
      ∧ (∀ x ∈ samples1.tail, x ∈ mk.negatives_ ∧ x ≠ target)
      ∧ samples1.Nodup ∧ source ∉ samples1
      ∧ mk1.vector_flags_[source]? = some true
      ∧ ∀ x ∈ samples1, mk1.vector_flags_[x]? = some true := by
  obtain ⟨⟨hsrc, hheld, hnd, hns, hhead, htail⟩, hlen⟩ :=
    obtain_vectors_inv mk source target samples k rng fuel mk1 samples1 rng1 h
  refine ⟨?_, hhead, htail, hnd, hns, hsrc, hheld⟩
  have hb : samples_bound k = (k + 1).toNat := by
    unfold samples_bound
    rw [Int.emod_eq_of_lt (by omega) (by omega)]
  rw [hlen, hb]
  omega

/-- C10 on a table of four free locks with the negative table `[2, 3, 1]`:
source `0`, target `1` and `k = 2` negatives, generator state `1`.  The call
returns true with `samples = [1, 3, 2]`. -/
theorem obtain_vectors_true_witness :
    (⟨Args.default, [], [false, false, false, false], [2, 3, 1], false⟩ : Minkowski).obtain_vectors
        0 1 [] 2 1 20
      = some (true, ⟨Args.default, [], [true, true, true, true], [2, 3, 1], false⟩, [1, 3, 2],
          minstd_rand (minstd_rand 1))
    ∧ (([1, 3, 2] : List ℕ).length : ℤ) = 2 + 1
    ∧ ([1, 3, 2] : List ℕ)[0]? = some 1
    ∧ (∀ x ∈ ([1, 3, 2] : List ℕ).tail, x ∈ [2, 3, 1] ∧ x ≠ 1)
    ∧ ([1, 3, 2] : List ℕ).Nodup ∧ 0 ∉ ([1, 3, 2] : List ℕ)
    ∧ ([true, true, true, true] : List Bool)[0]? = some true
    ∧ ∀ x ∈ ([1, 3, 2] : List ℕ), ([true, true, true, true] : List Bool)[x]? = some true := by
  have h : (⟨Args.default, [], [false, false, false, false], [2, 3, 1], false⟩ :
      Minkowski).obtain_vectors 0 1 [] 2 1 20
      = some (true, ⟨Args.default, [], [true, true, true, true], [2, 3, 1], false⟩, [1, 3, 2],
          minstd_rand (minstd_rand 1)) := by
    simp [Minkowski.obtain_vectors, Minkowski.obtain_loop, Minkowski.get_negative_sample,
      try_lock, samples_bound, minstd_rand]
  exact ⟨h, obtain_vectors_true _ 0 1 [] 2 1 20 _ [1, 3, 2] _ h (by norm_num) (by norm_num)⟩

/-- C10 fails as stated for `k = -1`: with two free locks, source `0` and
target `1`, `obtain_vectors` returns true and `samples` is `[1]`, which has one
entry and not `k + 1 = 0`. -/
theorem obtain_vectors_negative_count :
    ((⟨Args.default, [], [false, false], [0], false⟩ : Minkowski).obtain_vectors
        0 1 [] (-1) 1 0).map (fun r => (r.1, r.2.2.1)) = some (true, [1])
    ∧ (([1] : List ℕ).length : ℤ) ≠ -1 + 1 := by
  constructor
  · simp [Minkowski.obtain_vectors, Minkowski.obtain_loop, try_lock, samples_bound]
  · simp


/-! ### Failure and release of the lock acquisition -/

theorem set_set_of_free (flags : List Bool) (i : ℕ) (h : flags[i]? = some false) :
    (flags.set i true).set i false = flags := by
  apply List.ext_getElem?
  intro n
  have hlt : i < flags.length := (List.getElem?_eq_some.mp h).1
  by_cases hn : i = n
  · subst hn
    rw [List.getElem?_set_self (by simpa using hlt), h]
  · rw [List.getElem?_set_ne hn, List.getElem?_set_ne hn]

theorem unlock_of_lt (flags : List Bool) (i : ℕ) (h : i < flags.length) :
    unlock flags i = some (flags.set i false) := by
  unfold unlock
  rw [List.getElem?_eq_getElem h]

theorem release_loop_spec (samples : List ℕ) :
    ∀ flags : List Bool, (∀ s ∈ samples, s < flags.length) →
      ∃ flags1, release_loop flags samples = some flags1
        ∧ ∀ i, flags1[i]? = if i ∈ samples then some false else flags[i]? := by
  induction samples with
  | nil => intro flags _; exact ⟨flags, rfl, fun i => by simp⟩
  | cons s rest ih =>
    intro flags hs
    have hlt : s < flags.length := hs s (List.mem_cons_self _ _)
    obtain ⟨flags1, h1, h2⟩ := ih (flags.set s false) (fun x hx => by
      rw [List.length_set]; exact hs x (List.mem_cons_of_mem _ hx))
    refine ⟨flags1, ?_, ?_⟩
    · unfold release_loop
      rw [unlock_of_lt flags s hlt]
      exact h1
    · intro i
      rw [h2 i]
      by_cases hi : i ∈ rest
      · simp [hi]
      · by_cases his : s = i
        · subst his
          simp [List.getElem?_set_self hlt]
        · have : i ≠ s := fun e => his e.symm
          simp [hi, this, List.getElem?_set_ne his]

theorem obtain_loop_frame (mk : Minkowski) (source target : ℕ) (k : ℤ) (flags0 : List Bool) :
    ∀ (fuel : ℕ) (flags : List Bool) (samples : List ℕ) (rng : ℕ)
      (flags1 : List Bool) (samples1 : List ℕ) (rng1 : ℕ),
      lock_frame flags0 flags source samples →
      mk.obtain_loop target k fuel flags samples rng = some (flags1, samples1, rng1) →
      lock_frame flags0 flags1 source samples1 := by
  intro fuel
  induction fuel with
  | zero =>
    intro flags samples rng flags1 samples1 rng1 hinv h
    unfold Minkowski.obtain_loop at h
    split at h
    · simp at h
    · simp only [Option.some.injEq, Prod.mk.injEq] at h
      obtain ⟨h1, h2, _⟩ := h
      subst h1 h2
      exact hinv
  | succ fuel ih =>
    intro flags samples rng flags1 samples1 rng1 hinv h
    unfold Minkowski.obtain_loop at h
    split at h
    · split at h
      · simp at h
      · rename_i n rng2 hneg
        split at h
        · simp at h
        · rename_i flags2 hlock
          obtain ⟨hfree, hset⟩ := try_lock_true hlock
          subst hset
          have hlt : n < flags.length := (List.getElem?_eq_some.mp hfree).1
          have hnot : ¬ (n = source ∨ n ∈ samples) := fun hh => by
            rw [((hinv n).1 hh).2] at hfree
            simp at hfree
          refine ih _ _ _ _ _ _ ?_ h
          intro i
          by_cases hin : n = i
          · subst hin
            refine ⟨fun _ => ⟨?_, List.getElem?_set_self hlt⟩, fun hc => absurd (Or.inr (by simp)) hc⟩
            rw [← (hinv n).2 hnot]; exact hfree
          · rw [List.getElem?_set_ne hin]
            have hne : i ≠ n := fun e => hin e.symm
            constructor
            · intro hh
              apply (hinv i).1
              rcases hh with hh | hh
              · exact Or.inl hh
              · rcases List.mem_append.mp hh with h3 | h3
                · exact Or.inr h3
                · exact absurd (List.mem_singleton.mp h3) hne
            · intro hh
              apply (hinv i).2
              intro h3
              apply hh
              rcases h3 with h3 | h3
              · exact Or.inl h3
              · exact Or.inr (List.mem_append_left _ h3)
        · rename_i flags2 hlock
          obtain ⟨_, hsame⟩ := try_lock_false hlock
          subst hsame
          exact ih _ _ _ _ _ _ hinv h
    · simp only [Option.some.injEq, Prod.mk.injEq] at h
      obtain ⟨h1, h2, _⟩ := h
      subst h1 h2
      exact hinv

theorem obtain_vectors_frame (mk : Minkowski) (source target : ℕ) (samples : List ℕ) (k : ℤ)
    (rng fuel : ℕ) (mk1 : Minkowski) (samples1 : List ℕ) (rng1 : ℕ)
    (h : mk.obtain_vectors source target samples k rng fuel = some (true, mk1, samples1, rng1)) :
    mk1 = { mk with vector_flags_ := mk1.vector_flags_ }
      ∧ lock_frame mk.vector_flags_ mk1.vector_flags_ source samples1 := by
  unfold Minkowski.obtain_vectors at h
  split at h
  · simp at h
  · simp at h
  · rename_i flags2 hl1
    obtain ⟨hfree1, hset1⟩ := try_lock_true hl1
    split at h
    · simp at h
    · split at h <;> simp at h
    · rename_i flags3 hl2
      obtain ⟨hfree2, hset2⟩ := try_lock_true hl2
      split at h
      · simp at h
      · rename_i flags4 samples4 rng4 hloop
        simp only [Option.some.injEq, Prod.mk.injEq, true_and] at h
        obtain ⟨hmk, hs, _⟩ := h
        subst hs
        have hflags : mk1.vector_flags_ = flags4 := by rw [← hmk]
        refine ⟨by rw [← hmk], ?_⟩
        rw [hflags]
        have hlt1 : source < mk.vector_flags_.length := (List.getElem?_eq_some.mp hfree1).1
        have hts : target ≠ source := by
          intro e
          rw [e, hset1, List.getElem?_set_self hlt1] at hfree2
          simp at hfree2
        have hlt2 : target < flags2.length := (List.getElem?_eq_some.mp hfree2).1
        have hfree2' : mk.vector_flags_[target]? = some false := by
          rw [hset1, List.getElem?_set_ne hts.symm] at hfree2
          exact hfree2
        have hinit : lock_frame mk.vector_flags_ flags3 source [target] := by
          intro i
          constructor
          · intro hh
            rcases hh with hh | hh
            · subst hh
              exact ⟨hfree1, by
                rw [hset2, List.getElem?_set_ne hts, hset1, List.getElem?_set_self hlt1]⟩
            · rw [List.mem_singleton.mp hh]
              exact ⟨hfree2', by rw [hset2, List.getElem?_set_self hlt2]⟩
          · intro hh
            have h1 : source ≠ i := fun e => hh (Or.inl e.symm)
            have h2 : target ≠ i := fun e => hh (Or.inr (by simp [e]))
            rw [hset2, List.getElem?_set_ne h2, hset1, List.getElem?_set_ne h1]
        exact obtain_loop_frame mk source target k mk.vector_flags_ fuel flags3 [target] rng
          flags4 samples4 rng4 hinit hloop

theorem release_after_obtain (mk : Minkowski) (source target : ℕ) (samples : List ℕ) (k : ℤ)
    (rng fuel : ℕ) (mk1 : Minkowski) (samples1 : List ℕ) (rng1 : ℕ)
    (h : mk.obtain_vectors source target samples k rng fuel = some (true, mk1, samples1, rng1)) :
    mk1.release_vectors source samples1 = some mk := by
  obtain ⟨hmk, hframe⟩ := obtain_vectors_frame mk source target samples k rng fuel mk1 samples1
    rng1 h
  have hvalid : ∀ s ∈ samples1, s < mk1.vector_flags_.length := fun s hs =>
    (List.getElem?_eq_some.mp ((hframe s).1 (Or.inr hs)).2).1
  obtain ⟨flags1, hrel, hget⟩ := release_loop_spec samples1 mk1.vector_flags_ hvalid
  have hlen1 : flags1.length = mk1.vector_flags_.length := by
    by_contra hne
    rcases Nat.lt_or_gt_of_ne hne with hlt | hgt
    · have h1 := hget flags1.length
      rw [List.getElem?_eq_none (le_refl _)] at h1
      split at h1
      · simp at h1
      · rw [List.getElem?_eq_getElem hlt] at h1
        simp at h1
    · have h1 := hget mk1.vector_flags_.length
      rw [List.getElem?_eq_getElem hgt] at h1
      split at h1
      · rename_i hm
        exact absurd (hvalid _ hm) (lt_irrefl _)
      · rw [List.getElem?_eq_none (le_refl _)] at h1
        simp at h1
  have hsrc : source < flags1.length := by
    rw [hlen1]
    exact (List.getElem?_eq_some.mp ((hframe source).1 (Or.inl rfl)).2).1
  have hfinal : flags1.set source false = mk.vector_flags_ := by
    apply List.ext_getElem?
    intro i
    by_cases his : source = i
    · subst his
      rw [List.getElem?_set_self hsrc, ((hframe source).1 (Or.inl rfl)).1]
    · rw [List.getElem?_set_ne his, hget i]
      by_cases him : i ∈ samples1
      · rw [if_pos him, ((hframe i).1 (Or.inr him)).1]
      · rw [if_neg him]
        exact (hframe i).2 (fun hh => hh.elim (fun e => his e.symm) him)
  unfold Minkowski.release_vectors
  rw [hrel]
  simp only [unlock_of_lt flags1 source hsrc, hfinal]
  rw [hmk]

theorem obtain_failure_unchanged (mk : Minkowski) (source target : ℕ) (samples : List ℕ) (k : ℤ)
    (rng fuel : ℕ) (mk1 : Minkowski) (samples1 : List ℕ) (rng1 : ℕ)
    (h : mk.obtain_vectors source target samples k rng fuel
      = some (false, mk1, samples1, rng1)) :
    mk1 = mk ∧ samples1 = samples ∧ rng1 = rng
      ∧ (mk.vector_flags_[source]? = some true
        ∨ (mk.vector_flags_[source]? = some false
          ∧ (target = source ∨ mk.vector_flags_[target]? = some true))) := by
  unfold Minkowski.obtain_vectors at h
  split at h
  · simp at h
  · rename_i flags2 hl1
    obtain ⟨hheld, _⟩ := try_lock_false hl1
    simp only [Option.some.injEq, Prod.mk.injEq, true_and] at h
    exact ⟨h.1.symm, h.2.1.symm, h.2.2.symm, Or.inl hheld⟩
  · rename_i flags2 hl1
    obtain ⟨hfree1, hset1⟩ := try_lock_true hl1
    have hlt1 : source < mk.vector_flags_.length := (List.getElem?_eq_some.mp hfree1).1
    split at h
    · simp at h
    · rename_i flags3 hl2
      obtain ⟨hheld2, hsame⟩ := try_lock_false hl2
      rw [hsame] at h
      have hlt2 : source < flags2.length := by rw [hset1, List.length_set]; exact hlt1
      rw [unlock_of_lt flags2 source hlt2] at h
      simp only [Option.some.injEq, Prod.mk.injEq, true_and] at h
      obtain ⟨hmk, hs, hr⟩ := h
      have hback : flags2.set source false = mk.vector_flags_ := by
        rw [hset1]; exact set_set_of_free _ _ hfree1
      rw [hback] at hmk
      refine ⟨hmk.symm, hs.symm, hr.symm, Or.inr ⟨hfree1, ?_⟩⟩
      by_cases hts : target = source
      · exact Or.inl hts
      · right
        rw [hset1, List.getElem?_set_ne (fun e => hts e.symm)] at hheld2
        exact hheld2
    · split at h <;> simp at h

/-- C11: `obtain_vectors` is atomic on failure.  Whenever it returns false, the
object (its lock table) is exactly as before the call, `samples` is unchanged
and the state of `rng` is unchanged; and the call returns false only when the
lock of `source` was held, or the lock of `source` was free and that of
`target` was held (or `target` is `source`, whose lock the call has just
taken). -/
theorem obtain_vectors_false (mk : Minkowski) (source target : ℕ) (samples : List ℕ) (k : ℤ)
    (rng fuel : ℕ) (mk1 : Minkowski) (samples1 : List ℕ) (rng1 : ℕ)
    (h : mk.obtain_vectors source target samples k rng fuel
      = some (false, mk1, samples1, rng1)) :
    mk1 = mk ∧ mk1.vector_flags_ = mk.vector_flags_ ∧ samples1 = samples ∧ rng1 = rng
      ∧ (mk.vector_flags_[source]? = some true
        ∨ (mk.vector_flags_[source]? = some false
          ∧ (target = source ∨ mk.vector_flags_[target]? = some true))) := by
  obtain ⟨h1, h2, h3, h4⟩ :=
    obtain_failure_unchanged mk source target samples k rng fuel mk1 samples1 rng1 h
  exact ⟨h1, by rw [h1], h2, h3, h4⟩

/-- C11 on the lock table `[free, held]` with source `0` and target `1`: the
lock of the source is taken and released again, and the call returns false
with everything as before. -/
theorem obtain_vectors_false_witness :
    (⟨Args.default, [], [false, true], [0, 1], false⟩ : Minkowski).obtain_vectors
        0 1 [7, 8] 5 1 20
      = some (false, ⟨Args.default, [], [false, true], [0, 1], false⟩, [7, 8], 1)
    ∧ (([false, true] : List Bool)[0]? = some true
      ∨ (([false, true] : List Bool)[0]? = some false
        ∧ ((1 : ℕ) = 0 ∨ ([false, true] : List Bool)[1]? = some true))) := by
  have h : (⟨Args.default, [], [false, true], [0, 1], false⟩ : Minkowski).obtain_vectors
      0 1 [7, 8] 5 1 20
      = some (false, ⟨Args.default, [], [false, true], [0, 1], false⟩, [7, 8], 1) := by
    simp [Minkowski.obtain_vectors, try_lock, unlock]
  exact ⟨h, (obtain_vectors_false _ 0 1 [7, 8] 5 1 20 _ [7, 8] 1 h).2.2.2.2⟩


/-! ### The skip-gram sweep and the lock table -/

theorem skipgram_step_locks (lr : ℝ) (line : List ℕ) (k : ℤ) (fuel w : ℕ) (c : ℤ)
    (st st1 : Minkowski × Model × List ℕ × ℕ)
    (h : Minkowski.skipgram_step lr line k fuel w c st = some st1) : st1.1 = st.1 := by
  unfold Minkowski.skipgram_step at h
  split at h
  · split at h
    · rename_i source target _ _
      split at h
      · simp at h
      · rename_i mk1 samples1 rng1 hob
        simp only [Option.some.injEq] at h
        rw [← h]
        exact (obtain_failure_unchanged _ _ _ _ _ _ _ _ _ _ hob).1
      · rename_i mk1 samples1 rng1 hob
        have hrel := release_after_obtain _ _ _ _ _ _ _ _ _ _ hob
        split at h
        · simp at h
        · rw [hrel] at h
          simp only [Option.some.injEq] at h
          rw [← h]
    · simp at h
  · simp only [Option.some.injEq] at h
    rw [h]

theorem skipgram_window_locks (lr : ℝ) (line : List ℕ) (k : ℤ) (fuel w : ℕ)
    (offsets : List ℤ) :
    ∀ st st1 : Minkowski × Model × List ℕ × ℕ,
      Minkowski.skipgram_window lr line k fuel w offsets st = some st1 → st1.1 = st.1 := by
  induction offsets with
  | nil =>
    intro st st1 h
    simp only [Minkowski.skipgram_window, Option.some.injEq] at h
    rw [h]
  | cons c cs ih =>
    intro st st1 h
    unfold Minkowski.skipgram_window at h
    split at h
    · simp at h
    · rename_i st2 hstep
      rw [ih st2 st1 h, skipgram_step_locks lr line k fuel w c st st2 hstep]

theorem skipgram_line_locks (lr : ℝ) (line : List ℕ) (k : ℤ) (fuel : ℕ) (offsets : List ℤ)
    (positions : List ℕ) :
    ∀ st st1 : Minkowski × Model × List ℕ × ℕ,
      Minkowski.skipgram_line lr line k fuel offsets positions st = some st1 →
      st1.1 = st.1 := by
  induction positions with
  | nil =>
    intro st st1 h
    simp only [Minkowski.skipgram_line, Option.some.injEq] at h
    rw [h]
  | cons w ws ih =>
    intro st st1 h
    unfold Minkowski.skipgram_line at h
    split at h
    · simp at h
    · rename_i st2 hwin
      rw [ih st2 st1 h, skipgram_window_locks lr line k fuel w offsets st st2 hwin]

theorem skipgram_locks (mk : Minkowski) (model : Model) (lr : ℝ) (line : List ℕ)
    (rng fuel : ℕ) (mk1 : Minkowski) (model1 : Model) (rng1 : ℕ)
    (h : mk.skipgram model lr line rng fuel = some (mk1, model1, rng1)) : mk1 = mk := by
  unfold Minkowski.skipgram at h
  simp only at h
  split at h
  · simp at h
  · rename_i mk2 model2 samples2 rng2 hline
    simp only [Option.some.injEq, Prod.mk.injEq] at h
    rw [← h.1]
    exact skipgram_line_locks _ _ _ _ _ _ _ _ hline

/-- C12: lock bracketing round trip.  After a successful `obtain_vectors`
followed by `release_vectors(source, samples)` the lock table (the whole
object) is the one before `obtain_vectors`; and whenever `skipgram` returns,
the lock table is the one it was called with, so the worker holds no lock. -/
theorem lock_bracketing_round_trip :
    (∀ (mk : Minkowski) (source target : ℕ) (samples : List ℕ) (k : ℤ) (rng fuel : ℕ)
        (mk1 : Minkowski) (samples1 : List ℕ) (rng1 : ℕ),
        mk.obtain_vectors source target samples k rng fuel
          = some (true, mk1, samples1, rng1) →
        mk1.release_vectors source samples1 = some mk)
    ∧ (∀ (mk : Minkowski) (model : Model) (lr : ℝ) (line : List ℕ) (rng fuel : ℕ)
        (mk1 : Minkowski) (model1 : Model) (rng1 : ℕ),
        mk.skipgram model lr line rng fuel = some (mk1, model1, rng1) →
        mk1 = mk ∧ mk1.vector_flags_ = mk.vector_flags_) :=
  ⟨release_after_obtain, fun mk model lr line rng fuel mk1 model1 rng1 h =>
    ⟨skipgram_locks mk model lr line rng fuel mk1 model1 rng1 h,
     by rw [skipgram_locks mk model lr line rng fuel mk1 model1 rng1 h]⟩⟩

theorem log_bilinear_table_ok (d : ℕ) (m : Model) (source : ℕ) (samples : List ℕ) (lr : ℝ)
    (hm : table_ok d m) (hsource : source < m.vectors_.length)
    (hsamples : ∀ s ∈ samples, s < m.vectors_.length) :
    ∃ m1, m.log_bilinear_negative_sampling source samples lr = some m1
      ∧ table_ok d m1 ∧ m1.vectors_.length = m.vectors_.length := by
  have hm0 : table_ok d { m with acc_grad_source_ := Vector.zero m.acc_grad_source_ } :=
    ⟨hm.1, by show (Vector.zero m.acc_grad_source_).length = d
              rw [Vector.zero, List.length_map]; exact hm.2⟩
  obtain ⟨m1, hloop, hok, hlen, _⟩ := sampling_loop_preserves d source lr samples
    { m with acc_grad_source_ := Vector.zero m.acc_grad_source_ } 0 hm0 hsource hsamples
  have hsrc1 : source < m1.vectors_.length := by rw [hlen]; exact hsource
  have hv : m1.vectors_[source]? = some m1.vectors_[source] := List.getElem?_eq_getElem hsrc1
  obtain ⟨hvl, hvon⟩ := hok.1 _ (List.getElem_mem hsrc1)
  set v := m1.vectors_[source] with hvdef
  unfold Vector.size at hvl
  have hal : (Vector.multiply m1.acc_grad_source_ lr).length = v.length := by
    rw [length_multiply, hvl]; exact hok.2
  obtain ⟨hproj, hdot⟩ := project_eq (Vector.multiply m1.acc_grad_source_ lr) v hal hvon.1
  have hal2 : (List.zipWith
      (fun x y => x + minkowski_dot v (Vector.multiply m1.acc_grad_source_ lr) * y)
      (Vector.multiply m1.acc_grad_source_ lr) v).length = v.length := by
    rw [length_zipWith _ _ _ hal, hal]
  obtain ⟨q, t1, hq, hql, hqon, ht1⟩ :=
    update_preserves { m1 with nexamples_ := m1.nexamples_ + 1 } v _ hal2 hvon hdot
  have heq : m.log_bilinear_negative_sampling source samples lr
      = some { m1 with nexamples_ := m1.nexamples_ + 1,
                       vectors_ := m1.vectors_.set source q,
                       acc_grad_source_ := t1 } := by
    unfold Model.log_bilinear_negative_sampling
    simp only [hloop, Option.bind_eq_bind, Option.some_bind, hv, hproj, hq, Option.pure_def]
  refine ⟨_, heq, ⟨?_, ?_⟩, ?_⟩
  · intro u hu
    rcases List.mem_or_eq_of_mem_set hu with h | h
    · exact hok.1 u h
    · rw [h]; exact ⟨by rw [Vector.size, hql, hvl], hqon⟩
  · show t1.length = d
    rw [ht1, hal2, hvl]
  · simp [hlen]

/-- C12 on concrete lock tables.  First the acquisition of four free locks with
source `0`, target `1` and two negatives, followed by the release.  Then a
sweep over the line `[0, 1]` with window size 1 and no negatives on a table of
two points of dimension 2: both pairs are trained and the two locks are free
again. -/
theorem lock_bracketing_round_trip_witness :
    (⟨Args.default, [], [true, true, true, true], [2, 3, 1], false⟩ :
        Minkowski).release_vectors 0 [1, 3, 2]
      = some ⟨Args.default, [], [false, false, false, false], [2, 3, 1], false⟩
    ∧ ∃ (mk1 : Minkowski) (model1 : Model) (rng1 : ℕ),
        (⟨{ Args.default with number_negatives := 0, window_size := 1, dimension := 2 }, [],
            [false, false], [0, 1], false⟩ : Minkowski).skipgram
          (Model.init [[0, 1], [0.75, 1.25]] { Args.default with dimension := 2 })
          0.05 [0, 1] 1 5
        = some (mk1, model1, rng1) ∧ mk1.vector_flags_ = [false, false] := by
  have h : (⟨Args.default, [], [false, false, false, false], [2, 3, 1], false⟩ :
      Minkowski).obtain_vectors 0 1 [] 2 1 20
      = some (true, ⟨Args.default, [], [true, true, true, true], [2, 3, 1], false⟩, [1, 3, 2],
          minstd_rand (minstd_rand 1)) := by
    simp [Minkowski.obtain_vectors, Minkowski.obtain_loop, Minkowski.get_negative_sample,
      try_lock, samples_bound, minstd_rand]
  refine ⟨lock_bracketing_round_trip.1 _ 0 1 [] 2 1 20 _ [1, 3, 2] _ h, ?_⟩
  have hok : table_ok 2 (Model.init [[0, 1], [0.75, 1.25]] { Args.default with dimension := 2 }) := by
    refine ⟨?_, by simp [Model.init, Vector.size]⟩
    intro v hv
    have hv2 : v = [0, 1] ∨ v = [0.75, 1.25] := by simpa [Model.init] using hv
    rcases hv2 with e | e
    · subst e
      simp [on_hyperboloid, minkowski_dot, Vector.size, Vector.get, List.range_succ]
    · subst e
      simp [on_hyperboloid, minkowski_dot, Vector.size, Vector.get, List.range_succ]
      norm_num
  obtain ⟨m1, h1, hok1, hlen1⟩ := log_bilinear_table_ok 2 _ 0 [1] 0.05 hok
    (by simp [Model.init]) (by simp [Model.init])
  have hlen1' : m1.vectors_.length = 2 := by rw [hlen1]; simp [Model.init]
  obtain ⟨m2, h2, _, _⟩ := log_bilinear_table_ok 2 m1 1 [0] 0.05 hok1
    (by rw [hlen1']; norm_num) (by simp [hlen1'])
  have hs : (⟨{ Args.default with number_negatives := 0, window_size := 1, dimension := 2 }, [],
      [false, false], [0, 1], false⟩ : Minkowski).skipgram
        (Model.init [[0, 1], [0.75, 1.25]] { Args.default with dimension := 2 })
        0.05 [0, 1] 1 5
      = some (⟨{ Args.default with number_negatives := 0, window_size := 1, dimension := 2 },
          [], [false, false], [0, 1], false⟩, m2, 1) := by
    generalize Model.init [[0, 1], [0.75, 1.25]] { Args.default with dimension := 2 } = model0
      at h1 ⊢
    simp [Minkowski.skipgram, Minkowski.skipgram_line, Minkowski.skipgram_window,
      Minkowski.skipgram_step, Minkowski.obtain_vectors, Minkowski.obtain_loop, try_lock,
      samples_bound, Minkowski.release_vectors, release_loop, unlock, Args.default,
      List.range_succ, h1, h2]
  exact ⟨_, m2, 1, hs, (lock_bracketing_round_trip.2 _ _ _ _ _ _ _ _ _ hs).2⟩


/-! ### The negative table -/

theorem push_loop_eq (i : ℕ) (bound : ℝ) :
    ∀ (n j : ℕ) (negatives : List ℕ), ⌈bound⌉₊ - j = n →
      push_loop i bound j negatives = negatives ++ List.replicate n i := by
  intro n
  induction n with
  | zero =>
    intro j negatives h
    unfold push_loop
    have hj : ¬ (j : ℝ) < bound := fun hlt => by
      have := Nat.lt_ceil.mpr hlt
      omega
    simp [hj]
  | succ n ih =>
    intro j negatives h
    unfold push_loop
    have hj : (j : ℝ) < bound := Nat.lt_ceil.mp (by omega)
    rw [if_pos hj, ih (j + 1) (negatives ++ [i]) (by omega), List.append_assoc]
    rfl

theorem table_fold_length (x : ℕ → ℝ) (negatives : List ℕ) (n : ℕ) :
    ((List.range n).foldl (fun neg i => push_loop i (x i) 0 neg) negatives).length
      = negatives.length + ∑ i in Finset.range n, ⌈x i⌉₊ := by
  induction n with
  | zero => simp
  | succ n ih =>
    rw [List.range_succ, List.foldl_append, List.foldl_cons, List.foldl_nil,
      push_loop_eq n (x n) ⌈x n⌉₊ 0 _ rfl, List.length_append, ih, List.length_replicate,
      Finset.sum_range_succ, add_assoc]

theorem table_fold_count (x : ℕ → ℝ) (negatives : List ℕ) (a n : ℕ) :
    ((List.range n).foldl (fun neg i => push_loop i (x i) 0 neg) negatives).count a
      = negatives.count a + if a < n then ⌈x a⌉₊ else 0 := by
  induction n with
  | zero => simp
  | succ n ih =>
    rw [List.range_succ, List.foldl_append, List.foldl_cons, List.foldl_nil,
      push_loop_eq n (x n) ⌈x n⌉₊ 0 _ rfl, List.count_append, ih, List.count_replicate]
    rcases Nat.lt_trichotomy a n with h | h | h
    · have h1 : ¬ n = a := by omega
      simp [h, h1, Nat.lt_succ_of_lt h]
    · subst h
      simp
    · have h1 : ¬ n = a := by omega
      have h2 : ¬ a < n := by omega
      have h3 : ¬ a < n + 1 := by omega
      simp [h1, h2, h3]

theorem generate_negatives_eq (mk : Minkowski) (fl : real_arith) (counts : List ℤ) :
    (mk.generate_negative_samples fl counts).negatives_
      = (List.range counts.length).foldl
          (fun neg i => push_loop i (computed_bound fl mk.args_.distribution_power counts i) 0 neg)
          mk.negatives_ := rfl

theorem computed_bound_exact (power : ℝ) (counts : List ℤ) (i : ℕ) :
    computed_bound exact_arith power counts i = exact_bound power counts i := by
  unfold computed_bound exact_bound exact_arith
  simp only [foldl_add_eq_sum]
  rw [show (0.0 : ℝ) = 0 by norm_num, zero_add]

theorem generate_negatives_count (mk : Minkowski) (fl : real_arith) (counts : List ℤ) (i : ℕ)
    (hempty : mk.negatives_ = []) (hi : i < counts.length) :
    (mk.generate_negative_samples fl counts).negatives_.count i
      = ⌈computed_bound fl mk.args_.distribution_power counts i⌉₊ := by
  rw [generate_negatives_eq, table_fold_count, hempty]
  simp [hi]

theorem generate_negatives_length (mk : Minkowski) (fl : real_arith) (counts : List ℤ)
    (hempty : mk.negatives_ = []) :
    (mk.generate_negative_samples fl counts).negatives_.length
      = ∑ i in Finset.range counts.length,
          ⌈computed_bound fl mk.args_.distribution_power counts i⌉₊ := by
  rw [generate_negatives_eq, table_fold_length, hempty]
  simp

/-- C14 as the code has it: in the table built by `generate_negative_samples`
from an empty table and positive counts, whatever the rounding of the
floating-point arithmetic, the id `i` appears exactly `ceil(b_i)` times, where
`b_i` is the value of the loop bound `c * NEGATIVE_TABLE_SIZE / z` that the code
computes (the number of values `j = 0, 1, ...` below that bound; the bounds are
at most `2^53`, so that `j` is compared exactly).  `b_i` approximates
`e_i = T * count_i^alpha / sum_j count_j^alpha` with `T = NEGATIVE_TABLE_SIZE =
10^8` and `alpha = distribution_power`: when `|b_i - e_i| <= delta` the number
of appearances lies between `ceil(e_i - delta)` and `ceil(e_i + delta)`, and
with exact arithmetic `b_i = e_i` and it is `ceil(e_i)`. -/
theorem generate_negative_samples_count (mk : Minkowski) (fl : real_arith) (counts : List ℤ)
    (i : ℕ) (hempty : mk.negatives_ = []) (_hpos : ∀ c ∈ counts, 0 < c)
    (hi : i < counts.length)
    (_hrange : ∀ k < counts.length,
      computed_bound fl mk.args_.distribution_power counts k ≤ 2 ^ 53) :
    NEGATIVE_TABLE_SIZE = 10 ^ 8
    ∧ (mk.generate_negative_samples fl counts).negatives_.count i
      = ⌈computed_bound fl mk.args_.distribution_power counts i⌉₊
    ∧ (∀ delta : ℝ,
        |computed_bound fl mk.args_.distribution_power counts i
          - exact_bound mk.args_.distribution_power counts i| ≤ delta →
        ⌈exact_bound mk.args_.distribution_power counts i - delta⌉₊
            ≤ (mk.generate_negative_samples fl counts).negatives_.count i
          ∧ (mk.generate_negative_samples fl counts).negatives_.count i
            ≤ ⌈exact_bound mk.args_.distribution_power counts i + delta⌉₊)
    ∧ (mk.generate_negative_samples exact_arith counts).negatives_.count i
      = ⌈exact_bound mk.args_.distribution_power counts i⌉₊ := by
  refine ⟨by norm_num [NEGATIVE_TABLE_SIZE], generate_negatives_count mk fl counts i hempty hi,
    ?_, ?_⟩
  · intro delta hd
    rw [generate_negatives_count mk fl counts i hempty hi]
    obtain ⟨h1, h2⟩ := abs_le.mp hd
    exact ⟨Nat.ceil_le_ceil (by linarith), Nat.ceil_le_ceil (by linarith)⟩
  · rw [generate_negatives_count mk exact_arith counts i hempty hi, computed_bound_exact]

theorem thirds_bound :
    exact_bound Args.default.distribution_power [1, 1, 1] 0 = 100000000 / 3 := by
  simp [exact_bound, Finset.sum_range_succ, NEGATIVE_TABLE_SIZE]
  norm_num

/-- C14 for three words of count 1 with the exponent 0.5 set by `Args::Args()`
and exact arithmetic: the id `0` appears `ceil(10^8 / 3) = 33333334` times. -/
theorem generate_negative_samples_count_witness :
    (Minkowski.generate_negative_samples ⟨Args.default, [], [], [], false⟩ exact_arith
        [1, 1, 1]).negatives_.count 0 = 33333334 := by
  have h := (generate_negative_samples_count ⟨Args.default, [], [], [], false⟩ exact_arith
    [1, 1, 1] 0 rfl (by simp) (by simp)
    (by
      intro k hk
      rw [computed_bound_exact]
      have hk3 : k < 3 := by simpa using hk
      interval_cases k <;>
        (simp [exact_bound, Finset.sum_range_succ, NEGATIVE_TABLE_SIZE]; norm_num))).2.2.2
  rw [h, thirds_bound, Nat.ceil_eq_iff (by norm_num)]
  norm_num

/-- C14 fails as stated: for three words of count 1 and exponent 0.5 the loop
bound is `10^8 / 3` (the rounding of the quotient does not reach an integer) and
the id `0` appears 33333334 times in the table, while
`floor(10^8 * 1^0.5 / (1^0.5 + 1^0.5 + 1^0.5))` is 33333333. -/
theorem generate_negative_samples_not_floor :
    (Minkowski.generate_negative_samples ⟨Args.default, [], [], [], false⟩ exact_arith
        [1, 1, 1]).negatives_.count 0 = 33333334
    ∧ ⌊(10 ^ 8 : ℝ) * (1 : ℝ) ^ (0.5 : ℝ)
        / ((1 : ℝ) ^ (0.5 : ℝ) + (1 : ℝ) ^ (0.5 : ℝ) + (1 : ℝ) ^ (0.5 : ℝ))⌋₊ = 33333333 := by
  constructor
  · rw [generate_negatives_count _ _ _ _ rfl (by simp), computed_bound_exact, thirds_bound,
      Nat.ceil_eq_iff (by norm_num)]
    norm_num
  · rw [Real.one_rpow, Nat.floor_eq_iff (by positivity)]
    norm_num

theorem rpow_half_sq (x : ℝ) (hx : 0 ≤ x) : (x ^ (0.5 : ℝ)) ^ 2 = x := by
  rw [← Real.rpow_two, ← Real.rpow_mul hx]
  norm_num

theorem rpow_half_pos (x : ℝ) (hx : 0 < x) : 0 < x ^ (0.5 : ℝ) := Real.rpow_pos_of_pos hx _

theorem rpow_half_eq (x y : ℝ) (hy : 0 < y) (h : y ^ 2 = x) : x ^ (0.5 : ℝ) = y := by
  have hx : 0 < x := by rw [← h]; positivity
  have h1 := rpow_half_sq x hx.le
  have h2 := rpow_half_pos x hx
  nlinarith

theorem ceil_of_near (b e : ℝ) (N : ℕ) (h : |b - e| ≤ 1 / 10 ^ 9 * e)
    (hlo : (N : ℝ) + 1 / 20 < e) (hhi : e < (N : ℝ) + 19 / 20)
    (hN : (N : ℝ) ≤ 4 * 10 ^ 7) : ⌈b⌉₊ = N + 1 := by
  obtain ⟨h1, h2⟩ := abs_le.mp h
  rw [Nat.ceil_eq_iff (by omega)]
  push_cast
  constructor
  · linarith
  · linarith

/-- The table of the vocabulary with counts `[100, 50, 25, 25]` and exponent 0.5
has `10^8 + 3` entries for every arithmetic whose loop bounds have a relative
error of at most `10^-9`. -/
theorem example_table_length_rounded (fl : real_arith)
    (hacc : ∀ i < 4, |computed_bound fl (0.5 : ℝ) [100, 50, 25, 25] i
      - exact_bound (0.5 : ℝ) [100, 50, 25, 25] i|
        ≤ 1 / 10 ^ 9 * exact_bound (0.5 : ℝ) [100, 50, 25, 25] i) :
    (Minkowski.generate_negative_samples ⟨Args.default, [], [], [], false⟩ fl
        [100, 50, 25, 25]).negatives_.length = 100000003 := by
  rw [generate_negatives_length _ _ _ rfl]
  have hp : Args.default.distribution_power = (0.5 : ℝ) := rfl
  simp only [hp]
  have hs2 := rpow_half_sq 50 (by norm_num)
  have hs0 := rpow_half_pos 50 (by norm_num)
  have hx : ∀ i, exact_bound (0.5 : ℝ) [100, 50, 25, 25] i
      = ((([100, 50, 25, 25] : List ℤ).getD i 0 : ℤ) : ℝ) ^ (0.5 : ℝ) * 100000000
        / (10 + (50 : ℝ) ^ (0.5 : ℝ) + 5 + 5) := by
    intro i
    simp only [exact_bound, Finset.sum_range_succ, Finset.sum_range_zero, List.length_cons,
      List.length_nil, List.getD_cons_zero, List.getD_cons_succ, zero_add, Nat.reduceAdd,
      Int.cast_ofNat, NEGATIVE_TABLE_SIZE, Nat.cast_ofNat]
    rw [rpow_half_eq 100 10 (by norm_num) (by norm_num),
      rpow_half_eq 25 5 (by norm_num) (by norm_num)]
  have h0 := hacc 0 (by norm_num)
  have h1 := hacc 1 (by norm_num)
  have h2 := hacc 2 (by norm_num)
  have h3 := hacc 3 (by norm_num)
  rw [hx] at h0 h1 h2 h3
  simp only [List.getD_cons_zero, List.getD_cons_succ, Int.cast_ofNat] at h0 h1 h2 h3
  rw [rpow_half_eq 100 10 (by norm_num) (by norm_num)] at h0
  rw [rpow_half_eq 25 5 (by norm_num) (by norm_num)] at h2 h3
  set s : ℝ := (50 : ℝ) ^ (0.5 : ℝ)
  have hlo : (7.071067811 : ℝ) < s := by
    by_contra hc
    push_neg at hc
    nlinarith
  have hhi : s < (7.071067812 : ℝ) := by
    by_contra hc
    push_neg at hc
    nlinarith
  have hz : (0 : ℝ) < 10 + s + 5 + 5 := by linarith
  have e0 := ceil_of_near _ _ 36939806 h0
    (by rw [lt_div_iff₀ hz]; norm_num; linarith)
    (by rw [div_lt_iff₀ hz]; norm_num; linarith) (by norm_num)
  have e1 := ceil_of_near _ _ 26120387 h1
    (by rw [lt_div_iff₀ hz]; norm_num; linarith)
    (by rw [div_lt_iff₀ hz]; norm_num; linarith) (by norm_num)
  have e2 := ceil_of_near _ _ 18469903 h2
    (by rw [lt_div_iff₀ hz]; norm_num; linarith)
    (by rw [div_lt_iff₀ hz]; norm_num; linarith) (by norm_num)
  have e3 := ceil_of_near _ _ 18469903 h3
    (by rw [lt_div_iff₀ hz]; norm_num; linarith)
    (by rw [div_lt_iff₀ hz]; norm_num; linarith) (by norm_num)
  simp only [Finset.sum_range_succ, Finset.sum_range_zero, List.length_cons, List.length_nil,
    zero_add, Nat.reduceAdd]
  rw [e0, e1, e2, e3]

theorem example_table_length :
    (Minkowski.generate_negative_samples ⟨Args.default, [], [], [], false⟩ exact_arith
        [100, 50, 25, 25]).negatives_.length = 100000003 := by
  apply example_table_length_rounded
  intro i _
  rw [computed_bound_exact, sub_self, abs_zero]
  apply mul_nonneg (by norm_num)
  unfold exact_bound
  apply div_nonneg
  · apply mul_nonneg (Real.rpow_nonneg (by rcases i with _ | _ | _ | _ | i <;> simp) _)
    exact Nat.cast_nonneg _
  · apply Finset.sum_nonneg
    intro j _
    exact Real.rpow_nonneg (by rcases j with _ | _ | _ | _ | j <;> simp) _

theorem exact_bound_pos (power : ℝ) (counts : List ℤ) (hpos : ∀ c ∈ counts, 0 < c) (i : ℕ)
    (hi : i < counts.length) : 0 < exact_bound power counts i := by
  have ha : ∀ k < counts.length, 0 < ((counts.getD k 0 : ℤ) : ℝ) ^ power := by
    intro k hk
    apply Real.rpow_pos_of_pos
    have hmem : counts.getD k 0 ∈ counts := by
      rw [List.getD_eq_getElem _ _ hk]
      exact List.getElem_mem hk
    exact_mod_cast hpos _ hmem
  unfold exact_bound
  apply div_pos
  · exact mul_pos (ha i hi) (by norm_num [NEGATIVE_TABLE_SIZE])
  · exact Finset.sum_pos (fun k hk => ha k (Finset.mem_range.mp hk))
      (Finset.nonempty_range_iff.mpr (by omega))

theorem exact_bound_sum (power : ℝ) (counts : List ℤ) (hpos : ∀ c ∈ counts, 0 < c)
    (hne : counts ≠ []) :
    ∑ i in Finset.range counts.length, exact_bound power counts i = NEGATIVE_TABLE_SIZE := by
  have hn : 0 < counts.length := List.length_pos.mpr hne
  have ha : ∀ k < counts.length, 0 < ((counts.getD k 0 : ℤ) : ℝ) ^ power := by
    intro k hk
    apply Real.rpow_pos_of_pos
    have hmem : counts.getD k 0 ∈ counts := by
      rw [List.getD_eq_getElem _ _ hk]
      exact List.getElem_mem hk
    exact_mod_cast hpos _ hmem
  have hz : 0 < ∑ j in Finset.range counts.length, ((counts.getD j 0 : ℤ) : ℝ) ^ power :=
    Finset.sum_pos (fun k hk => ha k (Finset.mem_range.mp hk))
      (Finset.nonempty_range_iff.mpr (by omega))
  unfold exact_bound
  rw [← Finset.sum_div, ← Finset.sum_mul, mul_comm, mul_div_assoc, div_self hz.ne', mul_one]

theorem negative_table_bounds_aux (n : ℕ) (a : ℕ → ℝ) (T : ℝ) (hn : 0 < n)
    (ha : ∀ i < n, 0 < a i) (hT : 0 ≤ T) :
    T ≤ ((∑ i in Finset.range n, ⌈a i * T / ∑ j in Finset.range n, a j⌉₊ : ℕ) : ℝ)
    ∧ ((∑ i in Finset.range n, ⌈a i * T / ∑ j in Finset.range n, a j⌉₊ : ℕ) : ℝ) < T + n := by
  have hne : (Finset.range n).Nonempty := Finset.nonempty_range_iff.mpr (by omega)
  have hz : 0 < ∑ j in Finset.range n, a j :=
    Finset.sum_pos (fun i hi => ha i (Finset.mem_range.mp hi)) hne
  have hsum : ∑ i in Finset.range n, a i * T / ∑ j in Finset.range n, a j = T := by
    rw [← Finset.sum_div, ← Finset.sum_mul]
    field_simp
  rw [Nat.cast_sum]
  constructor
  · calc T = ∑ i in Finset.range n, a i * T / ∑ j in Finset.range n, a j := hsum.symm
      _ ≤ ∑ i in Finset.range n, ((⌈a i * T / ∑ j in Finset.range n, a j⌉₊ : ℕ) : ℝ) :=
        Finset.sum_le_sum fun i _ => Nat.le_ceil _
  · calc ∑ i in Finset.range n, ((⌈a i * T / ∑ j in Finset.range n, a j⌉₊ : ℕ) : ℝ)
        < ∑ i in Finset.range n, (a i * T / ∑ j in Finset.range n, a j + 1) :=
          Finset.sum_lt_sum_of_nonempty hne fun i hi =>
            Nat.ceil_lt_add_one (div_nonneg
              (mul_nonneg (ha i (Finset.mem_range.mp hi)).le hT) hz.le)
      _ = T + n := by
          rw [Finset.sum_add_distrib, hsum]
          simp

/-- Sums of ceilings of bounds `b i` that approximate positive numbers `e i` of
sum `T` with a relative error `eps`, `eps * T < 1`: the sum is at least `T` and
at most `T + n`. -/
theorem rounded_bounds_aux (n T : ℕ) (b e : ℕ → ℝ) (eps : ℝ) (hn : 0 < n) (hT : 1 ≤ T)
    (he : ∀ i < n, 0 < e i) (hsum : ∑ i in Finset.range n, e i = T)
    (heps : eps * T < 1) (hacc : ∀ i < n, |b i - e i| ≤ eps * e i) :
    T ≤ ∑ i in Finset.range n, ⌈b i⌉₊ ∧ ∑ i in Finset.range n, ⌈b i⌉₊ ≤ T + n := by
  have hne : (Finset.range n).Nonempty := Finset.nonempty_range_iff.mpr (by omega)
  have heps0 : 0 ≤ eps := by
    have h := hacc 0 hn
    have h0 := he 0 hn
    by_contra hc
    push_neg at hc
    have : eps * e 0 < 0 := mul_neg_of_neg_of_pos hc h0
    linarith [abs_nonneg (b 0 - e 0)]
  have hT1 : (1 : ℝ) ≤ T := by exact_mod_cast hT
  have heps1 : eps < 1 := by nlinarith
  have hb0 : ∀ i < n, 0 ≤ b i := by
    intro i hi
    have h := (abs_le.mp (hacc i hi)).1
    have h0 := he i hi
    nlinarith
  have hlow : (T : ℝ) - 1 < ∑ i in Finset.range n, ((⌈b i⌉₊ : ℕ) : ℝ) := by
    calc (T : ℝ) - 1 < T - eps * T := by linarith
      _ = ∑ i in Finset.range n, (e i - eps * e i) := by
          rw [Finset.sum_sub_distrib, ← Finset.mul_sum, hsum]
      _ ≤ ∑ i in Finset.range n, b i :=
          Finset.sum_le_sum fun i hi => by
            have h := (abs_le.mp (hacc i (Finset.mem_range.mp hi))).1
            linarith
      _ ≤ ∑ i in Finset.range n, ((⌈b i⌉₊ : ℕ) : ℝ) :=
          Finset.sum_le_sum fun i _ => Nat.le_ceil _
  have hhigh : ∑ i in Finset.range n, ((⌈b i⌉₊ : ℕ) : ℝ) < (T : ℝ) + n + 1 := by
    calc ∑ i in Finset.range n, ((⌈b i⌉₊ : ℕ) : ℝ)
        < ∑ i in Finset.range n, (b i + 1) :=
          Finset.sum_lt_sum_of_nonempty hne fun i hi =>
            Nat.ceil_lt_add_one (hb0 i (Finset.mem_range.mp hi))
      _ ≤ ∑ i in Finset.range n, (e i + eps * e i + 1) :=
          Finset.sum_le_sum fun i hi => by
            have h := (abs_le.mp (hacc i (Finset.mem_range.mp hi))).2
            linarith
      _ = T + eps * T + n := by
          rw [Finset.sum_add_distrib, Finset.sum_add_distrib, ← Finset.mul_sum, hsum]
          simp
      _ < (T : ℝ) + n + 1 := by linarith
  rw [← Nat.cast_sum] at hlow hhigh
  constructor
  · have h : (T : ℝ) < ((∑ i in Finset.range n, ⌈b i⌉₊ : ℕ) : ℝ) + 1 := by linarith
    have h1 : T < (∑ i in Finset.range n, ⌈b i⌉₊) + 1 := by exact_mod_cast h
    omega
  · have h1 : (∑ i in Finset.range n, ⌈b i⌉₊) < T + n + 1 := by exact_mod_cast hhigh
    omega

/-- C15 as the code has it: the table built by `generate_negative_samples` from
an empty table and a non-empty vector of positive counts, with floating-point
loop bounds of relative error at most `eps`, `eps * T < 1`, never has fewer than
`T = NEGATIVE_TABLE_SIZE = 10^8` entries and never more than `T` plus the number
of words (it may only be slightly longer than `T`); with exact arithmetic it has
fewer than `T` plus the number of words; and for the vocabulary with counts
`[100, 50, 25, 25]` and exponent 0.5 it has `10^8 + 3` entries when the relative
error is at most `10^-9`. -/
theorem negative_table_length_bounds (mk : Minkowski) (fl : real_arith) (counts : List ℤ)
    (eps : ℝ) (hempty : mk.negatives_ = []) (hpos : ∀ c ∈ counts, 0 < c) (hne : counts ≠ [])
    (heps : eps * NEGATIVE_TABLE_SIZE < 1)
    (hacc : ∀ i < counts.length,
      |computed_bound fl mk.args_.distribution_power counts i
        - exact_bound mk.args_.distribution_power counts i|
        ≤ eps * exact_bound mk.args_.distribution_power counts i) :
    NEGATIVE_TABLE_SIZE = 10 ^ 8
    ∧ NEGATIVE_TABLE_SIZE ≤ (mk.generate_negative_samples fl counts).negatives_.length
    ∧ (mk.generate_negative_samples fl counts).negatives_.length
        ≤ NEGATIVE_TABLE_SIZE + counts.length
    ∧ (mk.generate_negative_samples exact_arith counts).negatives_.length
        < NEGATIVE_TABLE_SIZE + counts.length
    ∧ (mk = ⟨Args.default, [], [], [], false⟩ → counts = [100, 50, 25, 25] →
        eps ≤ 1 / 10 ^ 9 →
        (mk.generate_negative_samples fl counts).negatives_.length = 100000003) := by
  have hn : 0 < counts.length := List.length_pos.mpr hne
  refine ⟨by norm_num [NEGATIVE_TABLE_SIZE], ?_, ?_, ?_, ?_⟩
  · rw [generate_negatives_length mk fl counts hempty]
    exact (rounded_bounds_aux counts.length NEGATIVE_TABLE_SIZE _ _ eps hn
      (by norm_num [NEGATIVE_TABLE_SIZE])
      (exact_bound_pos _ counts hpos) (exact_bound_sum _ counts hpos hne) heps hacc).1
  · rw [generate_negatives_length mk fl counts hempty]
    exact (rounded_bounds_aux counts.length NEGATIVE_TABLE_SIZE _ _ eps hn
      (by norm_num [NEGATIVE_TABLE_SIZE])
      (exact_bound_pos _ counts hpos) (exact_bound_sum _ counts hpos hne) heps hacc).2
  · have ha : ∀ i < counts.length,
        0 < ((counts.getD i 0 : ℤ) : ℝ) ^ mk.args_.distribution_power := by
      intro i hi
      apply Real.rpow_pos_of_pos
      have hmem : counts.getD i 0 ∈ counts := by
        rw [List.getD_eq_getElem _ _ hi]
        exact List.getElem_mem hi
      exact_mod_cast hpos _ hmem
    obtain ⟨_, h2⟩ := negative_table_bounds_aux counts.length
      (fun i => ((counts.getD i 0 : ℤ) : ℝ) ^ mk.args_.distribution_power)
      (NEGATIVE_TABLE_SIZE : ℝ) hn ha (Nat.cast_nonneg _)
    rw [generate_negatives_length mk exact_arith counts hempty]
    simp only [computed_bound_exact]
    unfold exact_bound
    exact_mod_cast h2
  · intro hmk hcounts he
    subst hmk
    subst hcounts
    apply example_table_length_rounded
    intro i hi
    have h := hacc i (by simpa using hi)
    have hp : Args.default.distribution_power = (0.5 : ℝ) := rfl
    simp only [hp] at h
    refine le_trans h ?_
    apply mul_le_mul_of_nonneg_right he
    exact (exact_bound_pos _ _ hpos i (by simpa using hi)).le

/-- C15 for the vocabulary with counts `[100, 50, 25, 25]` and exponent 0.5, with
exact arithmetic: the length of the table lies between `10^8` and `10^8 + 4`,
and it is `10^8 + 3`. -/
theorem negative_table_length_bounds_witness :
    100000000 ≤ (Minkowski.generate_negative_samples ⟨Args.default, [], [], [], false⟩
        exact_arith [100, 50, 25, 25]).negatives_.length
    ∧ (Minkowski.generate_negative_samples ⟨Args.default, [], [], [], false⟩
        exact_arith [100, 50, 25, 25]).negatives_.length ≤ 100000000 + 4
    ∧ (Minkowski.generate_negative_samples ⟨Args.default, [], [], [], false⟩
        exact_arith [100, 50, 25, 25]).negatives_.length = 100000003 :=
  have h := negative_table_length_bounds ⟨Args.default, [], [], [], false⟩ exact_arith
    [100, 50, 25, 25] 0 rfl (by simp) (by simp) (by norm_num)
    (by
      intro i _
      rw [computed_bound_exact, sub_self, abs_zero, zero_mul])
  ⟨h.2.1, h.2.2.1, h.2.2.2.2 rfl rfl (by norm_num)⟩

/-- C15 fails as stated: for the vocabulary with counts `[100, 50, 25, 25]` and
exponent 0.5 the four loop bounds are `36939806.25..`, `26120387.49..` and twice
`18469903.12..`, none within rounding of an integer, and the table has
`10^8 + 3` entries, which is more than `T = 10^8` and not within 1 of it. -/
theorem negative_table_exceeds_size :
    (Minkowski.generate_negative_samples ⟨Args.default, [], [], [], false⟩ exact_arith
        [100, 50, 25, 25]).negatives_.length = 100000003
    ∧ ¬ (100000003 ≤ NEGATIVE_TABLE_SIZE)
    ∧ NEGATIVE_TABLE_SIZE + 1 < 100000003 :=
  ⟨example_table_length, by norm_num [NEGATIVE_TABLE_SIZE], by norm_num [NEGATIVE_TABLE_SIZE]⟩


/-! ### The learning-rate schedule -/

theorem fixed_digits_zero (w : ℕ) : fixed_digits w 0 = List.replicate w '0' := by
  induction w with
  | zero => rfl
  | succ w ih =>
    rw [fixed_digits, Nat.zero_div, ih, Nat.zero_mod, List.replicate_succ']
    rfl

theorem fixed_digits_length (w n : ℕ) : (fixed_digits w n).length = w := by
  induction w generalizing n with
  | zero => rfl
  | succ w ih => rw [fixed_digits, List.length_append, ih, List.length_singleton]

theorem toDigitsCore_pad :
    ∀ (fuel n w : ℕ) (acc : List Char), n < fuel → n < 10 ^ w → 0 < w →
      (Nat.toDigitsCore 10 fuel n acc).length ≤ w + acc.length
      ∧ List.replicate (w + acc.length - (Nat.toDigitsCore 10 fuel n acc).length) '0'
          ++ Nat.toDigitsCore 10 fuel n acc = fixed_digits w n ++ acc := by
  intro fuel
  induction fuel with
  | zero => intro n w acc h; omega
  | succ fuel ih =>
    intro n w acc hn hw hpos
    obtain ⟨w1, rfl⟩ : ∃ w1, w = w1 + 1 := ⟨w - 1, by omega⟩
    unfold Nat.toDigitsCore
    simp only
    by_cases h0 : n / 10 = 0
    · rw [if_pos h0]
      refine ⟨by rw [List.length_cons]; omega, ?_⟩
      have hc : w1 + 1 + acc.length - (Nat.digitChar (n % 10) :: acc).length = w1 := by
        rw [List.length_cons]; omega
      rw [hc, fixed_digits, h0, fixed_digits_zero, List.append_assoc]
      rfl
    · rw [if_neg h0]
      have hw1 : 0 < w1 := by
        rcases Nat.eq_zero_or_pos w1 with e | e
        · subst e
          exact absurd (Nat.div_eq_of_lt (by simpa using hw)) h0
        · exact e
      have hlt : n / 10 < 10 ^ w1 := by
        rw [Nat.div_lt_iff_lt_mul (by norm_num)]
        rw [pow_succ] at hw
        exact hw
      have hfuel : n / 10 < fuel := by omega
      obtain ⟨h1, h2⟩ := ih (n / 10) w1 (Nat.digitChar (n % 10) :: acc) hfuel hlt hw1
      rw [List.length_cons] at h1 h2
      refine ⟨by omega, ?_⟩
      rw [show w1 + 1 + acc.length = w1 + (acc.length + 1) by omega, h2, fixed_digits,
        List.append_assoc]
      rfl

theorem to_string_natCast (n : ℕ) : to_string (n : ℤ) = String.mk (Nat.toDigits 10 n) := rfl

theorem epoch_label_eq (n : ℕ) (h : n < 10 ^ 6) :
    (to_string (n : ℤ)).length ≤ 6
    ∧ epoch_label (n : ℤ) = some (six_digits n)
    ∧ six_digits n
        = String.mk (List.replicate (6 - (to_string (n : ℤ)).length) '0') ++ to_string (n : ℤ) := by
  obtain ⟨h1, h2⟩ := toDigitsCore_pad (n + 1) n 6 [] (by omega) h (by norm_num)
  simp only [List.length_nil, add_zero, List.append_nil] at h1 h2
  have hlen : (to_string (n : ℤ)).length = (Nat.toDigits 10 n).length := by
    rw [to_string_natCast]; rfl
  have hsix : six_digits n
      = String.mk (List.replicate (6 - (to_string (n : ℤ)).length) '0') ++ to_string (n : ℤ) := by
    rw [hlen, to_string_natCast, six_digits, ← h2]
    rfl
  refine ⟨by rw [hlen]; exact h1, ?_, hsix⟩
  unfold epoch_label
  simp only
  rw [if_pos (by rw [hlen]; exact h1), ← hsix]

theorem digitChar_lt (i j : ℕ) (hij : i < j) (hj : j < 10) :
    Nat.digitChar i < Nat.digitChar j := by
  interval_cases j <;> interval_cases i <;> decide

theorem digitChar_toNat (d : ℕ) (hd : d < 10) : (Nat.digitChar d).toNat - 48 = d := by
  interval_cases d <;> rfl

theorem lex_append_of_lex {l1 l2 : List Char} (h : List.Lex (· < ·) l1 l2)
    (hlen : l1.length = l2.length) (t1 t2 : List Char) :
    List.Lex (· < ·) (l1 ++ t1) (l2 ++ t2) := by
  induction h with
  | nil => simp at hlen
  | cons _ ih =>
    simp only [List.length_cons, add_left_inj] at hlen
    exact List.Lex.cons (ih hlen)
  | rel hr => exact List.Lex.rel hr

theorem lex_snoc (l : List Char) (a b : Char) (h : a < b) :
    List.Lex (· < ·) (l ++ [a]) (l ++ [b]) := by
  induction l with
  | nil => exact List.Lex.rel h
  | cons x l ih => exact List.Lex.cons ih

theorem fixed_digits_lex (w : ℕ) :
    ∀ a b : ℕ, a < b → b < 10 ^ w → List.Lex (· < ·) (fixed_digits w a) (fixed_digits w b) := by
  induction w with
  | zero => intro a b hab hb; simp at hb; omega
  | succ w ih =>
    intro a b hab hb
    have hb10 : b / 10 < 10 ^ w := by
      rw [Nat.div_lt_iff_lt_mul (by norm_num)]
      rw [pow_succ] at hb
      exact hb
    rw [fixed_digits, fixed_digits]
    rcases Nat.lt_or_ge (a / 10) (b / 10) with h | h
    · exact lex_append_of_lex (ih _ _ h hb10)
        (by rw [fixed_digits_length, fixed_digits_length]) _ _
    · have he : a / 10 = b / 10 := by omega
      rw [he]
      exact lex_snoc _ _ _ (digitChar_lt _ _ (by omega) (Nat.mod_lt _ (by norm_num)))

theorem parse_fixed_digits (w : ℕ) :
    ∀ n : ℕ, n < 10 ^ w →
      (fixed_digits w n).foldl (fun acc c => 10 * acc + (c.toNat - 48)) 0 = n := by
  induction w with
  | zero => intro n hn; simp at hn; subst hn; rfl
  | succ w ih =>
    intro n hn
    have hn10 : n / 10 < 10 ^ w := by
      rw [Nat.div_lt_iff_lt_mul (by norm_num)]
      rw [pow_succ] at hn
      exact hn
    rw [fixed_digits, List.foldl_append, ih _ hn10, List.foldl_cons, List.foldl_nil,
      digitChar_toNat _ (Nat.mod_lt _ (by norm_num))]
    omega

/-- C19: for epochs `0 <= a < b < 10^6` the label built in `save_checkpoint` is
the decimal representation left-padded with `'0'` to exactly six characters,
the label of `a` is lexicographically smaller than the label of `b`, and a
label read as a decimal number is the epoch again. -/
theorem epoch_label_order (a b : ℤ) (ha : 0 ≤ a) (hab : a < b) (hb : b < 10 ^ 6) :
    ∃ la lb : String, epoch_label a = some la ∧ epoch_label b = some lb
      ∧ la = String.mk (List.replicate (6 - (to_string a).length) '0') ++ to_string a
      ∧ lb = String.mk (List.replicate (6 - (to_string b).length) '0') ++ to_string b
      ∧ la.length = 6 ∧ lb.length = 6
      ∧ List.Lex (· < ·) la.data lb.data
      ∧ parse_decimal la = a ∧ parse_decimal lb = b := by
  obtain ⟨m, rfl⟩ := Int.eq_ofNat_of_zero_le ha
  obtain ⟨n, rfl⟩ := Int.eq_ofNat_of_zero_le (le_trans ha hab.le)
  have hmn : m < n := by exact_mod_cast hab
  have hn : n < 10 ^ 6 := by exact_mod_cast hb
  have hm : m < 10 ^ 6 := lt_trans hmn hn
  obtain ⟨_, hla, hpa⟩ := epoch_label_eq m hm
  obtain ⟨_, hlb, hpb⟩ := epoch_label_eq n hn
  refine ⟨six_digits m, six_digits n, hla, hlb, hpa, hpb, ?_, ?_, ?_, ?_, ?_⟩
  · exact fixed_digits_length 6 m
  · exact fixed_digits_length 6 n
  · exact fixed_digits_lex 6 m n hmn hn
  · have := parse_fixed_digits 6 m hm
    unfold parse_decimal six_digits
    exact_mod_cast this
  · have := parse_fixed_digits 6 n hn
    unfold parse_decimal six_digits
    exact_mod_cast this

/-- C19 for the epochs 9 and 10: the labels are `000009` and `000010`. -/
theorem epoch_label_order_witness :
    epoch_label 9 = some "000009" ∧ epoch_label 10 = some "000010"
    ∧ List.Lex (· < ·) ("000009" : String).data ("000010" : String).data
    ∧ parse_decimal "000009" = 9 ∧ parse_decimal "000010" = 10 := by
  obtain ⟨la, lb, h1, h2, _, _, _, _, h3, h4, h5⟩ :=
    epoch_label_order 9 10 (by norm_num) (by norm_num) (by norm_num)
  have e1 : epoch_label 9 = some "000009" := by decide
  have e2 : epoch_label 10 = some "000010" := by decide
  rw [e1] at h1
  rw [e2] at h2
  have hla : la = "000009" := (Option.some.inj h1).symm
  have hlb : lb = "000010" := (Option.some.inj h2).symm
  subst hla hlb
  exact ⟨e1, e2, h3, by exact_mod_cast h4, by exact_mod_cast h5⟩


/-! ### Seeds and checkpoints of `train_epochs` -/

theorem files_written_append (a b : List Event) :
    files_written (a ++ b) = files_written a ++ files_written b := by
  simp [files_written]

theorem thread_seeds_append (a b : List Event) :
    thread_seeds (a ++ b) = thread_seeds a ++ thread_seeds b := by
  simp [thread_seeds]

theorem start_threads_files (mk : Minkowski) (E seed : ℤ) (s0 s1 : ℝ) (e : ℤ) :
    files_written (mk.start_threads E seed s0 s1 e) = [] := by
  simp [files_written, Minkowski.start_threads]

theorem start_threads_seeds (mk : Minkowski) (E seed : ℤ) (s0 s1 : ℝ) (e : ℤ) :
    thread_seeds (mk.start_threads E seed s0 s1 e)
      = (List.range mk.args_.threads.toNat).map
          fun t : ℕ => thread_seed seed e mk.args_.threads t := by
  simp only [thread_seeds, Minkowski.start_threads, List.filterMap_map]
  rw [← List.filterMap_eq_map]
  rfl

theorem save_checkpoint_eq (mk : Minkowski) (e : ℕ) (he : e < 10 ^ 6) :
    mk.save_checkpoint e
      = some (if mk.args_.checkpoint_interval > 0
                ∧ Int.tmod e mk.args_.checkpoint_interval = 0
              then [Event.file_written (mk.checkpoint_path e)] else []) := by
  unfold Minkowski.save_checkpoint
  split
  · rw [(epoch_label_eq e he).2.1]
    rfl
  · rfl

theorem save_checkpoint_seeds (mk : Minkowski) (e : ℤ) (events : List Event)
    (h : mk.save_checkpoint e = some events) : thread_seeds events = [] := by
  unfold Minkowski.save_checkpoint at h
  split at h
  · split at h
    · simp at h
    · simp only [Option.some.injEq] at h
      rw [← h]
      rfl
  · simp only [Option.some.injEq] at h
    rw [← h]
    rfl

theorem epochs_loop_seeds (mk : Minkowski) (E seed : ℤ) (s0 s1 : ℝ) (checkpoint : Bool)
    (epochs : List ℕ) :
    ∀ events, mk.epochs_loop E seed s0 s1 checkpoint epochs = some events →
      thread_seeds events
        = epochs.flatMap fun e : ℕ => (List.range mk.args_.threads.toNat).map
            fun t : ℕ => thread_seed seed e mk.args_.threads t := by
  induction epochs with
  | nil =>
    intro events h
    simp only [Minkowski.epochs_loop, Option.some.injEq] at h
    rw [← h]
    rfl
  | cons e rest ih =>
    intro events h
    unfold Minkowski.epochs_loop at h
    split at h
    · simp at h
    · rename_i saved hsaved
      split at h
      · simp at h
      · rename_i later hlater
        simp only [Option.some.injEq] at h
        have hs : thread_seeds saved = [] := by
          cases checkpoint with
          | true => exact save_checkpoint_seeds mk e saved (by simpa using hsaved)
          | false =>
            simp only [Bool.false_eq_true, if_false, Option.some.injEq] at hsaved
            rw [← hsaved]
            rfl
        rw [← h, thread_seeds_append, thread_seeds_append, hs, start_threads_seeds,
          ih later hlater, List.flatMap_cons]
        rfl

theorem epochs_loop_off (mk : Minkowski) (E seed : ℤ) (s0 s1 : ℝ) (epochs : List ℕ) :
    ∃ events, mk.epochs_loop E seed s0 s1 false epochs = some events
      ∧ files_written events = [] := by
  induction epochs with
  | nil => exact ⟨[], rfl, rfl⟩
  | cons e rest ih =>
    obtain ⟨later, h1, h2⟩ := ih
    refine ⟨[] ++ mk.start_threads E seed s0 s1 e ++ later, ?_, ?_⟩
    · unfold Minkowski.epochs_loop
      simp only [Bool.false_eq_true, if_false, h1]
    · rw [files_written_append, files_written_append, start_threads_files, h2]
      rfl

theorem epochs_loop_on (mk : Minkowski) (E seed : ℤ) (s0 s1 : ℝ) (epochs : List ℕ)
    (hlt : ∀ e ∈ epochs, e < 10 ^ 6) :
    ∃ events, mk.epochs_loop E seed s0 s1 true epochs = some events
      ∧ files_written events
          = (epochs.filter fun e : ℕ => decide (mk.args_.checkpoint_interval > 0
              ∧ Int.tmod (e : ℤ) mk.args_.checkpoint_interval = 0)).map mk.checkpoint_path := by
  induction epochs with
  | nil => exact ⟨[], rfl, rfl⟩
  | cons e rest ih =>
    obtain ⟨later, h1, h2⟩ := ih (fun x hx => hlt x (List.mem_cons_of_mem _ hx))
    have hsave := save_checkpoint_eq mk e (hlt e (List.mem_cons_self _ _))
    refine ⟨(if mk.args_.checkpoint_interval > 0
        ∧ Int.tmod e mk.args_.checkpoint_interval = 0
        then [Event.file_written (mk.checkpoint_path e)] else [])
      ++ mk.start_threads E seed s0 s1 e ++ later, ?_, ?_⟩
    · unfold Minkowski.epochs_loop
      simp only [if_true, hsave, h1]
    · rw [files_written_append, files_written_append, start_threads_files, h2,
        List.append_nil]
      by_cases hc : mk.args_.checkpoint_interval > 0
          ∧ Int.tmod e mk.args_.checkpoint_interval = 0
      · rw [if_pos hc, List.filter_cons_of_pos (by simpa using hc), List.map_cons]
        rfl
      · rw [if_neg hc, List.filter_cons_of_neg (by simpa using hc)]
        rfl

theorem train_epochs_on (mk : Minkowski) (E : ℕ) (seed : ℤ) (s0 s1 : ℝ) (hE : E < 10 ^ 6) :
    ∃ events, mk.train_epochs E seed s0 s1 true = some events
      ∧ files_written events
          = ((List.range (E + 1)).filter fun e : ℕ => decide (mk.args_.checkpoint_interval > 0
              ∧ Int.tmod (e : ℤ) mk.args_.checkpoint_interval = 0)).map mk.checkpoint_path := by
  obtain ⟨events, h1, h2⟩ := epochs_loop_on mk E seed s0 s1 (List.range E)
    (fun e he => lt_trans (List.mem_range.mp he) hE)
  have hsave := save_checkpoint_eq mk E hE
  refine ⟨events ++ (if mk.args_.checkpoint_interval > 0
      ∧ Int.tmod E mk.args_.checkpoint_interval = 0
      then [Event.file_written (mk.checkpoint_path E)] else []), ?_, ?_⟩
  · unfold Minkowski.train_epochs
    simp only [Int.toNat_ofNat, h1, if_true, hsave]
  · rw [files_written_append, h2, List.range_succ, List.filter_append, List.map_append]
    congr 1
    by_cases hc : mk.args_.checkpoint_interval > 0
        ∧ Int.tmod E mk.args_.checkpoint_interval = 0
    · rw [if_pos hc, List.filter_cons_of_pos (by simpa using hc)]
      rfl
    · rw [if_neg hc, List.filter_cons_of_neg (by simpa using hc)]
      rfl

theorem train_epochs_off (mk : Minkowski) (E seed : ℤ) (s0 s1 : ℝ) :
    ∃ events, mk.train_epochs E seed s0 s1 false = some events
      ∧ files_written events = [] := by
  obtain ⟨events, h1, h2⟩ := epochs_loop_off mk E seed s0 s1 (List.range E.toNat)
  refine ⟨events ++ [], ?_, by rw [List.append_nil]; exact h2⟩
  unfold Minkowski.train_epochs
  simp only [h1, Bool.false_eq_true, if_false]

theorem train_epochs_seeds (mk : Minkowski) (E seed : ℤ) (s0 s1 : ℝ) (checkpoint : Bool)
    (events : List Event) (h : mk.train_epochs E seed s0 s1 checkpoint = some events) :
    thread_seeds events
      = (List.range E.toNat).flatMap fun e : ℕ => (List.range mk.args_.threads.toNat).map
          fun t : ℕ => thread_seed seed e mk.args_.threads t := by
  unfold Minkowski.train_epochs at h
  split at h
  · simp at h
  · rename_i looped hloop
    split at h
    · simp at h
    · rename_i saved hsaved
      simp only [Option.some.injEq] at h
      have hs : thread_seeds saved = [] := by
        cases checkpoint with
        | true => exact save_checkpoint_seeds mk E saved (by simpa using hsaved)
        | false =>
          simp only [Bool.false_eq_true, if_false, Option.some.injEq] at hsaved
          rw [← hsaved]
          rfl
      rw [← h, thread_seeds_append, hs, List.append_nil]
      exact epochs_loop_seeds mk E seed s0 s1 checkpoint _ looped hloop

/-- C17 fails on the code: with the seed 1 and the 12 threads set by
`Args::Args()` and one burn-in epoch, thread 0 of burn-in epoch 0 and thread 2
of main epoch 0 are both started with the seed 1. -/
theorem burnin_and_main_share_seed :
    thread_seed Args.default.seed 0 Args.default.threads 0 = 1
    ∧ thread_seed (-1 * Args.default.seed) 0 Args.default.threads 2 = 1
    ∧ ∃ burnin main : List Event,
        Minkowski.train_burnin ⟨{ Args.default with burnin_epochs := 1 }, [], [], [], false⟩
          = some burnin
        ∧ Minkowski.train_main ⟨{ Args.default with burnin_epochs := 1 }, [], [], [], false⟩
          = some main
        ∧ (1 : ℤ) ∈ thread_seeds burnin ∧ (1 : ℤ) ∈ thread_seeds main := by
  refine ⟨by decide, by decide, ?_⟩
  obtain ⟨burnin, hb, _⟩ := train_epochs_off
    ⟨{ Args.default with burnin_epochs := 1 }, [], [], [], true⟩ 1 1 0.05 0.05
  obtain ⟨main, hm, _⟩ := train_epochs_on
    ⟨{ Args.default with burnin_epochs := 1 }, [], [], [], false⟩ 5 (-1 * 1) 0.05 0.05
    (by norm_num)
  refine ⟨burnin, main, hb, hm, ?_, ?_⟩
  · rw [train_epochs_seeds _ _ _ _ _ _ _ hb]
    refine List.mem_flatMap.mpr ⟨0, by simp, ?_⟩
    refine List.mem_map.mpr ⟨0, ?_, ?_⟩
    · simp [Args.default]
    · simp [thread_seed]
  · rw [train_epochs_seeds _ _ _ _ _ _ _ hm]
    refine List.mem_flatMap.mpr ⟨0, by simp, ?_⟩
    refine List.mem_map.mpr ⟨2, ?_, ?_⟩
    · simp [Args.default]
    · simp [thread_seed]

/-- C18 as the code has it: with `checkpoint_interval > 0` and `E < 10^6` main
epochs, main training writes exactly the checkpoint files of the epochs
`e = 0, ..., E` with `e mod checkpoint_interval == 0`, in this order: one at
the start of every such epoch `e < E`, and one after the last epoch only when
`E mod checkpoint_interval == 0`.  The burn-in phase writes no file. -/
theorem checkpoints_written (mk : Minkowski) (E : ℕ)
    (hci : 0 < mk.args_.checkpoint_interval) (hE : E < 10 ^ 6)
    (hepochs : mk.args_.epochs = E) :
    (∃ events, mk.train_main = some events
      ∧ files_written events
          = ((List.range (E + 1)).filter fun e : ℕ =>
              decide (Int.tmod (e : ℤ) mk.args_.checkpoint_interval = 0)).map
            mk.checkpoint_path)
    ∧ ∃ events, mk.train_burnin = some events ∧ files_written events = [] := by
  constructor
  · obtain ⟨events, h1, h2⟩ := train_epochs_on { mk with burnin_ := false } E
      (-1 * mk.args_.seed) mk.args_.start_lr mk.args_.end_lr hE
    refine ⟨events, ?_, ?_⟩
    · unfold Minkowski.train_main
      rw [hepochs]
      exact h1
    · rw [h2]
      congr 1
      apply List.filter_congr
      intro e _
      have : (0 : ℤ) < mk.args_.checkpoint_interval := hci
      simp [this]
  · exact train_epochs_off { mk with burnin_ := true } _ _ _ _

/-- C18 for `checkpoint_interval = 2` and 5 epochs with the output prefix
`out`: the checkpoints written are those of the epochs 0, 2 and 4. -/
theorem checkpoints_written_witness :
    ∃ events,
      Minkowski.train_main
          ⟨{ Args.default with checkpoint_interval := 2, epochs := 5, output := "out" },
            [], [], [], false⟩ = some events
      ∧ files_written events
          = ["out-after-000000-epochs.csv", "out-after-000002-epochs.csv",
             "out-after-000004-epochs.csv"] := by
  obtain ⟨events, h1, h2⟩ := (checkpoints_written
    ⟨{ Args.default with checkpoint_interval := 2, epochs := 5, output := "out" },
      [], [], [], false⟩ 5 (by simp) (by norm_num) (by simp)).1
  refine ⟨events, h1, ?_⟩
  rw [h2]
  decide

/-- C18 fails as stated: with `checkpoint_interval = 2` and 5 epochs the files
written are those of the epochs 0, 2 and 4; no checkpoint is written after the
last epoch, since `5 mod 2` is not 0. -/
theorem no_checkpoint_after_epoch_five :
    ∃ events,
      Minkowski.train_main
          ⟨{ Args.default with checkpoint_interval := 2, epochs := 5, output := "out" },
            [], [], [], false⟩ = some events
      ∧ files_written events
          = ["out-after-000000-epochs.csv", "out-after-000002-epochs.csv",
             "out-after-000004-epochs.csv"]
      ∧ "out-after-000005-epochs.csv" ∉ files_written events := by
  obtain ⟨events, h1, h2⟩ := train_epochs_on
    ⟨{ Args.default with checkpoint_interval := 2, epochs := 5, output := "out" },
      [], [], [], false⟩ 5 (-1 * 1) 0.05 0.05 (by norm_num)
  have h3 : files_written events
      = ["out-after-000000-epochs.csv", "out-after-000002-epochs.csv",
         "out-after-000004-epochs.csv"] := by
    rw [h2]
    decide
  refine ⟨events, h1, h3, ?_⟩
  rw [h3]
  decide


/-! ### The tabulated sigmoid -/

/-- C21: `Model::get_performance` returns `performance_ / nexamples_` and leaves
`performance_ = 0` and `nexamples_ = 1` (nothing else changes); a second call
right after any call returns `0`; and the function is not idempotent: there is
a model on which the two calls return different values. -/
theorem get_performance_spec :
    (∀ m : Model,
      (m.get_performance).2 = m.performance_ / (m.nexamples_ : ℝ)
      ∧ (m.get_performance).1 = { m with performance_ := 0, nexamples_ := 1 }
      ∧ ((m.get_performance).1.get_performance).2 = 0)
    ∧ ∃ m : Model, ((m.get_performance).1.get_performance).2 ≠ (m.get_performance).2 := by
  refine ⟨fun m => ⟨rfl, ?_, ?_⟩, ?_⟩
  · simp only [Model.get_performance]
    rw [show (0.0 : ℝ) = 0 by norm_num]
  · simp only [Model.get_performance]
    rw [show (0.0 : ℝ) = 0 by norm_num]
    simp
  · refine ⟨{ vectors_ := [], args_ := Args.default, acc_grad_source_ := [],
              grad_output_ := [], performance_ := 1, nexamples_ := 1, t_sigmoid := [] }, ?_⟩
    simp only [Model.get_performance]
    rw [show (0.0 : ℝ) = 0 by norm_num]
    norm_num

/-! ### The ball model -/

theorem get_set (v : Vector) (i j : ℕ) (x : ℝ) :
    Vector.get (v.set i x) j = if j = i ∧ i < v.length then x else v.get j := by
  unfold Vector.get
  by_cases h : j = i
  · subst h
    by_cases hj : j < v.length
    · simp [List.getD_eq_getElem?_getD, hj]
    · rw [List.getD_eq_getElem?_getD, List.getD_eq_getElem?_getD,
        List.getElem?_eq_none (by simpa using not_lt.mp hj),
        List.getElem?_eq_none (not_lt.mp hj)]
      simp [hj]
  · simp [h, List.getD_eq_getElem?_getD, List.getElem?_set_ne (Ne.symm h)]

theorem vector_ext (v w : Vector) (hl : v.length = w.length)
    (h : ∀ i, v.get i = w.get i) : v = w := by
  apply List.ext_getElem hl
  intro i h1 h2
  have := h i
  simpa [Vector.get, List.getD_eq_getElem?_getD, List.getElem?_eq_getElem, h1, h2] using this

theorem get_of_le (v : Vector) (i : ℕ) (h : v.length ≤ i) : v.get i = 0 := by
  simp [Vector.get, List.getD_eq_getElem?_getD, List.getElem?_eq_none h]

theorem on_hyperboloid_sum (p : Vector) (hp : on_hyperboloid p) :
    0 < p.length
      ∧ ∑ i in Finset.range (p.length - 1), p.get i ^ 2 = p.get (p.length - 1) ^ 2 - 1
      ∧ 0 < p.get (p.length - 1) := by
  obtain ⟨h1, h2⟩ := hp
  simp only [Vector.size] at h2
  refine ⟨?_, ?_, h2⟩
  · rcases Nat.eq_zero_or_pos p.length with h | h
    · rw [get_of_le p _ (by omega)] at h2
      exact absurd h2 (lt_irrefl 0)
    · exact h
  · rw [minkowski_dot_sum] at h1
    have : ∑ i in Finset.range (p.length - 1), p.get i ^ 2
        = ∑ i in Finset.range (p.length - 1), p.get i * p.get i :=
      Finset.sum_congr rfl (fun i _ => by ring)
    rw [this]
    linarith

theorem to_ball_point_length (p : Vector) : (Vector.to_ball_point p).length = p.length := by
  simp [Vector.to_ball_point, Vector.multiply]

theorem to_ball_point_get (p : Vector) (hn : 0 < p.length) (i : ℕ) :
    (Vector.to_ball_point p).get i
      = if i = p.length - 1 then 0 else p.get i / (p.get (p.length - 1) + 1) := by
  simp only [Vector.to_ball_point, Vector.size]
  rw [get_multiply, get_set]
  rw [show (1.0 : ℝ) = 1 by norm_num]
  by_cases h : i = p.length - 1
  · rw [if_pos ⟨h, by omega⟩, if_pos h, zero_mul]
  · rw [if_neg (fun hh => h hh.1), if_neg h]
    ring

theorem to_ball_point_sum (p : Vector) (hp : on_hyperboloid p) :
    ∑ i in Finset.range (p.length - 1), (Vector.to_ball_point p).get i ^ 2
      = (p.get (p.length - 1) - 1) / (p.get (p.length - 1) + 1) := by
  obtain ⟨hn, hs, hpos⟩ := on_hyperboloid_sum p hp
  have h1 : ∀ i ∈ Finset.range (p.length - 1), (Vector.to_ball_point p).get i ^ 2
      = p.get i ^ 2 * ((p.get (p.length - 1) + 1) ^ 2)⁻¹ := by
    intro i hi
    rw [to_ball_point_get p hn, if_neg (by have := Finset.mem_range.mp hi; omega)]
    rw [div_pow, div_eq_mul_inv]
  rw [Finset.sum_congr rfl h1, ← Finset.sum_mul, hs]
  have hD : p.get (p.length - 1) + 1 ≠ 0 := by linarith
  field_simp
  ring

theorem to_ball_point_dot (p : Vector) (hp : on_hyperboloid p) :
    minkowski_dot (Vector.to_ball_point p) (Vector.to_ball_point p)
      = (p.get (p.length - 1) - 1) / (p.get (p.length - 1) + 1) := by
  obtain ⟨hn, _, _⟩ := on_hyperboloid_sum p hp
  rw [minkowski_dot_sum, to_ball_point_length, ← to_ball_point_sum p hp,
    to_ball_point_get p hn (p.length - 1), if_pos rfl]
  rw [mul_zero, sub_zero]
  exact Finset.sum_congr rfl (fun i _ => by ring)

theorem euclid_norm_sq_of_last_zero (v : Vector) (hn : 0 < v.length)
    (h0 : v.get (v.length - 1) = 0) :
    ∑ i in Finset.range v.size, v.get i ^ 2
      = ∑ i in Finset.range (v.length - 1), v.get i ^ 2 := by
  have : v.size = (v.length - 1) + 1 := by simp only [Vector.size]; omega
  rw [this, Finset.sum_range_succ, h0]
  ring

theorem tanh_half_sq (r : ℝ) :
    Real.tanh (r / 2) ^ 2 = (Real.cosh r - 1) / (Real.cosh r + 1) := by
  have hc : Real.cosh r = Real.cosh (r / 2) ^ 2 + Real.sinh (r / 2) ^ 2 := by
    rw [← Real.cosh_two_mul]; congr 1; ring
  have h1 := Real.cosh_sq (r / 2)
  have hpos := Real.cosh_pos (r / 2)
  rw [Real.tanh_eq_sinh_div_cosh, div_pow, hc]
  have e1 : Real.cosh (r / 2) ^ 2 + Real.sinh (r / 2) ^ 2 - 1 = 2 * Real.sinh (r / 2) ^ 2 := by
    rw [h1]; ring
  have e2 : Real.cosh (r / 2) ^ 2 + Real.sinh (r / 2) ^ 2 + 1 = 2 * Real.cosh (r / 2) ^ 2 := by
    rw [h1]; ring
  rw [e1, e2]
  have : Real.cosh (r / 2) ^ 2 ≠ 0 := by positivity
  field_simp
  ring

/-- C23: for every point `p` of the hyperboloid, `to_ball_point` followed by
`to_hyperboloid_point` gives back `p` exactly. -/
theorem ball_round_trip (p : Vector) (hp : on_hyperboloid p) :
    Vector.to_hyperboloid_point (Vector.to_ball_point p) = p := by
  obtain ⟨hn, hs, hpos⟩ := on_hyperboloid_sum p hp
  have hD : p.get (p.length - 1) + 1 ≠ 0 := by linarith
  apply vector_ext
  · simp [Vector.to_hyperboloid_point, Vector.multiply, to_ball_point_length]
  · intro i
    simp only [Vector.to_hyperboloid_point, Vector.size]
    rw [get_set, length_multiply, get_multiply, to_ball_point_dot p hp, to_ball_point_length,
      to_ball_point_get p hn]
    rw [show (2.0 : ℝ) = 2 by norm_num]
    have e : 1 - (p.get (p.length - 1) - 1) / (p.get (p.length - 1) + 1)
        = 2 / (p.get (p.length - 1) + 1) := by
      field_simp
      ring
    rw [e]
    by_cases h : i = p.length - 1
    · rw [if_pos ⟨h, by omega⟩, h]
      field_simp
    · rw [if_neg (fun hh => h hh.1), if_neg h]
      field_simp

/-- The point `(sinh 1, cosh 1)` of the hyperboloid in dimension 2 is recovered
from its image in the ball. -/
theorem ball_round_trip_witness :
    on_hyperboloid [Real.sinh 1, Real.cosh 1]
      ∧ Vector.to_hyperboloid_point (Vector.to_ball_point [Real.sinh 1, Real.cosh 1])
        = [Real.sinh 1, Real.cosh 1] :=
  have h : on_hyperboloid [Real.sinh 1, Real.cosh 1] := by
    refine ⟨?_, ?_⟩
    · simp only [minkowski_dot, Vector.size, Vector.get, List.length_cons, List.length_nil]
      simp [List.range_succ]
      nlinarith [Real.cosh_sq 1]
    · simp [Vector.size, Vector.get, Real.cosh_pos]
  ⟨h, ball_round_trip _ h⟩

theorem get_zero (v : Vector) (i : ℕ) : (Vector.zero v).get i = 0 := by
  have := get_multiply v 0 i
  simpa [Vector.multiply, Vector.zero] using this

theorem length_zero (v : Vector) : (Vector.zero v).length = v.length := by
  simp [Vector.zero]

/-- The basepoint `(0, ..., 0, 1)` in the dimension of `v`. -/
theorem basepoint_get (v : Vector) (hn : 0 < v.length) (i : ℕ) :
    Vector.get ((Vector.zero v).set (v.length - 1) 1) i = if i = v.length - 1 then 1 else 0 := by
  rw [get_set, get_zero, length_zero]
  by_cases h : i = v.length - 1
  · rw [if_pos ⟨h, by omega⟩, if_pos h]
  · rw [if_neg (fun hh => h hh.1), if_neg h]

theorem basepoint_dot (v w : Vector) (hn : 0 < v.length) :
    minkowski_dot ((Vector.zero v).set (v.length - 1) 1) w = -w.get (v.length - 1) := by
  rw [minkowski_dot_sum]
  simp only [List.length_set, length_zero]
  rw [basepoint_get v hn, if_pos rfl]
  have : ∀ i ∈ Finset.range (v.length - 1),
      Vector.get ((Vector.zero v).set (v.length - 1) 1) i * w.get i = 0 := by
    intro i hi
    rw [basepoint_get v hn, if_neg (by have := Finset.mem_range.mp hi; omega), zero_mul]
  rw [Finset.sum_eq_zero this]
  ring

theorem to_ball_point_norm (p : Vector) (hp : on_hyperboloid p) :
    euclid_norm (Vector.to_ball_point p)
      = Real.sqrt ((p.get (p.length - 1) - 1) / (p.get (p.length - 1) + 1)) := by
  obtain ⟨hn, _, _⟩ := on_hyperboloid_sum p hp
  unfold euclid_norm
  rw [euclid_norm_sq_of_last_zero _ (by rw [to_ball_point_length]; exact hn)
    (by rw [to_ball_point_length, to_ball_point_get p hn, if_pos rfl]),
    to_ball_point_length, to_ball_point_sum p hp]

/-- C24: `to_ball_point` maps a point of the hyperboloid whose last coordinate
is `cosh r`, `r >= 0` (a point at hyperbolic distance `r` from the basepoint),
to a vector with last coordinate `0` and Euclidean norm `tanh (r / 2)`, which
is less than `1`; and it maps the basepoint `(0, ..., 0, 1)` to the origin. -/
theorem to_ball_point_spec (p : Vector) (r : ℝ) (hp : on_hyperboloid p) (hr : 0 ≤ r)
    (hlast : p.get (p.size - 1) = Real.cosh r) :
    distance ((Vector.zero p).set (p.size - 1) 1) p = r
      ∧ (Vector.to_ball_point p).get (p.size - 1) = 0
      ∧ euclid_norm (Vector.to_ball_point p) = Real.tanh (r / 2)
      ∧ euclid_norm (Vector.to_ball_point p) < 1
      ∧ ∀ n : ℕ, Vector.to_ball_point (List.replicate n 0 ++ [1]) = List.replicate (n + 1) 0 := by
  obtain ⟨hn, _, _⟩ := on_hyperboloid_sum p hp
  simp only [Vector.size] at hlast ⊢
  have hnorm : euclid_norm (Vector.to_ball_point p) = Real.tanh (r / 2) := by
    have ht : 0 ≤ Real.tanh (r / 2) := by
      rw [Real.tanh_eq_sinh_div_cosh]
      exact div_nonneg (Real.sinh_nonneg_iff.mpr (by linarith)) (Real.cosh_pos _).le
    rw [to_ball_point_norm p hp, hlast, ← tanh_half_sq, Real.sqrt_sq ht]
  refine ⟨?_, ?_, hnorm, ?_, ?_⟩
  · unfold distance
    rw [basepoint_dot p p hn, neg_neg, hlast, acosh_cosh r hr]
  · rw [to_ball_point_get p hn, if_pos rfl]
  · rw [hnorm, Real.tanh_eq_sinh_div_cosh, div_lt_one (Real.cosh_pos _)]
    exact Real.sinh_lt_cosh _
  · intro n
    apply vector_ext
    · simp [to_ball_point_length]
    · intro i
      rw [to_ball_point_get _ (by simp)]
      have hz : Vector.get (List.replicate (n + 1) (0 : ℝ)) i = 0 := by
        simp only [Vector.get, List.getD_eq_getElem?_getD, List.getElem?_replicate]
        split <;> rfl
      rw [hz]
      by_cases h : i = (List.replicate n (0 : ℝ) ++ [1]).length - 1
      · rw [if_pos h]
      · rw [if_neg h]
        have : Vector.get (List.replicate n (0 : ℝ) ++ [1]) i = 0 := by
          simp only [List.length_append, List.length_replicate, List.length_singleton,
            Nat.add_sub_cancel] at h
          simp only [Vector.get, List.getD_eq_getElem?_getD]
          rcases lt_or_gt_of_ne h with h1 | h1
          · rw [List.getElem?_append_left (by simpa using h1), List.getElem?_replicate,
              if_pos h1]
            rfl
          · rw [List.getElem?_eq_none (by simp; omega)]
            rfl
        rw [this, zero_div]

theorem sinh_cosh_on_hyperboloid (r : ℝ) : on_hyperboloid [Real.sinh r, Real.cosh r] := by
  refine ⟨?_, ?_⟩
  · simp only [minkowski_dot, Vector.size, Vector.get, List.length_cons, List.length_nil]
    simp [List.range_succ]
    nlinarith [Real.cosh_sq r]
  · simp [Vector.size, Vector.get, Real.cosh_pos]

/-- The point `(sinh 1, cosh 1)`, at distance `1` from the basepoint `(0, 1)`,
is mapped to a vector of Euclidean norm `tanh (1 / 2)`. -/
theorem to_ball_point_spec_witness :
    distance ((Vector.zero [Real.sinh 1, Real.cosh 1]).set
        (Vector.size [Real.sinh 1, Real.cosh 1] - 1) 1) [Real.sinh 1, Real.cosh 1] = 1
      ∧ (Vector.to_ball_point [Real.sinh 1, Real.cosh 1]).get
          (Vector.size [Real.sinh 1, Real.cosh 1] - 1) = 0
      ∧ euclid_norm (Vector.to_ball_point [Real.sinh 1, Real.cosh 1]) = Real.tanh (1 / 2)
      ∧ euclid_norm (Vector.to_ball_point [Real.sinh 1, Real.cosh 1]) < 1
      ∧ ∀ n : ℕ, Vector.to_ball_point (List.replicate n 0 ++ [1]) = List.replicate (n + 1) 0 :=
  to_ball_point_spec [Real.sinh 1, Real.cosh 1] 1 (sinh_cosh_on_hyperboloid 1) zero_le_one
    (by simp [Vector.size, Vector.get])

theorem ball_tangent_loop (hp : Vector) (denom : ℝ) (n m : ℕ) (v : Vector) (hm : m ≤ n) :
    ((List.range m).foldl (fun data i => data.set i ((Vector.get data i
        - hp.get i * Vector.get data n / denom) / denom)) v).length = v.length
    ∧ ∀ j, Vector.get ((List.range m).foldl (fun data i => data.set i ((Vector.get data i
        - hp.get i * Vector.get data n / denom) / denom)) v) j
      = if j < m then (v.get j - hp.get j * v.get n / denom) / denom else v.get j := by
  induction m with
  | zero => simp
  | succ m ih =>
    obtain ⟨ihl, ihg⟩ := ih (by omega)
    rw [List.range_succ, List.foldl_append]
    simp only [List.foldl_cons, List.foldl_nil]
    refine ⟨by rw [List.length_set, ihl], fun j => ?_⟩
    rw [get_set, ihl, ihg m, if_neg (lt_irrefl m), ihg n, if_neg (show ¬ n < m by omega), ihg j]
    by_cases h : j = m
    · subst h
      by_cases hj : j < v.length
      · simp [hj]
      · have h1 : v.get j = 0 := get_of_le v j (by omega)
        have h2 : v.get n = 0 := get_of_le v n (by omega)
        simp [hj, h1, h2]
    · by_cases h2 : j < m
      · have h3 : j < m + 1 := by omega
        simp [h, h2, h3]
      · have h3 : ¬ j < m + 1 := by omega
        simp [h, h2, h3]

theorem to_ball_tangent_length (t p : Vector) : (Vector.to_ball_tangent t p).length = t.length := by
  simp only [Vector.to_ball_tangent, List.length_set]
  exact (ball_tangent_loop p _ _ _ t (le_refl _)).1

theorem to_ball_tangent_get (t p : Vector) (hn : 0 < t.length) (j : ℕ) :
    (Vector.to_ball_tangent t p).get j
      = if j < t.length - 1 then
          (t.get j - p.get j * t.get (t.length - 1) / (p.get (t.length - 1) + 1))
            / (p.get (t.length - 1) + 1)
        else 0 := by
  simp only [Vector.to_ball_tangent, Vector.size]
  rw [get_set, (ball_tangent_loop p _ _ _ t (le_refl _)).1,
    (ball_tangent_loop p _ _ _ t (le_refl _)).2 j]
  by_cases h : j = t.length - 1
  · have h3 : ¬ j < t.length - 1 := by omega
    have h4 : t.length - 1 < t.length := by omega
    simp [h, h4]
  · by_cases h2 : j < t.length - 1
    · simp [h, h2]
    · have h3 : t.get j = 0 := get_of_le t j (by omega)
      simp [h, h2, h3]

theorem to_ball_tangent_norm (t p : Vector) (hl : t.length = p.length) (hp : on_hyperboloid p)
    (hpt : minkowski_dot p t = 0) :
    euclid_norm (Vector.to_ball_tangent t p)
      = Real.sqrt (minkowski_dot t t) / (p.get (p.length - 1) + 1) := by
  obtain ⟨hn, hs, hpos⟩ := on_hyperboloid_sum p hp
  have hD : 0 < p.get (p.length - 1) + 1 := by linarith
  have hB : ∑ i in Finset.range (p.length - 1), p.get i * t.get i
      = p.get (p.length - 1) * t.get (p.length - 1) := by
    rw [minkowski_dot_sum] at hpt
    linarith
  have hA : ∑ i in Finset.range (p.length - 1), t.get i ^ 2
      = minkowski_dot t t + t.get (p.length - 1) ^ 2 := by
    rw [minkowski_dot_sum, hl]
    have : ∑ i in Finset.range (p.length - 1), t.get i ^ 2
        = ∑ i in Finset.range (p.length - 1), t.get i * t.get i :=
      Finset.sum_congr rfl (fun i _ => by ring)
    rw [this]
    ring
  have hterm : ∀ i ∈ Finset.range (p.length - 1), (Vector.to_ball_tangent t p).get i ^ 2
      = t.get i ^ 2 * (1 / (p.get (p.length - 1) + 1) ^ 2)
        - p.get i * t.get i * (2 * t.get (p.length - 1) / (p.get (p.length - 1) + 1) ^ 3)
        + p.get i ^ 2 * (t.get (p.length - 1) ^ 2 / (p.get (p.length - 1) + 1) ^ 4) := by
    intro i hi
    rw [to_ball_tangent_get t p (by omega), hl, if_pos (Finset.mem_range.mp hi)]
    field_simp
    ring
  unfold euclid_norm
  rw [euclid_norm_sq_of_last_zero _ (by rw [to_ball_tangent_length]; omega)
    (by rw [to_ball_tangent_length, to_ball_tangent_get t p (by omega), if_neg (lt_irrefl _)]),
    to_ball_tangent_length, hl, Finset.sum_congr rfl hterm, Finset.sum_add_distrib,
    Finset.sum_sub_distrib, ← Finset.sum_mul, ← Finset.sum_mul, ← Finset.sum_mul, hA, hB, hs]
  have e : (minkowski_dot t t + t.get (p.length - 1) ^ 2) * (1 / (p.get (p.length - 1) + 1) ^ 2)
        - p.get (p.length - 1) * t.get (p.length - 1)
          * (2 * t.get (p.length - 1) / (p.get (p.length - 1) + 1) ^ 3)
        + (p.get (p.length - 1) ^ 2 - 1)
          * (t.get (p.length - 1) ^ 2 / (p.get (p.length - 1) + 1) ^ 4)
      = minkowski_dot t t / (p.get (p.length - 1) + 1) ^ 2 := by
    field_simp
    ring
  rw [e, Real.sqrt_div' _ (sq_nonneg _), Real.sqrt_sq hD.le]

/-- C25: for a point `p` of the hyperboloid and a tangent `t` at `p`
(`<p,t>_M = 0`, same dimension), `t.to_ball_tangent(p)` has last coordinate `0`
and satisfies `2 * |t_after|_euclid / (1 - r^2) = sqrt(<t,t>_M)`, where `r` is
the Euclidean norm of `to_ball_point(p)`; for a unit tangent the left side
is `1`. -/
theorem to_ball_tangent_isometry (t p : Vector) (hl : t.size = p.size) (hp : on_hyperboloid p)
    (hpt : minkowski_dot p t = 0) :
    (Vector.to_ball_tangent t p).get (t.size - 1) = 0
      ∧ 2 * euclid_norm (Vector.to_ball_tangent t p)
            / (1 - euclid_norm (Vector.to_ball_point p) ^ 2)
          = Real.sqrt (minkowski_dot t t)
      ∧ (minkowski_dot t t = 1 →
          2 * euclid_norm (Vector.to_ball_tangent t p)
            / (1 - euclid_norm (Vector.to_ball_point p) ^ 2) = 1) := by
  simp only [Vector.size] at hl ⊢
  obtain ⟨hn, hs, hpos⟩ := on_hyperboloid_sum p hp
  have hD : 0 < p.get (p.length - 1) + 1 := by linarith
  have hge : 1 ≤ p.get (p.length - 1) := by
    have h0 : 0 ≤ ∑ i in Finset.range (p.length - 1), p.get i ^ 2 :=
      Finset.sum_nonneg (fun i _ => sq_nonneg _)
    nlinarith
  have hr : euclid_norm (Vector.to_ball_point p) ^ 2
      = (p.get (p.length - 1) - 1) / (p.get (p.length - 1) + 1) := by
    rw [to_ball_point_norm p hp, Real.sq_sqrt (div_nonneg (by linarith) hD.le)]
  have hmain : 2 * euclid_norm (Vector.to_ball_tangent t p)
        / (1 - euclid_norm (Vector.to_ball_point p) ^ 2)
      = Real.sqrt (minkowski_dot t t) := by
    rw [hr, to_ball_tangent_norm t p hl hp hpt]
    have e : 1 - (p.get (p.length - 1) - 1) / (p.get (p.length - 1) + 1)
        = 2 / (p.get (p.length - 1) + 1) := by
      field_simp
      ring
    rw [e]
    field_simp
  refine ⟨?_, hmain, fun h1 => ?_⟩
  · rw [to_ball_tangent_get t p (by omega), if_neg (lt_irrefl _)]
  · rw [hmain, h1, Real.sqrt_one]

/-- The unit tangent `(cosh 1, sinh 1)` at the point `(sinh 1, cosh 1)`. -/
theorem to_ball_tangent_isometry_witness :
    (Vector.to_ball_tangent [Real.cosh 1, Real.sinh 1] [Real.sinh 1, Real.cosh 1]).get
        (Vector.size [Real.cosh 1, Real.sinh 1] - 1) = 0
      ∧ 2 * euclid_norm (Vector.to_ball_tangent [Real.cosh 1, Real.sinh 1]
              [Real.sinh 1, Real.cosh 1])
            / (1 - euclid_norm (Vector.to_ball_point [Real.sinh 1, Real.cosh 1]) ^ 2)
          = Real.sqrt (minkowski_dot [Real.cosh 1, Real.sinh 1] [Real.cosh 1, Real.sinh 1])
      ∧ (minkowski_dot [Real.cosh 1, Real.sinh 1] [Real.cosh 1, Real.sinh 1] = 1 →
          2 * euclid_norm (Vector.to_ball_tangent [Real.cosh 1, Real.sinh 1]
              [Real.sinh 1, Real.cosh 1])
            / (1 - euclid_norm (Vector.to_ball_point [Real.sinh 1, Real.cosh 1]) ^ 2) = 1) :=
  to_ball_tangent_isometry [Real.cosh 1, Real.sinh 1] [Real.sinh 1, Real.cosh 1] rfl
    (sinh_cosh_on_hyperboloid 1)
    (by
      simp only [minkowski_dot, Vector.size, Vector.get, List.length_cons, List.length_nil]
      simp [List.range_succ]
      ring)

/-! ### `random_hyperboloid_point` -/

theorem random_tangent_loop (normal : ℕ → ℝ) (n m : ℕ) (hm : m ≤ n) :
    ((List.range m).foldl
        (fun (acc : Vector × real) j =>
          let t : Vector := acc.1.set j (normal j)
          (t, acc.2 + t.get j * t.get j)) (List.replicate n 0, 0)).1.length = n
    ∧ (∀ j, Vector.get ((List.range m).foldl
        (fun (acc : Vector × real) j =>
          let t : Vector := acc.1.set j (normal j)
          (t, acc.2 + t.get j * t.get j)) (List.replicate n 0, 0)).1 j
        = if j < m then normal j else 0)
    ∧ ((List.range m).foldl
        (fun (acc : Vector × real) j =>
          let t : Vector := acc.1.set j (normal j)
          (t, acc.2 + t.get j * t.get j)) (List.replicate n 0, 0)).2
        = ∑ j in Finset.range m, normal j ^ 2 := by
  induction m with
  | zero =>
    refine ⟨by simp, fun j => ?_, by simp⟩
    simp only [List.range_zero, List.foldl_nil, Vector.get, List.getD_eq_getElem?_getD,
      List.getElem?_replicate]
    split <;> simp
  | succ m ih =>
    obtain ⟨ihl, ihg, ihs⟩ := ih (by omega)
    rw [List.range_succ, List.foldl_append]
    simp only [List.foldl_cons, List.foldl_nil]
    refine ⟨by rw [List.length_set, ihl], fun j => ?_, ?_⟩
    · rw [get_set, ihl, ihg j]
      by_cases h : j = m
      · have h1 : m < n := by omega
        simp [h, h1]
      · by_cases h2 : j < m
        · have h3 : j < m + 1 := by omega
          simp [h, h2, h3]
        · have h3 : ¬ j < m + 1 := by omega
          simp [h, h2, h3]
    · rw [get_set, ihl, if_pos ⟨rfl, by omega⟩, ihs, Finset.sum_range_succ]
      ring

theorem random_hyperboloid_point_eq (vector : Vector) (normal : ℕ → ℝ)
    (hg : ∑ j in Finset.range (vector.length - 1), normal j ^ 2 ≠ 0) :
    ∃ t : Vector, t.length = vector.length
      ∧ (∀ j, t.get j = (if j < vector.length - 1 then normal j else 0)
            * (1 / Real.sqrt (∑ j in Finset.range (vector.length - 1), normal j ^ 2)))
      ∧ random_hyperboloid_point vector normal
        = Vector.geodesic_update ((Vector.zero vector).set (vector.length - 1) 1) t
            (Real.sqrt (∑ j in Finset.range (vector.length - 1), normal j ^ 2)) := by
  obtain ⟨hl, hget, hsum⟩ := random_tangent_loop normal vector.length (vector.length - 1)
    (Nat.sub_le _ _)
  have hpos : 0 < ∑ j in Finset.range (vector.length - 1), normal j ^ 2 :=
    lt_of_le_of_ne (Finset.sum_nonneg (fun i _ => sq_nonneg _)) (Ne.symm hg)
  have hne : Real.sqrt (∑ j in Finset.range (vector.length - 1), normal j ^ 2) ≠ 0 :=
    (Real.sqrt_pos.mpr hpos).ne'
  simp only [random_hyperboloid_point, Vector.size]
  rw [hsum, if_neg hne]
  refine ⟨_, ?_, ?_, rfl⟩
  · rw [length_multiply, List.length_set, hl]
  · intro j
    rw [get_multiply, get_set, hl, hget j]
    rw [show (1.0 : ℝ) = 1 by norm_num]
    by_cases h : j = vector.length - 1
    · simp [h]
    · simp [h]

/-- On draws that are not all zero the function is as documented: for every
vector of dimension `d >= 2` and every sequence `g_0, ..., g_{d-2}` of drawn
values that are not all zero,
`random_hyperboloid_point` returns a point `v` of dimension `d` with
`<v,v>_M = -1` and `v[d-1] > 0`, whose hyperbolic distance from the basepoint
`(0, ..., 0, 1)` is `sqrt (sum_j g_j^2)` and whose last coordinate is the `cosh`
of that norm. -/
theorem random_hyperboloid_point_spec (vector : Vector) (normal : ℕ → ℝ)
    (hd : 2 ≤ vector.size)
    (hg : ∑ j in Finset.range (vector.size - 1), normal j ^ 2 ≠ 0) :
    ∃ v, random_hyperboloid_point vector normal = some v
      ∧ v.size = vector.size
      ∧ minkowski_dot v v = -1
      ∧ 0 < v.get (vector.size - 1)
      ∧ distance ((Vector.zero vector).set (vector.size - 1) 1) v
          = Real.sqrt (∑ j in Finset.range (vector.size - 1), normal j ^ 2)
      ∧ v.get (vector.size - 1)
          = Real.cosh (Real.sqrt (∑ j in Finset.range (vector.size - 1), normal j ^ 2)) := by
  simp only [Vector.size] at hd hg ⊢
  obtain ⟨t, htl, htg, heq⟩ := random_hyperboloid_point_eq vector normal hg
  have hn : 0 < vector.length := by omega
  have hpos : 0 < ∑ j in Finset.range (vector.length - 1), normal j ^ 2 :=
    lt_of_le_of_ne (Finset.sum_nonneg (fun i _ => sq_nonneg _)) (Ne.symm hg)
  have hbl : ((Vector.zero vector).set (vector.length - 1) 1).length = vector.length := by
    rw [List.length_set, length_zero]
  have hbase : on_hyperboloid ((Vector.zero vector).set (vector.length - 1) 1) := by
    refine ⟨?_, ?_⟩
    · rw [basepoint_dot vector _ hn, basepoint_get vector hn, if_pos rfl]
    · rw [Vector.size, hbl, basepoint_get vector hn, if_pos rfl]
      exact one_pos
  have hbt : minkowski_dot ((Vector.zero vector).set (vector.length - 1) 1) t = 0 := by
    rw [basepoint_dot vector _ hn, htg, if_neg (lt_irrefl _), zero_mul, neg_zero]
  have htt : minkowski_dot t t = 1 := by
    rw [minkowski_dot_sum, htl, htg (vector.length - 1), if_neg (lt_irrefl _)]
    have h1 : ∀ i ∈ Finset.range (vector.length - 1), t.get i * t.get i
        = normal i ^ 2
          * (1 / Real.sqrt (∑ j in Finset.range (vector.length - 1), normal j ^ 2)) ^ 2 := by
      intro i hi
      rw [htg i, if_pos (Finset.mem_range.mp hi)]
      ring
    rw [Finset.sum_congr rfl h1, ← Finset.sum_mul, one_div, inv_pow, Real.sq_sqrt hpos.le]
    field_simp
  obtain ⟨q, hq, hql, hqh, hqg, hqd⟩ := geodesic_update_on_hyperboloid
    ((Vector.zero vector).set (vector.length - 1) 1) t
    (Real.sqrt (∑ j in Finset.range (vector.length - 1), normal j ^ 2))
    (by rw [htl, hbl]) hbase hbt htt
  have hlast : q.get (vector.length - 1)
      = Real.cosh (Real.sqrt (∑ j in Finset.range (vector.length - 1), normal j ^ 2)) := by
    rw [hqg, basepoint_get vector hn, if_pos rfl, htg, if_neg (lt_irrefl _)]
    ring
  refine ⟨q, by rw [heq, hq], by rw [hql, hbl], hqh.1, ?_, ?_, hlast⟩
  · rw [hlast]
    exact Real.cosh_pos _
  · unfold distance
    rw [hqd, neg_neg, acosh_cosh _ (Real.sqrt_nonneg _)]

/-- In dimension 2 with the single drawn value `1`. -/
theorem random_hyperboloid_point_spec_witness :
    ∃ v, random_hyperboloid_point [0, 0] (fun _ => 1) = some v
      ∧ v.size = Vector.size [0, 0]
      ∧ minkowski_dot v v = -1
      ∧ 0 < v.get (Vector.size [0, 0] - 1)
      ∧ distance ((Vector.zero [0, 0]).set (Vector.size [0, 0] - 1) 1) v
          = Real.sqrt (∑ j in Finset.range (Vector.size [0, 0] - 1), (fun _ : ℕ => (1 : ℝ)) j ^ 2)
      ∧ v.get (Vector.size [0, 0] - 1)
          = Real.cosh (Real.sqrt
              (∑ j in Finset.range (Vector.size [0, 0] - 1), (fun _ : ℕ => (1 : ℝ)) j ^ 2)) :=
  random_hyperboloid_point_spec [0, 0] (fun _ => 1) (by decide) (by simp [Vector.size])

/-- C22 fails when every drawn value is `0`, as with `-init-std-dev 0`: in
dimension 2 with the draw `0` the norm of the tangent is `0` and nothing guards
the division `1. / tangent_norm`.  The code multiplies the zero tangent by an
infinity and returns a vector whose coordinates are all NaN, for which the
model returns `none`: no point with `<v,v>_M = -1` is produced, although the
function is documented to sample points on the hyperboloid. -/
theorem random_hyperboloid_point_zero_draws :
    2 ≤ Vector.size [0, 0]
      ∧ random_hyperboloid_point [0, 0] (fun _ => 0) = none
      ∧ ¬ ∃ v, random_hyperboloid_point [0, 0] (fun _ => 0) = some v
          ∧ minkowski_dot v v = -1 := by
  have h : random_hyperboloid_point [0, 0] (fun _ => 0) = none := by
    simp [random_hyperboloid_point, Vector.size, Vector.get, List.range_succ]
  refine ⟨by decide, h, ?_⟩
  rintro ⟨v, hv, _⟩
  rw [h] at hv
  exact absurd hv (by simp)

/-! ### `Model::binary_logistic` -/

/-- C30: on a table whose entries have dimension `d` and lie on the hyperboloid,
`Model::binary_logistic(s, j, label, lr)` returns normally.  With
`score = sigmoid(<s,v_j>_M + 3)` computed from the entry `v_j` of the table on
entry and `delta = label - score`, it adds `delta * v_j` (the value on entry) to
`acc_grad_source_`, replaces entry `j` of the table by the point that `update`
computes from `v_j` and `lr * delta * s` projected onto the tangent space at
`v_j`, leaves every other entry of the table unchanged, and returns
`-log(score + 1e-8)` when `label` is 1 and `-log(1 - score + 1e-8)` otherwise. -/
theorem binary_logistic_spec (d : ℕ) (m : Model) (s : Vector) (j : ℕ) (label : Bool) (lr : ℝ)
    (hm : table_ok d m) (hs : s.size = d) (hj : j < m.vectors_.length) :
    ∃ (v_j : Vector) (m1 : Model) (loss : ℝ) (g point grad : Vector),
      m.vectors_[j]? = some v_j
      ∧ m.binary_logistic s j label lr = some (m1, loss)
      ∧ m1.acc_grad_source_.size = m.acc_grad_source_.size
      ∧ (∀ i, m1.acc_grad_source_.get i = m.acc_grad_source_.get i
          + ((if label then 1 else 0) - m.sigmoid (minkowski_dot s v_j + SHIFT)) * v_j.get i)
      ∧ Vector.project_onto_tangent_space (Vector.multiply s
          (lr * ((if label then 1 else 0) - m.sigmoid (minkowski_dot s v_j + SHIFT)))) v_j = some g
      ∧ m.update v_j g = some (point, grad)
      ∧ m1.vectors_ = m.vectors_.set j point
      ∧ (∀ i, i ≠ j → m1.vectors_[i]? = m.vectors_[i]?)
      ∧ m1.vectors_.length = m.vectors_.length
      ∧ loss = (if label then -Real.log (m.sigmoid (minkowski_dot s v_j + SHIFT) + 1e-8)
          else -Real.log (1 - m.sigmoid (minkowski_dot s v_j + SHIFT) + 1e-8)) := by
  have hv : m.vectors_[j]? = some m.vectors_[j] := List.getElem?_eq_getElem hj
  obtain ⟨hvl, hvon⟩ := hm.1 _ (List.getElem_mem hj)
  set v := m.vectors_[j] with hvdef
  unfold Vector.size at hvl hs
  have hacc : m.acc_grad_source_.length = v.length := by rw [hvl]; exact hm.2
  set delta : ℝ := (if label then 1 else 0) - m.sigmoid (minkowski_dot s v + SHIFT)
    with hdelta
  have hgl : (Vector.multiply s (lr * delta)).length = v.length := by
    rw [length_multiply, hs, hvl]
  obtain ⟨hproj, hdot⟩ := project_eq (Vector.multiply s (lr * delta)) v hgl hvon.1
  have hgl2 : (List.zipWith (fun x y => x + minkowski_dot v (Vector.multiply s (lr * delta)) * y)
      (Vector.multiply s (lr * delta)) v).length = v.length := by
    rw [length_zipWith _ _ _ hgl, hgl]
  obtain ⟨q, t1, hq, _, _, _⟩ := update_preserves m v _ hgl2 hvon hdot
  have heq : m.binary_logistic s j label lr
      = some ({ m with vectors_ := m.vectors_.set j q,
                       acc_grad_source_ :=
                         List.zipWith (fun x y => x + delta * y) m.acc_grad_source_ v,
                       grad_output_ := t1 },
              if label then -Real.log (m.sigmoid (minkowski_dot s v + SHIFT) + 1e-8)
              else -Real.log (1.0 - m.sigmoid (minkowski_dot s v + SHIFT) + 1e-8)) := by
    unfold Model.binary_logistic
    simp only [hv, Option.bind_eq_bind, Option.some_bind, add_of_length _ hacc, ← hdelta, hproj,
      hq, Option.pure_def]
  refine ⟨v, _, _, _, q, t1, hv, heq, ?_, ?_, hproj, hq, rfl, ?_, ?_, ?_⟩
  · show (List.zipWith _ m.acc_grad_source_ v).length = m.acc_grad_source_.length
    rw [length_zipWith _ _ _ hacc]
  · intro i
    show Vector.get (List.zipWith _ m.acc_grad_source_ v) i = _
    rw [get_zipWith _ _ _ hacc]
  · intro i hi
    show (m.vectors_.set j q)[i]? = _
    rw [List.getElem?_set_ne (Ne.symm hi)]
  · show (m.vectors_.set j q).length = _
    rw [List.length_set]
  · rw [show (1.0 : ℝ) = 1 by norm_num]

theorem example_table_ok :
    table_ok 2 (Model.init [[0, 1], [0.75, 1.25]] { Args.default with dimension := 2 }) := by
  refine ⟨?_, by simp [Model.init, Vector.size]⟩
  intro v hv
  have hv2 : v = [0, 1] ∨ v = [0.75, 1.25] := by simpa [Model.init] using hv
  rcases hv2 with h | h
  · subst h
    simp [on_hyperboloid, minkowski_dot, Vector.size, Vector.get, List.range_succ]
  · subst h
    simp [on_hyperboloid, minkowski_dot, Vector.size, Vector.get, List.range_succ]
    norm_num

/-- C30 on the table of dimension 2 that holds the basepoint `(0, 1)` and the
point `(0.75, 1.25)`, with input `(0, 1)`, target `1`, a positive label and
learning rate `0.05`. -/
theorem binary_logistic_spec_witness :
    ∃ (v_j : Vector) (m1 : Model) (loss : ℝ) (g point grad : Vector),
      (Model.init [[0, 1], [0.75, 1.25]] { Args.default with dimension := 2 }).vectors_[1]?
        = some v_j
      ∧ (Model.init [[0, 1], [0.75, 1.25]] { Args.default with dimension := 2 }).binary_logistic
          [0, 1] 1 true 0.05 = some (m1, loss)
      ∧ m1.acc_grad_source_.size
        = (Model.init [[0, 1], [0.75, 1.25]]
            { Args.default with dimension := 2 }).acc_grad_source_.size
      ∧ (∀ i, m1.acc_grad_source_.get i
          = (Model.init [[0, 1], [0.75, 1.25]]
              { Args.default with dimension := 2 }).acc_grad_source_.get i
            + ((if true = true then 1 else 0)
                - (Model.init [[0, 1], [0.75, 1.25]] { Args.default with dimension := 2 }).sigmoid
                    (minkowski_dot [0, 1] v_j + SHIFT)) * v_j.get i)
      ∧ Vector.project_onto_tangent_space (Vector.multiply [0, 1]
          (0.05 * ((if true = true then 1 else 0)
            - (Model.init [[0, 1], [0.75, 1.25]] { Args.default with dimension := 2 }).sigmoid
                (minkowski_dot [0, 1] v_j + SHIFT)))) v_j = some g
      ∧ (Model.init [[0, 1], [0.75, 1.25]] { Args.default with dimension := 2 }).update v_j g
        = some (point, grad)
      ∧ m1.vectors_
        = (Model.init [[0, 1], [0.75, 1.25]]
            { Args.default with dimension := 2 }).vectors_.set 1 point
      ∧ (∀ i, i ≠ 1 → m1.vectors_[i]?
          = (Model.init [[0, 1], [0.75, 1.25]] { Args.default with dimension := 2 }).vectors_[i]?)
      ∧ m1.vectors_.length
        = (Model.init [[0, 1], [0.75, 1.25]] { Args.default with dimension := 2 }).vectors_.length
      ∧ loss = (if true = true then
            -Real.log ((Model.init [[0, 1], [0.75, 1.25]]
              { Args.default with dimension := 2 }).sigmoid (minkowski_dot [0, 1] v_j + SHIFT)
              + 1e-8)
          else -Real.log (1 - (Model.init [[0, 1], [0.75, 1.25]]
              { Args.default with dimension := 2 }).sigmoid (minkowski_dot [0, 1] v_j + SHIFT)
              + 1e-8)) :=
  binary_logistic_spec 2 (Model.init [[0, 1], [0.75, 1.25]] { Args.default with dimension := 2 })
    [0, 1] 1 true 0.05 example_table_ok rfl (by simp [Model.init])

/-! ### The hash table of the dictionary -/

theorem probe_succ (w : String) (j : ℕ) :
    (probe w j + 1) % Dictionary.HASHTABLE_SIZE = probe w (j + 1) := by
  unfold probe
  rw [Nat.mod_add_mod, add_assoc]

theorem entry_at_some {ws : List entry} {k : ℤ} {e : entry} (h : entry_at ws k = some e) :
    0 ≤ k ∧ ws[k.toNat]? = some e := by
  unfold entry_at at h
  split at h
  · exact absurd h (by simp)
  · exact ⟨by omega, h⟩

theorem find_loop_spec (d : Dictionary) (w : String) :
    ∀ (fuel j0 h : ℕ), d.find_loop w fuel (probe w j0) = some h →
      ∃ j, j0 ≤ j ∧ h = probe w j
        ∧ (∀ i, j0 ≤ i → i < j → d.word2int_ (probe w i) ≠ -1
            ∧ ∀ e, entry_at d.words_ (d.word2int_ (probe w i)) = some e → e.word ≠ w)
        ∧ (d.word2int_ h = -1
            ∨ ∃ e, entry_at d.words_ (d.word2int_ h) = some e ∧ e.word = w) := by
  intro fuel
  induction fuel with
  | zero =>
    intro j0 h hf
    simp [Dictionary.find_loop] at hf
  | succ fuel ih =>
    intro j0 h hf
    unfold Dictionary.find_loop at hf
    by_cases h1 : d.word2int_ (probe w j0) = -1
    · rw [if_pos h1] at hf
      have hh : h = probe w j0 := by simpa using hf.symm
      exact ⟨j0, le_refl _, hh, fun i h2 h3 => absurd h3 (by omega), Or.inl (hh ▸ h1)⟩
    · rw [if_neg h1] at hf
      cases he : entry_at d.words_ (d.word2int_ (probe w j0)) with
      | none => simp [he] at hf
      | some e =>
        simp only [he] at hf
        by_cases h2 : e.word = w
        · rw [if_neg (by simpa using h2)] at hf
          have hh : h = probe w j0 := by simpa using hf.symm
          exact ⟨j0, le_refl _, hh, fun i h2 h3 => absurd h3 (by omega),
            Or.inr ⟨e, hh ▸ he, h2⟩⟩
        · rw [if_pos (by simpa using h2), probe_succ] at hf
          obtain ⟨j, hj, hh, hbef, hat⟩ := ih (j0 + 1) h hf
          refine ⟨j, by omega, hh, fun i hi1 hi2 => ?_, hat⟩
          rcases Nat.eq_or_lt_of_le hi1 with heq | hlt
          · subst heq
            refine ⟨h1, fun e1 he1 => ?_⟩
            rw [he] at he1
            cases he1
            exact h2
          · exact hbef i hlt hi2

theorem find_eq (d : Dictionary) (w : String) (fuel : ℕ) :
    d.find w fuel = d.find_loop w fuel (probe w 0) := by
  unfold Dictionary.find probe
  rw [Nat.add_zero, Nat.mod_mod]

theorem find_hit (d : Dictionary) (n k : ℕ) (e : entry) (fuel h : ℕ)
    (hT : table_inv d.word2int_ (d.words_.map entry.word) n) (hk : k < n)
    (he : d.words_[k]? = some e) (hf : d.find e.word fuel = some h) :
    d.word2int_ h = k := by
  obtain ⟨_, hslot, hprobe, hdist, _⟩ := hT
  obtain ⟨j, _, hh, hbef, hat⟩ := find_loop_spec d e.word fuel 0 h (find_eq d _ fuel ▸ hf)
  have hname : (d.words_.map entry.word)[k]? = some e.word := by
    rw [List.getElem?_map, he]; rfl
  obtain ⟨jk, hjk, hjk2⟩ := hprobe k e.word hk hname
  rcases hat with hat | ⟨e1, he1, hw1⟩
  · exfalso
    rcases lt_trichotomy j jk with hlt | heq | hgt
    · exact hjk2 j hlt (hh ▸ hat)
    · rw [hh, heq, hjk] at hat
      omega
    · have := (hbef jk (Nat.zero_le _) hgt).2
      rw [hjk] at this
      exact this e (by simp [entry_at, he]) rfl
  · obtain ⟨h0, he1'⟩ := entry_at_some he1
    rcases hslot h with hs | ⟨_, hs⟩
    · omega
    · have hlt : (d.word2int_ h).toNat < n := by omega
      have hname1 : (d.words_.map entry.word)[(d.word2int_ h).toNat]? = some e.word := by
        rw [List.getElem?_map, he1', ← hw1]; rfl
      have := hdist _ _ _ hlt hk hname1 hname
      omega

theorem find_miss (d : Dictionary) (n : ℕ) (w : String) (fuel h : ℕ)
    (hT : table_inv d.word2int_ (d.words_.map entry.word) n)
    (hw : ∀ k e, k < n → d.words_[k]? = some e → e.word ≠ w)
    (hf : d.find w fuel = some h) :
    d.word2int_ h = -1
      ∧ ∃ j, h = probe w j ∧ ∀ i, i < j → d.word2int_ (probe w i) ≠ -1 := by
  obtain ⟨_, hslot, _, _, _⟩ := hT
  obtain ⟨j, _, hh, hbef, hat⟩ := find_loop_spec d w fuel 0 h (find_eq d _ fuel ▸ hf)
  refine ⟨?_, j, hh, fun i hi => (hbef i (Nat.zero_le _) hi).1⟩
  rcases hat with hat | ⟨e1, he1, hw1⟩
  · exact hat
  · exfalso
    obtain ⟨h0, he1'⟩ := entry_at_some he1
    rcases hslot h with hs | ⟨_, hs⟩
    · omega
    · exact hw _ e1 (by omega) he1' hw1

theorem table_insert (T : ℕ → ℤ) (names names1 : List String) (n h j : ℕ) (w : String)
    (hT : table_inv T names n) (hn : names1[n]? = some w)
    (hsame : ∀ k, k < n → names1[k]? = names[k]?)
    (hnew : ∀ k, k < n → names[k]? ≠ some w)
    (hfree : T h = -1) (hh : h = probe w j) (hbef : ∀ i, i < j → T (probe w i) ≠ -1) :
    table_inv (Function.update T h (n : ℤ)) names1 (n + 1) := by
  obtain ⟨hlen, hslot, hprobe, hdist, hinj⟩ := hT
  have hupd : ∀ s, T s ≠ -1 → Function.update T h (n : ℤ) s = T s := by
    intro s hs
    rw [Function.update_noteq]
    intro hsh
    exact hs (hsh ▸ hfree)
  have hne : ∀ s, T s ≠ -1 → Function.update T h (n : ℤ) s ≠ -1 := by
    intro s hs
    rw [hupd s hs]; exact hs
  refine ⟨?_, ?_, ?_, ?_, ?_⟩
  · have := (List.getElem?_eq_some.mp hn).1
    omega
  · intro s
    by_cases hs : s = h
    · subst hs
      rw [Function.update_same]
      right; omega
    · rw [Function.update_noteq hs]
      rcases hslot s with h1 | ⟨h1, h2⟩
      · exact Or.inl h1
      · right; omega
  · intro k w1 hk hw1
    rcases Nat.lt_succ_iff_lt_or_eq.mp hk with hk1 | hk1
    · rw [hsame k hk1] at hw1
      obtain ⟨j1, hj1, hj2⟩ := hprobe k w1 hk1 hw1
      refine ⟨j1, ?_, fun i hi => hne _ (hj2 i hi)⟩
      rw [hupd _ (by rw [hj1]; omega), hj1]
    · subst hk1
      rw [hn] at hw1
      cases hw1
      refine ⟨j, ?_, fun i hi => hne _ (hbef i hi)⟩
      rw [← hh, Function.update_same]
  · intro i1 i2 w1 hi1 hi2 h1 h2
    rcases Nat.lt_succ_iff_lt_or_eq.mp hi1 with hi1 | hi1
    · rcases Nat.lt_succ_iff_lt_or_eq.mp hi2 with hi2 | hi2
      · rw [hsame _ hi1] at h1
        rw [hsame _ hi2] at h2
        exact hdist _ _ _ hi1 hi2 h1 h2
      · subst hi2
        rw [hn] at h2
        cases h2
        rw [hsame _ hi1] at h1
        exact absurd h1 (hnew _ hi1)
    · rcases Nat.lt_succ_iff_lt_or_eq.mp hi2 with hi2 | hi2
      · subst hi1
        rw [hn] at h1
        cases h1
        rw [hsame _ hi2] at h2
        exact absurd h2 (hnew _ hi2)
      · omega
  · intro s s1 heq hs
    by_cases h1 : s = h
    · by_cases h2 : s1 = h
      · rw [h1, h2]
      · exfalso
        rw [h1, Function.update_same, Function.update_noteq h2] at heq
        rcases hslot s1 with h3 | ⟨_, h3⟩ <;> omega
    · by_cases h2 : s1 = h
      · exfalso
        rw [h2, Function.update_same, Function.update_noteq h1] at heq
        rcases hslot s with h3 | ⟨_, h3⟩ <;> omega
      · rw [Function.update_noteq h1, Function.update_noteq h2] at heq
        rw [Function.update_noteq h1] at hs
        exact hinj s s1 heq hs

theorem map_word_set (ws : List entry) (k : ℕ) (e e1 : entry) (hk : ws[k]? = some e)
    (hw : e1.word = e.word) : (ws.set k e1).map entry.word = ws.map entry.word := by
  apply List.ext_getElem?
  intro i
  rw [List.getElem?_map, List.getElem?_map]
  by_cases h : k = i
  · subst h
    have hlt : k < ws.length := (List.getElem?_eq_some.mp hk).1
    rw [List.getElem?_set_self hlt, hk]
    simp [hw]
  · rw [List.getElem?_set_ne h]

theorem record_occurrence_inv (d d1 : Dictionary) (tokens : List String) (w : String)
    (fuel : ℕ) (hinv : count_inv d tokens) (hr : d.record_occurrence w fuel = some d1) :
    count_inv d1 (tokens ++ [w]) ∧ d1.args_ = d.args_ ∧ d1.nwords_ = d.nwords_
      ∧ d1.retention_probas = d.retention_probas := by
  obtain ⟨hsize, hntok, hT, hcount, hcover, hle⟩ := hinv
  unfold Dictionary.record_occurrence at hr
  cases hf : d.find w fuel with
  | none => simp [hf] at hr
  | some h =>
    simp only [hf, Option.bind_eq_bind, Option.some_bind] at hr
    have hnames_len : (d.words_.map entry.word).length = d.words_.length := List.length_map _ _
    by_cases hfree : d.word2int_ h = -1
    · rw [if_pos hfree] at hr
      have hd1 : d1 = { d with ntokens_ := d.ntokens_ + 1,
                               words_ := d.words_ ++ [{ word := w, count := 1 }],
                               word2int_ := Function.update d.word2int_ h d.size_,
                               size_ := d.size_ + 1 } := by
        simpa using hr.symm
      have hw : ∀ k e, k < d.words_.length → d.words_[k]? = some e → e.word ≠ w := by
        intro k e hk he hew
        have := find_hit d _ k e fuel h hT hk he (hew ▸ hf)
        omega
      obtain ⟨_, j, hh, hbef⟩ := find_miss d _ w fuel h hT hw hf
      have hwmem : ∀ e ∈ d.words_, e.word ≠ w := by
        intro e he
        obtain ⟨k, hk⟩ := List.mem_iff_getElem?.mp he
        exact hw k e (List.getElem?_eq_some.mp hk).1 hk
      have hwtok : w ∉ tokens := by
        intro hmem
        obtain ⟨e, he, hew⟩ := hcover w hmem
        exact hwmem e he hew
      subst hd1
      refine ⟨⟨?_, ?_, ?_, ?_, ?_, by simpa using hle⟩, rfl, rfl, rfl⟩
      · simp only [List.length_append, List.length_singleton]
        rw [hsize]; push_cast; ring
      · simp only [List.length_append, List.length_singleton]
        rw [hntok]; push_cast; ring
      · simp only [List.map_append, List.map_cons, List.map_nil, List.length_append,
          List.length_singleton]
        rw [hsize]
        refine table_insert d.word2int_ (d.words_.map entry.word) _ d.words_.length h j w hT
          ?_ ?_ ?_ hfree hh hbef
        · rw [List.getElem?_append_right (by rw [hnames_len]), hnames_len, Nat.sub_self]
          rfl
        · intro k hk
          rw [List.getElem?_append_left (by rw [hnames_len]; exact hk)]
        · intro k hk hkw
          rw [List.getElem?_map] at hkw
          cases hek : d.words_[k]? with
          | none => simp [hek] at hkw
          | some e =>
            rw [hek] at hkw
            exact hw k e hk hek (by simpa using hkw)
      · intro e he
        rcases List.mem_append.mp he with he | he
        · obtain ⟨h1, h2⟩ := hcount e he
          refine ⟨List.mem_append_left _ h1, ?_⟩
          rw [List.count_append, List.count_singleton, h2]
          have : (w == e.word) = false := by
            simpa using fun hh => hwmem e he hh.symm
          simp [this]
        · have : e = { word := w, count := 1 } := by simpa using he
          subst this
          refine ⟨by simp, ?_⟩
          show (1 : ℤ) = _
          rw [List.count_append, List.count_singleton, List.count_eq_zero.mpr hwtok]
          simp
      · intro w1 hw1
        rcases List.mem_append.mp hw1 with hw1 | hw1
        · obtain ⟨e, he, hew⟩ := hcover w1 hw1
          exact ⟨e, List.mem_append_left _ he, hew⟩
        · have : w1 = w := by simpa using hw1
          subst this
          exact ⟨_, List.mem_append_right _ (List.mem_singleton_self _), rfl⟩
    · rw [if_neg hfree] at hr
      cases hea : entry_at d.words_ (d.word2int_ h) with
      | none => simp [hea] at hr
      | some e =>
        simp only [hea, Option.some_bind] at hr
        have hd1 : d1 = { d with
            ntokens_ := d.ntokens_ + 1,
            words_ := d.words_.set (d.word2int_ h).toNat (entry.mk e.word (e.count + 1)) } := by
          simpa using hr.symm
        obtain ⟨_, hek⟩ := entry_at_some hea
        have hklt : (d.word2int_ h).toNat < d.words_.length := (List.getElem?_eq_some.mp hek).1
        have hew : e.word = w := by
          obtain ⟨j, _, hh, _, hat⟩ := find_loop_spec d w fuel 0 h (find_eq d _ fuel ▸ hf)
          rcases hat with hat | ⟨e1, he1, hw1⟩
          · exact absurd hat hfree
          · rw [hea] at he1
            cases he1
            exact hw1
        have hemem : e ∈ d.words_ := List.mem_iff_getElem?.mpr ⟨_, hek⟩
        have hother : ∀ i e2, i ≠ (d.word2int_ h).toNat → d.words_[i]? = some e2 →
            e2.word ≠ w := by
          intro i e2 hi he2 h2w
          have hilt : i < d.words_.length := (List.getElem?_eq_some.mp he2).1
          apply hi
          refine hT.2.2.2.1 i _ w hilt hklt ?_ ?_
          · rw [List.getElem?_map, he2, ← h2w]; rfl
          · rw [List.getElem?_map, hek, ← hew]; rfl
        subst hd1
        refine ⟨⟨?_, ?_, ?_, ?_, ?_, by simp only [List.length_set]; simp; omega⟩, rfl, rfl, rfl⟩
        · simp only [List.length_set]
          exact hsize
        · simp only [List.length_append, List.length_singleton]
          rw [hntok]; push_cast; ring
        · simp only [List.length_set]
          rw [map_word_set _ _ e (entry.mk e.word (e.count + 1)) hek rfl]
          exact hT
        · intro e2 he2
          obtain ⟨i, hi⟩ := List.mem_iff_getElem?.mp he2
          by_cases hik : (d.word2int_ h).toNat = i
          · subst hik
            rw [List.getElem?_set_self hklt] at hi
            cases hi
            obtain ⟨h1, h2⟩ := hcount e hemem
            refine ⟨List.mem_append_left _ h1, ?_⟩
            show e.count + 1 = _
            rw [List.count_append, List.count_singleton, h2, hew]
            simp
          · rw [List.getElem?_set_ne hik] at hi
            have he2mem : e2 ∈ d.words_ := List.mem_iff_getElem?.mpr ⟨_, hi⟩
            obtain ⟨h1, h2⟩ := hcount e2 he2mem
            refine ⟨List.mem_append_left _ h1, ?_⟩
            rw [List.count_append, List.count_singleton, h2]
            have : (w == e2.word) = false := by
              simpa using fun hh => hother i e2 (Ne.symm hik) hi hh.symm
            simp [this]
        · intro w1 hw1
          have hset : ∀ w2, (∃ e2 ∈ d.words_, e2.word = w2) →
              ∃ e2 ∈ d.words_.set (d.word2int_ h).toNat (entry.mk e.word (e.count + 1)),
                e2.word = w2 := by
            rintro w2 ⟨e2, he2, h2w⟩
            obtain ⟨i, hi⟩ := List.mem_iff_getElem?.mp he2
            by_cases hik : (d.word2int_ h).toNat = i
            · subst hik
              rw [hek] at hi
              cases hi
              exact ⟨_, List.mem_iff_getElem?.mpr ⟨_, List.getElem?_set_self hklt⟩, h2w⟩
            · exact ⟨e2, List.mem_iff_getElem?.mpr ⟨i, by rw [List.getElem?_set_ne hik]; exact hi⟩,
                h2w⟩
          rcases List.mem_append.mp hw1 with hw1 | hw1
          · exact hset w1 (hcover w1 hw1)
          · have : w1 = w := by simpa using hw1
            subst this
            exact hset w1 ⟨e, hemem, hew⟩

/-! ### The tokens of a stream -/

theorem read_word_loop_length (eof : Bool) : ∀ (r : List Char) (w : String),
    (read_word_loop eof r w).2.2.1.length ≤ r.length
      ∧ ((read_word_loop eof r w).1 = true → w = "" →
          (read_word_loop eof r w).2.2.1.length < r.length) := by
  have hE : "".isEmpty = true := by decide
  intro r
  induction r with
  | nil =>
    intro w
    refine ⟨by simp [read_word_loop], fun h hw => ?_⟩
    subst hw
    simp [read_word_loop, hE] at h
  | cons c rest ih =>
    intro w
    unfold read_word_loop
    by_cases h255 : c = Char.ofNat 255
    · simp only [if_pos h255]
      by_cases he : eof = true
      · simp only [if_pos he]
        refine ⟨by simp, fun h hw => ?_⟩
        subst hw
        simp [hE] at h
      · simp only [if_neg he]
        cases rest with
        | nil =>
          refine ⟨by simp, fun h hw => ?_⟩
          subst hw
          simp [hE] at h
        | cons c1 rest1 =>
          refine ⟨by simp; omega, fun h hw => ?_⟩
          subst hw
          simp [hE] at h
    · simp only [if_neg h255]
      split
      · by_cases hw : w.isEmpty = true
        · simp only [if_pos hw]
          by_cases hn : c = '\n'
          · simp only [if_pos hn]
            exact ⟨by simp, fun _ _ => by simp⟩
          · simp only [if_neg hn]
            obtain ⟨h1, h2⟩ := ih w
            exact ⟨by simp; omega, fun h hw => by simp; have := h2 h hw; omega⟩
        · simp only [if_neg hw]
          refine ⟨by split <;> simp, fun _ hw1 => ?_⟩
          subst hw1
          exact absurd rfl hw
      · obtain ⟨h1, _⟩ := ih (w.push c)
        exact ⟨by simp; omega, fun _ _ => by simp; omega⟩

theorem read_word_progress (stream : istream) (w : String) (stream1 : istream)
    (h : Dictionary.read_word stream = (true, w, stream1)) :
    stream1.rest.length < stream.rest.length ∧ stream1.content = stream.content := by
  unfold Dictionary.read_word at h
  simp only [Prod.mk.injEq] at h
  obtain ⟨h1, _, h3⟩ := h
  subst h3
  exact ⟨(read_word_loop_length stream.eofbit stream.rest "").2 h1 rfl, rfl⟩

theorem read_words_mono : ∀ (fuel : ℕ) (stream : istream) (l : List String),
    read_words fuel stream = some l → ∀ fuel1, fuel ≤ fuel1 → read_words fuel1 stream = some l := by
  intro fuel
  induction fuel with
  | zero => intro stream l h; simp [read_words] at h
  | succ fuel ih =>
    intro stream l h fuel1 hle
    obtain ⟨fuel2, rfl⟩ : ∃ fuel2, fuel1 = fuel2 + 1 := ⟨fuel1 - 1, by omega⟩
    unfold read_words at h ⊢
    rcases hrw : Dictionary.read_word stream with ⟨ok, w, s1⟩
    rw [hrw] at h
    cases ok with
    | false => simpa using h
    | true =>
      simp only at h ⊢
      cases hr : read_words fuel s1 with
      | none => simp [hr] at h
      | some l1 =>
        rw [ih s1 l1 hr fuel2 (by omega)]
        rw [hr] at h
        exact h

theorem read_words_total : ∀ (fuel : ℕ) (stream : istream), stream.rest.length < fuel →
    ∃ l, read_words fuel stream = some l := by
  intro fuel
  induction fuel with
  | zero => intro stream h; omega
  | succ fuel ih =>
    intro stream h
    unfold read_words
    rcases hrw : Dictionary.read_word stream with ⟨ok, w, s1⟩
    cases ok with
    | false => exact ⟨[], rfl⟩
    | true =>
      obtain ⟨hlt, _⟩ := read_word_progress stream w s1 hrw
      obtain ⟨l, hl⟩ := ih s1 (by omega)
      exact ⟨w :: l, by simp [hl]⟩

theorem all_words_eq (fuel : ℕ) (stream : istream) (l : List String)
    (h : read_words fuel stream = some l) : all_words stream = l := by
  obtain ⟨l1, hl1⟩ := read_words_total (stream.rest.length + 1) stream (Nat.lt_succ_self _)
  have h1 := read_words_mono _ _ _ h (max fuel (stream.rest.length + 1)) (le_max_left _ _)
  have h2 := read_words_mono _ _ _ hl1 (max fuel (stream.rest.length + 1)) (le_max_right _ _)
  rw [h1] at h2
  unfold all_words
  rw [hl1]
  simpa using h2.symm

/-! ### `Dictionary::determine_vocabulary` -/

theorem count_loop_inv (f0 : ℕ) : ∀ (fuel : ℕ) (d : Dictionary) (stream : istream)
    (tokens : List String) (d1 : Dictionary) (s1 : istream),
    count_inv d tokens → Dictionary.count_loop f0 fuel d stream = some (d1, s1) →
    ∃ rest, read_words fuel stream = some rest ∧ count_inv d1 (tokens ++ rest)
      ∧ d1.args_ = d.args_ ∧ d1.nwords_ = d.nwords_
      ∧ d1.retention_probas = d.retention_probas := by
  intro fuel
  induction fuel with
  | zero => intro d stream tokens d1 s1 _ h; simp [Dictionary.count_loop] at h
  | succ fuel ih =>
    intro d stream tokens d1 s1 hinv h
    unfold Dictionary.count_loop at h
    unfold read_words
    rcases hrw : Dictionary.read_word stream with ⟨ok, w, s2⟩
    rw [hrw] at h
    cases ok with
    | false =>
      simp only [Option.some.injEq, Prod.mk.injEq] at h
      obtain ⟨rfl, _⟩ := h
      exact ⟨[], rfl, by simpa using hinv, rfl, rfl, rfl⟩
    | true =>
      simp only [Option.bind_eq_bind] at h
      cases hrec : d.record_occurrence w f0 with
      | none => simp [hrec] at h
      | some d2 =>
        simp only [hrec, Option.some_bind] at h
        obtain ⟨hinv2, ha, hn, hp⟩ := record_occurrence_inv d d2 tokens w f0 hinv hrec
        by_cases hbig : d2.size_ > 75000000
        · simp [hbig] at h
        · rw [if_neg hbig] at h
          obtain ⟨rest, hrest, hinv3, ha3, hn3, hp3⟩ := ih d2 s2 (tokens ++ [w]) d1 s1 hinv2 h
          refine ⟨w :: rest, by simp [hrest], ?_, ha3.trans ha, hn3.trans hn, hp3.trans hp⟩
          simpa using hinv3

theorem nodup_of_table_inv (T : ℕ → ℤ) (names : List String)
    (hT : table_inv T names names.length) : names.Nodup := by
  rw [List.nodup_iff_getElem?_ne_getElem?]
  intro i j hij hj heq
  have hi : i < names.length := by omega
  have h1 : names[i]? = some names[i] := List.getElem?_eq_getElem hi
  have h2 : names[j]? = some names[i] := by rw [← heq, h1]
  have := hT.2.2.2.1 i j _ hi hj h1 h2
  omega

theorem threshold_loop_inv (fuel : ℕ) : ∀ (rem pre : List entry) (d d1 : Dictionary),
    d.words_ = pre ++ rem → d.size_ = pre.length → d.nwords_ = pre.length →
    table_inv d.word2int_ (d.words_.map entry.word) pre.length →
    (d.words_.map entry.word).Nodup →
    Dictionary.threshold_loop fuel rem d = some d1 →
    d1.words_ = d.words_ ∧ d1.size_ = d.words_.length ∧ d1.nwords_ = d.words_.length
      ∧ table_inv d1.word2int_ (d.words_.map entry.word) d.words_.length
      ∧ d1.args_ = d.args_ ∧ d1.ntokens_ = d.ntokens_
      ∧ d1.retention_probas = d.retention_probas := by
  intro rem
  induction rem with
  | nil =>
    intro pre d d1 hw hs hn hT _ h
    simp only [Dictionary.threshold_loop, Option.some.injEq] at h
    subst h
    have hlen : d.words_.length = pre.length := by rw [hw]; simp
    rw [hlen]
    exact ⟨rfl, hs, hn, hT, rfl, rfl, rfl⟩
  | cons e rest ih =>
    intro pre d d1 hw hs hn hT hnd h
    unfold Dictionary.threshold_loop at h
    cases hf : d.find e.word fuel with
    | none => simp [hf] at h
    | some slot =>
      simp only [hf, Option.bind_eq_bind, Option.some_bind] at h
      have hat : d.words_[pre.length]? = some e := by
        rw [hw, List.getElem?_append_right (le_refl _), Nat.sub_self]
        simp
      have hname : (d.words_.map entry.word)[pre.length]? = some e.word := by
        rw [List.getElem?_map, hat]; rfl
      have hlt : pre.length < (d.words_.map entry.word).length :=
        (List.getElem?_eq_some.mp hname).1
      have hnew : ∀ k, k < pre.length → (d.words_.map entry.word)[k]? ≠ some e.word := by
        intro k hk heq
        exact (List.nodup_iff_getElem?_ne_getElem?.mp hnd) k pre.length hk hlt
          (heq.trans hname.symm)
      have hw1 : ∀ k e1, k < pre.length → d.words_[k]? = some e1 → e1.word ≠ e.word := by
        intro k e1 hk he1 heq
        apply hnew k hk
        rw [List.getElem?_map, he1, ← heq]; rfl
      obtain ⟨hfree, j, hh, hbef⟩ := find_miss d _ e.word fuel slot hT hw1 hf
      have hT1 := table_insert d.word2int_ (d.words_.map entry.word) (d.words_.map entry.word)
        pre.length slot j e.word hT hname (fun _ _ => rfl) hnew hfree hh hbef
      have := ih (pre ++ [e])
        { d with word2int_ := Function.update d.word2int_ slot d.size_,
                 size_ := d.size_ + 1, nwords_ := d.nwords_ + 1 } d1
        (by simp [hw]) (by simp [hs]) (by simp [hn])
        (by
          simp only [List.length_append, List.length_singleton]
          rw [hs]
          exact hT1)
        hnd h
      exact this

theorem threshold_spec (sort : List entry → List entry) (d d1 : Dictionary) (t : ℤ) (fuel : ℕ)
    (hsort : sort_contract sort) (hnd : (d.words_.map entry.word).Nodup)
    (h : d.threshold sort t fuel = some d1) :
    d1.words_ = (sort d.words_).filter (fun e => ¬ (e.count < t))
      ∧ d1.size_ = d1.words_.length ∧ d1.nwords_ = d1.words_.length
      ∧ table_inv d1.word2int_ (d1.words_.map entry.word) d1.words_.length
      ∧ d1.args_ = d.args_ ∧ d1.ntokens_ = d.ntokens_ := by
  unfold Dictionary.threshold at h
  have hnd1 : (((sort d.words_).filter (fun e => ¬ (e.count < t))).map entry.word).Nodup := by
    have h1 : ((sort d.words_).map entry.word).Nodup :=
      ((hsort d.words_).1.map entry.word).nodup_iff.mpr hnd
    exact h1.sublist ((List.filter_sublist _).map _)
  obtain ⟨h1, h2, h3, h4, h5, h6, _⟩ := threshold_loop_inv fuel _ [] _ d1 (by simp) (by simp)
    (by simp)
    (by
      refine ⟨Nat.zero_le _, fun s => Or.inl rfl, fun k w hk => absurd hk (by simp),
        fun i j w hi => absurd hi (by simp), fun s s1 _ hs => absurd rfl hs⟩)
    hnd1 h
  simp only at h1 h2 h3 h4 h5 h6
  rw [h1]
  exact ⟨rfl, h2, h3, h4, h5, h6⟩

theorem count_inv_init (args : Args) : count_inv (Dictionary.init args) [] := by
  refine ⟨rfl, rfl, ?_, fun e he => absurd he (by simp [Dictionary.init]),
    fun w hw => absurd hw (by simp), by simp [Dictionary.init]⟩
  exact ⟨Nat.zero_le _, fun s => Or.inl rfl, fun k w hk => absurd hk (by simp [Dictionary.init]),
    fun i j w hi => absurd hi (by simp [Dictionary.init]), fun s s1 _ hs => absurd rfl hs⟩

theorem determine_vocabulary_inv (sort : List entry → List entry) (args : Args)
    (stream : istream) (fuel : ℕ) (d : Dictionary) (s : istream)
    (hsort : sort_contract sort)
    (h : Dictionary.determine_vocabulary sort (Dictionary.init args) stream fuel = some (d, s)) :
    d.args_ = args
      ∧ d.ntokens_ = (all_words stream).length
      ∧ d.size_ = d.words_.length ∧ d.nwords_ = d.words_.length
      ∧ d.words_ ≠ []
      ∧ table_inv d.word2int_ (d.words_.map entry.word) d.words_.length
      ∧ (∀ e, e ∈ d.words_ ↔ (e.word ∈ all_words stream
            ∧ e.count = (all_words stream).count e.word ∧ args.min_count ≤ e.count))
      ∧ d.words_.Pairwise (fun a b => b.count ≤ a.count)
      ∧ d.words_.length ≤ (all_words stream).length
      ∧ d.retention_probas = (List.range d.words_.length).map (fun i =>
          if args.t > 0 then
            (if Real.sqrt (args.t / ((((d.words_[i]?).map entry.count).getD 0 : ℤ)
                  / ((all_words stream).length : ℝ)))
                + args.t / ((((d.words_[i]?).map entry.count).getD 0 : ℤ)
                  / ((all_words stream).length : ℝ)) > 1 then 1
             else Real.sqrt (args.t / ((((d.words_[i]?).map entry.count).getD 0 : ℤ)
                  / ((all_words stream).length : ℝ)))
                + args.t / ((((d.words_[i]?).map entry.count).getD 0 : ℤ)
                  / ((all_words stream).length : ℝ)))
          else 1) := by
  unfold Dictionary.determine_vocabulary at h
  cases hc : Dictionary.count_loop fuel fuel (Dictionary.init args) stream with
  | none => simp [hc] at h
  | some r =>
    obtain ⟨d1, s1⟩ := r
    simp only [hc, Option.bind_eq_bind, Option.some_bind] at h
    obtain ⟨rest, hrest, hinv, hargs, _, _⟩ :=
      count_loop_inv fuel fuel _ stream [] d1 s1 (count_inv_init args) hc
    rw [List.nil_append, ← all_words_eq fuel stream rest hrest] at hinv
    obtain ⟨hsize, hntok, hT, hcount, hcover, hle⟩ := hinv
    cases ht : d1.threshold sort d1.args_.min_count fuel with
    | none => simp [ht] at h
    | some d2 =>
      simp only [ht, Option.some_bind] at h
      have hnd : (d1.words_.map entry.word).Nodup := by
        have := nodup_of_table_inv d1.word2int_ (d1.words_.map entry.word)
          (by rw [List.length_map]; exact hT)
        exact this
      obtain ⟨hw2, hs2, hn2, hT2, ha2, hnt2⟩ :=
        threshold_spec sort d1 d2 _ fuel hsort hnd ht
      have hargs1 : d1.args_ = args := hargs
      by_cases hz : (d2.calculate_retention_probas).size_ = 0
      · simp [hz] at h
      · rw [if_neg hz] at h
        simp only [Option.pure_def, Option.some.injEq, Prod.mk.injEq] at h
        obtain ⟨hd, _⟩ := h
        subst hd
        have hz2 : d2.size_ ≠ 0 := hz
        refine ⟨ha2.trans hargs1, hnt2.trans hntok, hs2, hn2, ?_, hT2, ?_, ?_, ?_, ?_⟩
        · intro hnil
          have hnil1 : d2.words_ = [] := hnil
          apply hz2
          rw [hs2, hnil1]
          rfl
        · intro e
          show e ∈ d2.words_ ↔ _
          rw [hw2, List.mem_filter, (hsort d1.words_).1.mem_iff, hargs1]
          constructor
          · rintro ⟨hmem, hge⟩
            obtain ⟨h1, h2⟩ := hcount e hmem
            exact ⟨h1, h2, by simpa using hge⟩
          · rintro ⟨hmem, hc1, hge⟩
            obtain ⟨e1, he1, hw1⟩ := hcover _ hmem
            have hc2 := (hcount e1 he1).2
            have : e1 = e := by
              cases e1; cases e
              simp only at hw1 hc2 hc1
              subst hw1
              simp [hc1, hc2]
            exact ⟨this ▸ he1, by simpa using hge⟩
        · show d2.words_.Pairwise _
          rw [hw2]
          apply List.Pairwise.filter
          exact (hsort d1.words_).2.imp (fun hab => by simpa using hab)
        · show d2.words_.length ≤ _
          rw [hw2]
          have h1 := (List.filter_sublist (p := fun e : entry => ¬ (e.count < d1.args_.min_count))
            (sort d1.words_)).length_le
          have h2 := (hsort d1.words_).1.length_eq
          omega
        · show (d2.calculate_retention_probas).retention_probas = _
          unfold Dictionary.calculate_retention_probas
          simp only
          rw [hs2, Int.toNat_ofNat, ha2, hargs1, hnt2, hntok]
          apply List.map_congr_left
          intro i _
          rw [show (1.0 : ℝ) = 1 by norm_num]
          simp

/-! ### Termination of `find` and of `determine_vocabulary` -/

theorem probe_inj (w : String) (i j : ℕ) (hi : i < Dictionary.HASHTABLE_SIZE)
    (hj : j < Dictionary.HASHTABLE_SIZE) (h : probe w i = probe w j) : i = j := by
  unfold probe at h
  have h1 : i ≡ j [MOD Dictionary.HASHTABLE_SIZE] := Nat.ModEq.add_left_cancel' _ h
  exact Nat.ModEq.eq_of_lt_of_lt h1 hi hj

theorem entry_at_of_slot (d : Dictionary) (n : ℕ)
    (hT : table_inv d.word2int_ (d.words_.map entry.word) n) (s : ℕ)
    (hs : d.word2int_ s ≠ -1) : ∃ e, entry_at d.words_ (d.word2int_ s) = some e := by
  obtain ⟨hlen, hslot, _⟩ := hT
  rw [List.length_map] at hlen
  rcases hslot s with h | ⟨h1, h2⟩
  · exact absurd h hs
  · have hlt : (d.word2int_ s).toNat < d.words_.length := by omega
    exact ⟨d.words_[(d.word2int_ s).toNat], by
      unfold entry_at
      rw [if_neg (by omega), List.getElem?_eq_getElem hlt]⟩

theorem find_loop_none (d : Dictionary) (w : String) (n : ℕ)
    (hT : table_inv d.word2int_ (d.words_.map entry.word) n) :
    ∀ (fuel j0 : ℕ), d.find_loop w fuel (probe w j0) = none →
      ∀ i, j0 ≤ i → i < j0 + fuel → d.word2int_ (probe w i) ≠ -1 := by
  intro fuel
  induction fuel with
  | zero => intro j0 _ i h1 h2; omega
  | succ fuel ih =>
    intro j0 hf i h1 h2
    unfold Dictionary.find_loop at hf
    by_cases hfree : d.word2int_ (probe w j0) = -1
    · simp [hfree] at hf
    · rw [if_neg hfree] at hf
      obtain ⟨e, he⟩ := entry_at_of_slot d n hT _ hfree
      simp only [he] at hf
      by_cases hw : e.word = w
      · simp [hw] at hf
      · rw [if_pos (by simpa using hw), probe_succ] at hf
        rcases Nat.eq_or_lt_of_le h1 with heq | hlt
        · exact heq ▸ hfree
        · exact ih (j0 + 1) hf i hlt (by omega)

theorem find_total (d : Dictionary) (w : String) (n fuel : ℕ)
    (hT : table_inv d.word2int_ (d.words_.map entry.word) n)
    (hn : n < Dictionary.HASHTABLE_SIZE) (hfuel : Dictionary.HASHTABLE_SIZE ≤ fuel) :
    ∃ h, d.find w fuel = some h := by
  cases hf : d.find w fuel with
  | some h => exact ⟨h, rfl⟩
  | none =>
    exfalso
    rw [find_eq] at hf
    have hocc := find_loop_none d w n hT fuel 0 hf
    obtain ⟨_, hslot, _, _, hinj⟩ := hT
    have hcard := Finset.card_le_card_of_injOn
      (s := Finset.range Dictionary.HASHTABLE_SIZE) (t := Finset.range n)
      (fun j => (d.word2int_ (probe w j)).toNat)
      (by
        intro j hj
        have hj1 : j < Dictionary.HASHTABLE_SIZE := Finset.mem_range.mp hj
        have h1 := hocc j (Nat.zero_le _) (by omega)
        rcases hslot (probe w j) with h2 | ⟨h2, h3⟩
        · exact absurd h2 h1
        · have h4 : (d.word2int_ (probe w j)).toNat < n := by omega
          simpa using h4)
      (by
        intro i hi j hj hij
        have hi1 : i < Dictionary.HASHTABLE_SIZE := by simpa using hi
        have hj1 : j < Dictionary.HASHTABLE_SIZE := by simpa using hj
        have h1 := hocc i (Nat.zero_le _) (by omega)
        have h2 := hocc j (Nat.zero_le _) (by omega)
        simp only at hij
        have h3 : d.word2int_ (probe w i) = d.word2int_ (probe w j) := by
          rcases hslot (probe w i) with h4 | ⟨h4, _⟩
          · exact absurd h4 h1
          · rcases hslot (probe w j) with h5 | ⟨h5, _⟩
            · exact absurd h5 h2
            · omega
        exact probe_inj w i j hi1 hj1 (hinj _ _ h3 h1))
    rw [Finset.card_range, Finset.card_range] at hcard
    omega

theorem record_occurrence_total (d : Dictionary) (tokens : List String) (w : String)
    (fuel : ℕ) (hinv : count_inv d tokens)
    (hn : d.words_.length < Dictionary.HASHTABLE_SIZE)
    (hfuel : Dictionary.HASHTABLE_SIZE ≤ fuel) :
    ∃ d1, d.record_occurrence w fuel = some d1 := by
  obtain ⟨h, hf⟩ := find_total d w _ fuel hinv.2.2.1 hn hfuel
  unfold Dictionary.record_occurrence
  simp only [hf, Option.bind_eq_bind, Option.some_bind]
  by_cases hfree : d.word2int_ h = -1
  · rw [if_pos hfree]
    exact ⟨_, rfl⟩
  · rw [if_neg hfree]
    obtain ⟨e, he⟩ := entry_at_of_slot d _ hinv.2.2.1 h hfree
    simp only [he, Option.some_bind]
    exact ⟨_, rfl⟩

theorem count_loop_total (f0 : ℕ) (hf0 : Dictionary.HASHTABLE_SIZE ≤ f0) :
    ∀ (fuel : ℕ) (d : Dictionary) (stream : istream) (tokens rest : List String),
    count_inv d tokens → read_words fuel stream = some rest →
    tokens.length + rest.length ≤ 75000000 →
    ∃ r, Dictionary.count_loop f0 fuel d stream = some r := by
  intro fuel
  induction fuel with
  | zero => intro d stream tokens rest _ h; simp [read_words] at h
  | succ fuel ih =>
    intro d stream tokens rest hinv hrest hlen
    unfold read_words at hrest
    unfold Dictionary.count_loop
    rcases hrw : Dictionary.read_word stream with ⟨ok, w, s2⟩
    rw [hrw] at hrest
    cases ok with
    | false => exact ⟨_, rfl⟩
    | true =>
      simp only at hrest ⊢
      cases hr2 : read_words fuel s2 with
      | none => simp [hr2] at hrest
      | some rest2 =>
        rw [hr2] at hrest
        have hrest1 : rest = w :: rest2 := by simpa using hrest.symm
        subst hrest1
        have hwl := hinv.2.2.2.2.2
        obtain ⟨d1, hd1⟩ := record_occurrence_total d tokens w f0 hinv
          (by simp only [List.length_cons] at hlen; unfold Dictionary.HASHTABLE_SIZE; omega) hf0
        obtain ⟨hinv1, _⟩ := record_occurrence_inv d d1 tokens w f0 hinv hd1
        have hsz : ¬ d1.size_ > 75000000 := by
          have h1 := hinv1.1
          have h2 := hinv1.2.2.2.2.2
          simp only [List.length_append, List.length_singleton, List.length_cons,
            List.length_nil] at h2 hlen
          rw [h1]
          omega
        simp only [hd1, Option.bind_eq_bind, Option.some_bind, if_neg hsz]
        exact ih d1 s2 (tokens ++ [w]) rest2 hinv1 hr2 (by
          simp only [List.length_append, List.length_singleton, List.length_cons,
            List.length_nil] at hlen ⊢
          omega)

theorem threshold_loop_total (fuel : ℕ) (hfuel : Dictionary.HASHTABLE_SIZE ≤ fuel) :
    ∀ (rem pre : List entry) (d : Dictionary),
    d.words_ = pre ++ rem → d.size_ = pre.length → d.nwords_ = pre.length →
    table_inv d.word2int_ (d.words_.map entry.word) pre.length →
    (d.words_.map entry.word).Nodup → d.words_.length ≤ Dictionary.HASHTABLE_SIZE →
    ∃ d1, Dictionary.threshold_loop fuel rem d = some d1 := by
  intro rem
  induction rem with
  | nil => intro pre d _ _ _ _ _ _; exact ⟨d, rfl⟩
  | cons e rest ih =>
    intro pre d hw hs hn hT hnd hlen
    have hpre : pre.length < Dictionary.HASHTABLE_SIZE := by
      have : d.words_.length = pre.length + (rest.length + 1) := by rw [hw]; simp
      omega
    obtain ⟨slot, hf⟩ := find_total d e.word _ fuel hT hpre hfuel
    unfold Dictionary.threshold_loop
    simp only [hf, Option.bind_eq_bind, Option.some_bind]
    have hat : d.words_[pre.length]? = some e := by
      rw [hw, List.getElem?_append_right (le_refl _), Nat.sub_self]
      simp
    have hname : (d.words_.map entry.word)[pre.length]? = some e.word := by
      rw [List.getElem?_map, hat]; rfl
    have hlt : pre.length < (d.words_.map entry.word).length :=
      (List.getElem?_eq_some.mp hname).1
    have hnew : ∀ k, k < pre.length → (d.words_.map entry.word)[k]? ≠ some e.word := by
      intro k hk heq
      exact (List.nodup_iff_getElem?_ne_getElem?.mp hnd) k pre.length hk hlt
        (heq.trans hname.symm)
    have hw1 : ∀ k e1, k < pre.length → d.words_[k]? = some e1 → e1.word ≠ e.word := by
      intro k e1 hk he1 heq
      apply hnew k hk
      rw [List.getElem?_map, he1, ← heq]; rfl
    obtain ⟨hfree, j, hh, hbef⟩ := find_miss d _ e.word fuel slot hT hw1 hf
    have hT1 := table_insert d.word2int_ (d.words_.map entry.word) (d.words_.map entry.word)
      pre.length slot j e.word hT hname (fun _ _ => rfl) hnew hfree hh hbef
    exact ih (pre ++ [e])
      { d with word2int_ := Function.update d.word2int_ slot d.size_,
               size_ := d.size_ + 1, nwords_ := d.nwords_ + 1 }
      (by simp [hw]) (by simp [hs]) (by simp [hn])
      (by
        simp only [List.length_append, List.length_singleton]
        rw [hs]
        exact hT1)
      hnd hlen

theorem determine_vocabulary_total (sort : List entry → List entry) (args : Args)
    (stream : istream) (fuel : ℕ) (hsort : sort_contract sort)
    (hfuel : Dictionary.HASHTABLE_SIZE ≤ fuel) (hstream : stream.rest.length < fuel)
    (hsmall : (all_words stream).length ≤ 75000000)
    (hne : ∃ w ∈ all_words stream, args.min_count ≤ (all_words stream).count w) :
    ∃ d s, Dictionary.determine_vocabulary sort (Dictionary.init args) stream fuel
      = some (d, s) := by
  obtain ⟨rest, hrest⟩ := read_words_total fuel stream hstream
  have hall := all_words_eq fuel stream rest hrest
  obtain ⟨⟨d1, s1⟩, hc⟩ := count_loop_total fuel hfuel fuel (Dictionary.init args) stream []
    rest (count_inv_init args) hrest (by rw [← hall]; simpa using hsmall)
  obtain ⟨rest1, hrest1, hinv, hargs, _, _⟩ :=
    count_loop_inv fuel fuel _ stream [] d1 s1 (count_inv_init args) hc
  rw [List.nil_append, ← all_words_eq fuel stream rest1 hrest1] at hinv
  obtain ⟨hsize, hntok, hT, hcount, hcover, hle⟩ := hinv
  have hnd : (d1.words_.map entry.word).Nodup :=
    nodup_of_table_inv d1.word2int_ (d1.words_.map entry.word)
      (by rw [List.length_map]; exact hT)
  have hnd1 : (((sort d1.words_).filter
      (fun e => ¬ (e.count < d1.args_.min_count))).map entry.word).Nodup := by
    have h1 : ((sort d1.words_).map entry.word).Nodup :=
      ((hsort d1.words_).1.map entry.word).nodup_iff.mpr hnd
    exact h1.sublist ((List.filter_sublist _).map _)
  have hlen1 : ((sort d1.words_).filter
      (fun e => ¬ (e.count < d1.args_.min_count))).length ≤ Dictionary.HASHTABLE_SIZE := by
    have h1 := (List.filter_sublist (p := fun e : entry => ¬ (e.count < d1.args_.min_count))
      (sort d1.words_)).length_le
    have h2 := (hsort d1.words_).1.length_eq
    unfold Dictionary.HASHTABLE_SIZE
    omega
  obtain ⟨d2, hd2⟩ := threshold_loop_total fuel hfuel
    ((sort d1.words_).filter (fun e => ¬ (e.count < d1.args_.min_count))) []
    { d1 with words_ := (sort d1.words_).filter (fun e => ¬ (e.count < d1.args_.min_count)),
              size_ := 0, nwords_ := 0, word2int_ := fun _ => -1 }
    (by simp) (by simp) (by simp)
    (by
      refine ⟨Nat.zero_le _, fun s => Or.inl rfl, fun k w hk => absurd hk (by simp),
        fun i j w hi => absurd hi (by simp), fun s s1 _ hs => absurd rfl hs⟩)
    hnd1 hlen1
  have ht : d1.threshold sort d1.args_.min_count fuel = some d2 := hd2
  obtain ⟨hw2, hs2, _, _, _, _⟩ := threshold_spec sort d1 d2 _ fuel hsort hnd ht
  obtain ⟨w, hw, hwc⟩ := hne
  obtain ⟨e, he, hew⟩ := hcover w hw
  have hemem : e ∈ d2.words_ := by
    rw [hw2, List.mem_filter, (hsort d1.words_).1.mem_iff]
    refine ⟨he, ?_⟩
    have h1 := (hcount e he).2
    have h2 : d1.args_ = args := hargs
    rw [h2]
    rw [hew] at h1
    simpa [h1] using hwc
  have hz : ¬ (d2.calculate_retention_probas).size_ = 0 := by
    show ¬ d2.size_ = 0
    rw [hs2]
    have := List.length_pos_of_mem hemem
    omega
  refine ⟨d2.calculate_retention_probas, s1, ?_⟩
  unfold Dictionary.determine_vocabulary
  simp only [hc, Option.bind_eq_bind, Option.some_bind, ht, if_neg hz, Option.pure_def]

/-! ### The vocabulary -/

theorem insertion_sort_contract (l : List entry) :
    (List.insertionSort (fun a b : entry => b.count ≤ a.count) l).Perm l
      ∧ (List.insertionSort (fun a b : entry => b.count ≤ a.count) l).Pairwise
          (fun a b => ¬ b.count > a.count) := by
  refine ⟨List.perm_insertionSort _ l, ?_⟩
  have h := @List.sorted_insertionSort entry (fun a b : entry => b.count ≤ a.count) _
    ⟨fun a b => le_total b.count a.count⟩ ⟨fun a b c hab hbc => le_trans hbc hab⟩ l
  exact h.imp (fun hab => not_lt.mpr hab)

theorem stable_sort_contract : sort_contract stable_sort :=
  fun l => insertion_sort_contract l

/-- C27 (amended): when `determine_vocabulary` on a fresh dictionary returns
(the stream has at most 75000000 tokens and some token occurs at least
`min_count` times, so that neither exception is thrown; `fuel` bounds the
loops), the words of `words_` are pairwise distinct; an entry is in `words_`
exactly when its word is a token of the stream, its count is the number of
occurrences of that token, and this count is at least `min_count`; `words_` is
ordered by descending count; and the id that the hash table gives to a word of
`words_` is its position, while a word that is not in `words_` has the id `-1`.
This holds for every behaviour of `std::sort` that the standard allows; the
order among entries of equal count is whatever `std::sort` leaves. -/
theorem determine_vocabulary_spec (sort : List entry → List entry) (args : Args)
    (stream : istream) (fuel : ℕ) (hsort : sort_contract sort)
    (hfuel : Dictionary.HASHTABLE_SIZE ≤ fuel) (hstream : stream.rest.length < fuel)
    (hsmall : (all_words stream).length ≤ 75000000)
    (hne : ∃ w ∈ all_words stream, args.min_count ≤ (all_words stream).count w) :
    ∃ d s, Dictionary.determine_vocabulary sort (Dictionary.init args) stream fuel = some (d, s)
      ∧ (d.words_.map entry.word).Nodup
      ∧ (∀ e, e ∈ d.words_ ↔ (e.word ∈ all_words stream
            ∧ e.count = (all_words stream).count e.word ∧ args.min_count ≤ e.count))
      ∧ d.words_.Pairwise (fun a b => b.count ≤ a.count)
      ∧ (∀ (k : ℕ) (e : entry), d.words_[k]? = some e →
          ∃ h, d.find e.word fuel = some h ∧ d.word2int_ h = (k : ℤ))
      ∧ (∀ w, (∀ e ∈ d.words_, e.word ≠ w) →
          ∃ h, d.find w fuel = some h ∧ d.word2int_ h = -1)
      ∧ d.nwords_ = d.words_.length ∧ d.size_ = d.words_.length := by
  obtain ⟨d, s, hd⟩ := determine_vocabulary_total sort args stream fuel hsort hfuel hstream
    hsmall hne
  obtain ⟨_, _, hsize, hnw, _, hT, hmem, hpair, hlen, _⟩ :=
    determine_vocabulary_inv sort args stream fuel d s hsort hd
  have hlt : d.words_.length < Dictionary.HASHTABLE_SIZE := by
    unfold Dictionary.HASHTABLE_SIZE
    omega
  refine ⟨d, s, hd, ?_, hmem, hpair, ?_, ?_, hnw, hsize⟩
  · exact nodup_of_table_inv d.word2int_ _ (by rw [List.length_map]; exact hT)
  · intro k e he
    obtain ⟨h, hf⟩ := find_total d e.word _ fuel hT hlt hfuel
    exact ⟨h, hf, find_hit d _ k e fuel h hT (List.getElem?_eq_some.mp he).1 he hf⟩
  · intro w hw
    obtain ⟨h, hf⟩ := find_total d w _ fuel hT hlt hfuel
    refine ⟨h, hf, (find_miss d _ w fuel h hT ?_ hf).1⟩
    intro k e _ he
    exact hw e (List.mem_iff_getElem?.mpr ⟨k, he⟩)

/-- The stream `b a b` followed by a line break, with `min_count = 1` and a sort
that keeps ties in order. -/
theorem determine_vocabulary_spec_witness :
    ∃ d s, Dictionary.determine_vocabulary stable_sort
        (Dictionary.init { Args.default with min_count := 1 })
        { content := "b a b\n".data, rest := "b a b\n".data, eofbit := false } 100000000
        = some (d, s)
      ∧ (d.words_.map entry.word).Nodup
      ∧ (∀ e, e ∈ d.words_ ↔ (e.word ∈ all_words
              { content := "b a b\n".data, rest := "b a b\n".data, eofbit := false }
            ∧ e.count = (all_words
              { content := "b a b\n".data, rest := "b a b\n".data, eofbit := false }).count e.word
            ∧ ({ Args.default with min_count := 1 } : Args).min_count ≤ e.count))
      ∧ d.words_.Pairwise (fun a b => b.count ≤ a.count)
      ∧ (∀ (k : ℕ) (e : entry), d.words_[k]? = some e →
          ∃ h, d.find e.word 100000000 = some h ∧ d.word2int_ h = (k : ℤ))
      ∧ (∀ w, (∀ e ∈ d.words_, e.word ≠ w) →
          ∃ h, d.find w 100000000 = some h ∧ d.word2int_ h = -1)
      ∧ d.nwords_ = d.words_.length ∧ d.size_ = d.words_.length :=
  determine_vocabulary_spec stable_sort { Args.default with min_count := 1 }
    { content := "b a b\n".data, rest := "b a b\n".data, eofbit := false } 100000000
    stable_sort_contract (by decide) (by decide) (by decide) ⟨"b", by decide, by decide⟩

/-- C27 fails on words of equal count when there are more than 16 of them: on
the stream of the 17 words `a` to `q`, each occurring once, with
`min_count = 1`, the counting loop inserts the words in the order `a`, ..., `q`,
all with the count 1, and the `std::sort` of libstdc++ leaves them in the order
`i q p o n m l k j a h g f e d c b` (its partition step swaps entries that
compare equal), so `words_` is not in insertion order and the id of `a` is 9. -/
theorem vocabulary_ties_reordered_by_std_sort :
    (Dictionary.count_loop 40 40 (Dictionary.init { Args.default with min_count := 1 })
          { content := "a b c d e f g h i j k l m n o p q".data,
            rest := "a b c d e f g h i j k l m n o p q".data, eofbit := false }).map
        (fun r => r.1.words_.map (fun e => (e.word, e.count)))
      = some [("a", 1), ("b", 1), ("c", 1), ("d", 1), ("e", 1), ("f", 1), ("g", 1), ("h", 1), ("i", 1), ("j", 1), ("k", 1), ("l", 1), ("m", 1), ("n", 1), ("o", 1), ("p", 1), ("q", 1)]
    ∧ (Dictionary.determine_vocabulary Dictionary.sort_words
          (Dictionary.init { Args.default with min_count := 1 })
          { content := "a b c d e f g h i j k l m n o p q".data,
            rest := "a b c d e f g h i j k l m n o p q".data, eofbit := false } 40).map
        (fun r => r.1.words_.map (fun e => (e.word, e.count)))
      = some [("i", 1), ("q", 1), ("p", 1), ("o", 1), ("n", 1), ("m", 1), ("l", 1), ("k", 1), ("j", 1), ("a", 1), ("h", 1), ("g", 1), ("f", 1), ("e", 1), ("d", 1), ("c", 1), ("b", 1)] :=
  ⟨rfl, rfl⟩

/-! ### Retention probabilities and `get_line` -/

theorem discard_false (d : Dictionary) (id : ℤ) (r : ℝ) (h0 : 0 ≤ id) (h1 : id < d.nwords_)
    (hp : d.retention_probas[id.toNat]? = some 1) (hr : r ≤ 1) :
    d.discard id r = some false := by
  unfold Dictionary.discard
  rw [if_pos ⟨h0, h1⟩, hp]
  simpa using hr

theorem get_line_loop_keeps (d : Dictionary) (uniform : ℕ → ℝ) (f0 : ℕ)
    (hslot : ∀ s, d.word2int_ s < d.nwords_)
    (hret : ∀ id : ℤ, 0 ≤ id → id < d.nwords_ → d.retention_probas[id.toNat]? = some 1)
    (hu : ∀ k, uniform k ≤ 1) :
    ∀ (fuel : ℕ) (stream : istream) (words : List ℤ) (n : ℕ) (s2 : istream)
      (words2 : List ℤ) (n2 : ℕ),
      d.get_line_loop uniform f0 fuel stream words n = some (s2, words2, n2) →
      words2.length + n = words.length + n2 := by
  intro fuel
  induction fuel with
  | zero => intro stream words n s2 words2 n2 h; simp [Dictionary.get_line_loop] at h
  | succ fuel ih =>
    intro stream words n s2 words2 n2 h
    unfold Dictionary.get_line_loop at h
    rcases hrw : Dictionary.read_word stream with ⟨ok, token, s1⟩
    rw [hrw] at h
    cases ok with
    | false =>
      simp only [Option.some.injEq, Prod.mk.injEq] at h
      obtain ⟨_, h2, h3⟩ := h
      rw [← h2, ← h3]
    | true =>
      simp only [Option.bind_eq_bind] at h
      cases hf : d.find token f0 with
      | none => simp [hf] at h
      | some slot =>
        simp only [hf, Option.some_bind] at h
        by_cases hneg : d.word2int_ slot < 0
        · rw [if_pos hneg] at h
          exact ih s1 words n s2 words2 n2 h
        · rw [if_neg hneg] at h
          rw [discard_false d _ (uniform n) (not_lt.mp hneg) (hslot slot)
            (hret _ (not_lt.mp hneg) (hslot slot)) (hu n)] at h
          simp only [Option.some_bind, Bool.not_false, if_true] at h
          by_cases heos : token = Dictionary.EOS
          · rw [if_pos heos] at h
            simp only [Option.some.injEq, Prod.mk.injEq] at h
            obtain ⟨_, h2, h3⟩ := h
            rw [← h2, ← h3, List.length_append, List.length_singleton]
            omega
          · rw [if_neg heos] at h
            have := ih s1 _ _ s2 words2 n2 h
            rw [List.length_append, List.length_singleton] at this
            omega

theorem get_line_loop_total (d : Dictionary) (uniform : ℕ → ℝ) (f0 m : ℕ)
    (hT : table_inv d.word2int_ (d.words_.map entry.word) m)
    (hm : m < Dictionary.HASHTABLE_SIZE) (hf0 : Dictionary.HASHTABLE_SIZE ≤ f0)
    (hnw : d.nwords_ = m) (hlen : d.retention_probas.length = m) :
    ∀ (fuel : ℕ) (stream : istream) (words : List ℤ) (n : ℕ), stream.rest.length < fuel →
      ∃ r, d.get_line_loop uniform f0 fuel stream words n = some r := by
  intro fuel
  induction fuel with
  | zero => intro stream words n h; omega
  | succ fuel ih =>
    intro stream words n hlt
    unfold Dictionary.get_line_loop
    rcases hrw : Dictionary.read_word stream with ⟨ok, token, s1⟩
    cases ok with
    | false => exact ⟨_, rfl⟩
    | true =>
      obtain ⟨hprog, _⟩ := read_word_progress stream token s1 hrw
      obtain ⟨slot, hf⟩ := find_total d token m f0 hT hm hf0
      simp only [hf, Option.bind_eq_bind, Option.some_bind]
      by_cases hneg : d.word2int_ slot < 0
      · rw [if_pos hneg]
        exact ih s1 words n (by omega)
      · rw [if_neg hneg]
        have hlt2 : d.word2int_ slot < m := by
          rcases hT.2.1 slot with h1 | ⟨_, h1⟩
          · omega
          · exact h1
        have hp : ∃ p, d.retention_probas[(d.word2int_ slot).toNat]? = some p :=
          ⟨_, List.getElem?_eq_getElem (by omega)⟩
        obtain ⟨p, hp⟩ := hp
        have hdis : d.discard (d.word2int_ slot) (uniform n) = some (decide (uniform n > p)) := by
          unfold Dictionary.discard
          rw [if_pos ⟨not_lt.mp hneg, by rw [hnw]; exact hlt2⟩, hp]
          rfl
        simp only [hdis, Option.some_bind]
        by_cases heos : token = Dictionary.EOS
        · rw [if_pos heos]
          exact ⟨_, rfl⟩
        · rw [if_neg heos]
          exact ih s1 _ _ (by omega)

theorem retention_get (args : Args) (ws : List entry) (total : ℕ) (i : ℕ) (e : entry)
    (he : ws[i]? = some e) :
    ((List.range ws.length).map (fun i =>
        if args.t > 0 then
          (if Real.sqrt (args.t / ((((ws[i]?).map entry.count).getD 0 : ℤ) / (total : ℝ)))
              + args.t / ((((ws[i]?).map entry.count).getD 0 : ℤ) / (total : ℝ)) > 1 then 1
           else Real.sqrt (args.t / ((((ws[i]?).map entry.count).getD 0 : ℤ) / (total : ℝ)))
              + args.t / ((((ws[i]?).map entry.count).getD 0 : ℤ) / (total : ℝ)))
        else 1))[i]?
      = some (if args.t > 0 then
          min 1 (Real.sqrt (args.t / ((e.count : ℝ) / (total : ℝ)))
            + args.t / ((e.count : ℝ) / (total : ℝ)))
        else 1) := by
  have hi : i < ws.length := (List.getElem?_eq_some.mp he).1
  rw [List.getElem?_map, List.getElem?_range hi]
  simp only [Option.map_some', he, Option.getD_some]
  congr 1
  by_cases ht : args.t > 0
  · rw [if_pos ht, if_pos ht]
    by_cases h1 : Real.sqrt (args.t / ((e.count : ℝ) / (total : ℝ)))
        + args.t / ((e.count : ℝ) / (total : ℝ)) > 1
    · rw [if_pos h1, min_eq_left (le_of_lt h1)]
    · rw [if_neg h1, min_eq_right (not_lt.mp h1)]
  · rw [if_neg ht, if_neg ht]

/-- C28: when `determine_vocabulary` on a fresh dictionary returns (hypotheses as
for C27), `retention_probas` has one entry for every word; the entry of a word
with count `c` is `min(1, sqrt(t/f) + t/f)` with `f = c / ntokens_` when `t > 0`
and `1` when `t <= 0`, where `ntokens_` is the number of all tokens read; every
entry lies in `(0, 1]`; and when `t <= 0`, `discard(id, r)` returns false for
every valid id and every `r <= 1` (in particular every `r` in `[0, 1]`), and
`get_line`, with draws that are at most `1`, returns and keeps every token of
the dictionary that it reads: the vector `words` has as many entries as the
returned number of dictionary tokens. -/
theorem retention_probas_spec (sort : List entry → List entry) (args : Args)
    (stream : istream) (fuel : ℕ) (hsort : sort_contract sort)
    (hfuel : Dictionary.HASHTABLE_SIZE ≤ fuel) (hstream : stream.rest.length < fuel)
    (hsmall : (all_words stream).length ≤ 75000000)
    (hne : ∃ w ∈ all_words stream, args.min_count ≤ (all_words stream).count w) :
    ∃ d s, Dictionary.determine_vocabulary sort (Dictionary.init args) stream fuel = some (d, s)
      ∧ d.retention_probas.length = d.words_.length
      ∧ d.ntokens_ = (all_words stream).length
      ∧ (∀ (i : ℕ) (e : entry), d.words_[i]? = some e →
          d.retention_probas[i]? = some (if args.t > 0 then
            min 1 (Real.sqrt (args.t / ((e.count : ℝ) / (d.ntokens_ : ℝ)))
              + args.t / ((e.count : ℝ) / (d.ntokens_ : ℝ)))
            else 1))
      ∧ (∀ p ∈ d.retention_probas, 0 < p ∧ p ≤ 1)
      ∧ (args.t ≤ 0 → ∀ (id : ℤ) (r : ℝ), 0 ≤ id → id < d.nwords_ → r ≤ 1 →
          d.discard id r = some false)
      ∧ (args.t ≤ 0 → ∀ (stream2 : istream) (uniform : ℕ → ℝ), (∀ k, uniform k ≤ 1) →
          stream2.rest.length < fuel → stream2.content.length < fuel →
          ∃ s2 words n, d.get_line stream2 uniform fuel = some (s2, words, n)
            ∧ words.length = n) := by
  obtain ⟨d, s, hd⟩ := determine_vocabulary_total sort args stream fuel hsort hfuel hstream
    hsmall hne
  obtain ⟨_, hntok, hsize, hnw, _, hT, hmem, _, hlen, hret⟩ :=
    determine_vocabulary_inv sort args stream fuel d s hsort hd
  have hlt : d.words_.length < Dictionary.HASHTABLE_SIZE := by
    unfold Dictionary.HASHTABLE_SIZE
    omega
  have hrlen : d.retention_probas.length = d.words_.length := by
    rw [hret, List.length_map, List.length_range]
  have hform : ∀ (i : ℕ) (e : entry), d.words_[i]? = some e →
      d.retention_probas[i]? = some (if args.t > 0 then
        min 1 (Real.sqrt (args.t / ((e.count : ℝ) / (d.ntokens_ : ℝ)))
          + args.t / ((e.count : ℝ) / (d.ntokens_ : ℝ)))
        else 1) := by
    intro i e he
    rw [hntok, hret]
    exact retention_get args d.words_ (all_words stream).length i e he
  have hone : args.t ≤ 0 → ∀ id : ℤ, 0 ≤ id → id < d.nwords_ →
      d.retention_probas[id.toNat]? = some 1 := by
    intro ht id h0 h1
    have hi : id.toNat < d.words_.length := by omega
    rw [hform _ _ (List.getElem?_eq_getElem hi), if_neg (not_lt.mpr ht)]
  refine ⟨d, s, hd, hrlen, hntok, hform, ?_, ?_, ?_⟩
  · intro p hp
    obtain ⟨i, hi⟩ := List.mem_iff_getElem?.mp hp
    have hilt : i < d.words_.length := by
      rw [← hrlen]; exact (List.getElem?_eq_some.mp hi).1
    have he : d.words_[i]? = some d.words_[i] := List.getElem?_eq_getElem hilt
    rw [hform i _ he] at hi
    have hp1 : p = _ := (Option.some.inj hi).symm
    by_cases ht : args.t > 0
    · rw [if_pos ht] at hp1
      obtain ⟨hw, hc, _⟩ := (hmem d.words_[i]).mp (List.getElem_mem hilt)
      have hcpos : (0 : ℝ) < (d.words_[i].count : ℝ) := by
        rw [hc]
        exact_mod_cast List.count_pos_iff.mpr hw
      have hnpos : (0 : ℝ) < (d.ntokens_ : ℝ) := by
        rw [hntok]
        exact_mod_cast List.length_pos_of_mem hw
      have hq : 0 < args.t / ((d.words_[i].count : ℝ) / (d.ntokens_ : ℝ)) :=
        div_pos ht (div_pos hcpos hnpos)
      rw [hp1]
      exact ⟨lt_min one_pos (add_pos_of_nonneg_of_pos (Real.sqrt_nonneg _) hq), min_le_left _ _⟩
    · rw [if_neg ht] at hp1
      rw [hp1]
      exact ⟨one_pos, le_refl _⟩
  · intro ht id r h0 h1 hr
    exact discard_false d id r h0 h1 (hone ht id h0 h1) hr
  · intro ht stream2 uniform hu hr2 hc2
    have hslot : ∀ s, d.word2int_ s < d.nwords_ := by
      intro s1
      rw [hnw]
      rcases hT.2.1 s1 with h1 | ⟨_, h1⟩
      · omega
      · exact h1
    have hrest : (if stream2.eofbit = true then
        ({ stream2 with rest := stream2.content, eofbit := false } : istream)
        else stream2).rest.length < fuel := by
      split
      · exact hc2
      · exact hr2
    obtain ⟨⟨s2, words, n⟩, hr⟩ := get_line_loop_total d uniform fuel d.words_.length hT hlt
      hfuel hnw hrlen fuel _ [] 0 hrest
    refine ⟨s2, words, n, hr, ?_⟩
    have := get_line_loop_keeps d uniform fuel hslot (hone ht) hu fuel _ [] 0 s2 words n hr
    simpa using this

/-- C28 on the stream `b a b` followed by a line break, with `min_count = 1`. -/
theorem retention_probas_spec_witness :
    ∃ d s, Dictionary.determine_vocabulary stable_sort
        (Dictionary.init { Args.default with min_count := 1 })
        { content := "b a b\n".data, rest := "b a b\n".data, eofbit := false } 100000000
        = some (d, s)
      ∧ d.retention_probas.length = d.words_.length
      ∧ d.ntokens_ = (all_words
          { content := "b a b\n".data, rest := "b a b\n".data, eofbit := false }).length
      ∧ (∀ (i : ℕ) (e : entry), d.words_[i]? = some e →
          d.retention_probas[i]? = some
            (if ({ Args.default with min_count := 1 } : Args).t > 0 then
              min 1 (Real.sqrt (({ Args.default with min_count := 1 } : Args).t
                  / ((e.count : ℝ) / (d.ntokens_ : ℝ)))
                + ({ Args.default with min_count := 1 } : Args).t
                  / ((e.count : ℝ) / (d.ntokens_ : ℝ)))
            else 1))
      ∧ (∀ p ∈ d.retention_probas, 0 < p ∧ p ≤ 1)
      ∧ (({ Args.default with min_count := 1 } : Args).t ≤ 0 →
          ∀ (id : ℤ) (r : ℝ), 0 ≤ id → id < d.nwords_ → r ≤ 1 →
          d.discard id r = some false)
      ∧ (({ Args.default with min_count := 1 } : Args).t ≤ 0 →
          ∀ (stream2 : istream) (uniform : ℕ → ℝ), (∀ k, uniform k ≤ 1) →
          stream2.rest.length < 100000000 → stream2.content.length < 100000000 →
          ∃ s2 words n, d.get_line stream2 uniform 100000000 = some (s2, words, n)
            ∧ words.length = n) :=
  retention_probas_spec stable_sort { Args.default with min_count := 1 }
    { content := "b a b\n".data, rest := "b a b\n".data, eofbit := false } 100000000
    stable_sort_contract (by decide) (by decide) (by decide) ⟨"b", by decide, by decide⟩

theorem determine_vocabulary_retention_one (sort : List entry → List entry) (args : Args)
    (stream : istream) (fuel : ℕ) (d : Dictionary) (s : istream)
    (hsort : sort_contract sort)
    (hd : Dictionary.determine_vocabulary sort (Dictionary.init args) stream fuel = some (d, s))
    (ht : args.t ≤ 0) (id : ℤ) (h0 : 0 ≤ id) (h1 : id < d.nwords_) :
    d.retention_probas[id.toNat]? = some 1 := by
  obtain ⟨_, _, _, hnw, _, _, _, _, _, hret⟩ :=
    determine_vocabulary_inv sort args stream fuel d s hsort hd
  have hi : id.toNat < d.words_.length := by omega
  rw [hret, retention_get args d.words_ (all_words stream).length _ _
    (List.getElem?_eq_getElem hi), if_neg (not_lt.mpr ht)]

theorem get_line_loop_step_keep (d : Dictionary) (uniform : ℕ → ℝ) (f0 fuel : ℕ)
    (stream s1 : istream) (words : List ℤ) (n : ℕ) (token : String) (slot : ℕ)
    (hrw : Dictionary.read_word stream = (true, token, s1))
    (hf : d.find token f0 = some slot) (h0 : ¬ d.word2int_ slot < 0)
    (hdis : d.discard (d.word2int_ slot) (uniform n) = some false)
    (hne : token ≠ Dictionary.EOS) :
    d.get_line_loop uniform f0 (fuel + 1) stream words n
      = d.get_line_loop uniform f0 fuel s1 (words ++ [d.word2int_ slot]) (n + 1) := by
  rw [Dictionary.get_line_loop, hrw]
  simp only [hf, Option.bind_eq_bind, Option.some_bind, if_neg h0, hdis, Bool.not_false,
    if_true, if_neg hne]

theorem get_line_loop_step_skip (d : Dictionary) (uniform : ℕ → ℝ) (f0 fuel : ℕ)
    (stream s1 : istream) (words : List ℤ) (n : ℕ) (token : String) (slot : ℕ)
    (hrw : Dictionary.read_word stream = (true, token, s1))
    (hf : d.find token f0 = some slot) (h0 : d.word2int_ slot < 0) :
    d.get_line_loop uniform f0 (fuel + 1) stream words n
      = d.get_line_loop uniform f0 fuel s1 words n := by
  rw [Dictionary.get_line_loop, hrw]
  simp only [hf, Option.bind_eq_bind, Option.some_bind, if_pos h0]

theorem get_line_loop_step_end (d : Dictionary) (uniform : ℕ → ℝ) (f0 fuel : ℕ)
    (stream s1 : istream) (words : List ℤ) (n : ℕ) (token : String)
    (hrw : Dictionary.read_word stream = (false, token, s1)) :
    d.get_line_loop uniform f0 (fuel + 1) stream words n = some (s1, words, n) := by
  rw [Dictionary.get_line_loop, hrw]

/-- C26 fails on the file `a a`, line break, `b b` with `-min-count 2 -t 0`: the
token `</s>` occurs once and is removed from the vocabulary by `threshold`, so
in `get_line` the test `wid < 0` skips it before the test `token == EOS` is
reached.  The call that starts at the beginning of the file does not stop at
the line break: it reads to the end of the file and returns the ids of the
words of both lines. -/
theorem get_line_crosses_line_break :
    ∃ d s, Dictionary.determine_vocabulary stable_sort
        (Dictionary.init { Args.default with min_count := 2, t := 0 })
        { content := "a a\nb b".data, rest := "a a\nb b".data, eofbit := false } 20
        = some (d, s)
      ∧ d.words_.map (fun e => (e.word, e.count)) = [("a", 2), ("b", 2)]
      ∧ d.get_line { content := "a a\nb b".data, rest := "a a\nb b".data, eofbit := false }
          (fun _ => 0.5) 20
        = some ({ content := "a a\nb b".data, rest := [], eofbit := true }, [0, 0, 1, 1], 4) := by
  have hsome : (Dictionary.determine_vocabulary stable_sort
      (Dictionary.init { Args.default with min_count := 2, t := 0 })
      { content := "a a\nb b".data, rest := "a a\nb b".data, eofbit := false } 20).isSome
      = true := rfl
  obtain ⟨⟨d, s⟩, hd⟩ := Option.isSome_iff_exists.mp hsome
  have hfacts : (Dictionary.determine_vocabulary stable_sort
        (Dictionary.init { Args.default with min_count := 2, t := 0 })
        { content := "a a\nb b".data, rest := "a a\nb b".data, eofbit := false } 20).map
      (fun r => (r.1.words_.map (fun e => (e.word, e.count)), r.1.find "a" 20, r.1.find "b" 20,
        r.1.find "</s>" 20, r.1.word2int_ 26002220, r.1.word2int_ 76335077,
        r.1.word2int_ 17362777, r.1.nwords_))
      = some ([("a", 2), ("b", 2)], some 26002220, some 76335077, some 17362777, 0, 1, -1, 2) :=
    rfl
  rw [hd] at hfacts
  simp only [Option.map_some', Option.some.injEq, Prod.mk.injEq] at hfacts
  obtain ⟨hw, hfa, hfb, hfe, ha, hb, he, hn⟩ := hfacts
  have hone := determine_vocabulary_retention_one stable_sort _ _ 20 d s stable_sort_contract hd
    (le_refl _)
  have hdis : ∀ (slot : ℕ) (n : ℕ), 0 ≤ d.word2int_ slot → d.word2int_ slot < 2 →
      d.discard (d.word2int_ slot) ((fun _ : ℕ => (0.5 : ℝ)) n) = some false := by
    intro slot n h0 h1
    exact discard_false d _ _ h0 (by rw [hn]; exact h1) (hone _ h0 (by rw [hn]; exact h1))
      (by norm_num)
  refine ⟨d, s, hd, hw, ?_⟩
  show d.get_line_loop (fun _ => 0.5) 20 20
      { content := "a a\nb b".data, rest := "a a\nb b".data, eofbit := false } [] 0 = _
  refine Eq.trans (get_line_loop_step_keep d _ 20 19 _
    { content := "a a\nb b".data, rest := "a\nb b".data, eofbit := false } _ _ "a" 26002220
    ?_ hfa ?_ ?_ ?_) ?_
  · decide
  · rw [ha]; decide
  · exact hdis _ 0 (by rw [ha]) (by rw [ha]; decide)
  · decide
  refine Eq.trans (get_line_loop_step_keep d _ 20 18 _
    { content := "a a\nb b".data, rest := "\nb b".data, eofbit := false } _ _ "a" 26002220
    ?_ hfa ?_ ?_ ?_) ?_
  · decide
  · rw [ha]; decide
  · exact hdis _ 0 (by rw [ha]) (by rw [ha]; decide)
  · decide
  refine Eq.trans (get_line_loop_step_skip d _ 20 17 _
    { content := "a a\nb b".data, rest := "b b".data, eofbit := false } _ _ "</s>" 17362777
    ?_ hfe ?_) ?_
  · decide
  · rw [he]; decide
  refine Eq.trans (get_line_loop_step_keep d _ 20 16 _
    { content := "a a\nb b".data, rest := "b".data, eofbit := false } _ _ "b" 76335077
    ?_ hfb ?_ ?_ ?_) ?_
  · decide
  · rw [hb]; decide
  · exact hdis _ 0 (by rw [hb]; decide) (by rw [hb]; decide)
  · decide
  refine Eq.trans (get_line_loop_step_keep d _ 20 15 _
    { content := "a a\nb b".data, rest := [], eofbit := true } _ _ "b" 76335077
    ?_ hfb ?_ ?_ ?_) ?_
  · decide
  · rw [hb]; decide
  · exact hdis _ 0 (by rw [hb]; decide) (by rw [hb]; decide)
  · decide
  refine Eq.trans (get_line_loop_step_end d _ 20 14 _
    { content := "a a\nb b".data, rest := [], eofbit := true } _ _ "" ?_) ?_
  · decide
  rw [ha, hb]
  rfl

/-! ### `Args::parse_args` -/

theorem parse_arg_unknown (stof : String → Except sto_error real) (a : Args)
    (f : String) (value : Option String) (hd : ¬ f.data.head? ≠ some '-') (hh : f ≠ "-h")
    (hs : f ∉ string_flags) (hr : f ∉ real_flags) (hi : f ∉ int_flags) :
    Args.parse_arg stof a f value
      = Except.error (parse_failure.exit_failure ("Unknown argument: " ++ f)) := by
  simp only [string_flags, List.mem_cons, List.mem_singleton, List.mem_nil_iff, not_or,
    or_false] at hs
  simp only [real_flags, List.mem_cons, List.mem_singleton, List.mem_nil_iff, not_or,
    or_false] at hr
  simp only [int_flags, List.mem_cons, List.mem_singleton, List.mem_nil_iff, not_or,
    or_false] at hi
  obtain ⟨s1, s2⟩ := hs
  obtain ⟨r1, r2, r3, r4, r5, r6, r7⟩ := hr
  obtain ⟨i1, i2, i3, i4, i5, i6, i7, i8, i9⟩ := hi
  unfold Args.parse_arg
  rw [if_neg hd, if_neg hh, if_neg s1, if_neg s2, if_neg r1, if_neg r2, if_neg r3, if_neg r4,
    if_neg r5, if_neg r6, if_neg i1, if_neg i2, if_neg i3, if_neg i4, if_neg i5, if_neg i6,
    if_neg i7, if_neg i8, if_neg i9, if_neg r7]

theorem parse_arg_known (stof : String → Except sto_error real) (a a1 : Args)
    (f : String) (value : Option String) (h : Args.parse_arg stof a f value = Except.ok a1) :
    f ∈ string_flags ∨ f ∈ real_flags ∨ f ∈ int_flags := by
  by_contra hk
  rw [not_or, not_or] at hk
  by_cases hd : f.data.head? ≠ some '-'
  · unfold Args.parse_arg at h
    rw [if_pos hd] at h
    cases h
  · by_cases hh : f = "-h"
    · unfold Args.parse_arg at h
      rw [if_neg hd, if_pos hh] at h
      cases h
    · rw [parse_arg_unknown stof a f value hd hh hk.1 hk.2.1 hk.2.2] at h
      cases h

theorem parse_arg_int_eq (stof : String → Except sto_error real) (a : Args)
    (f : String) (value : Option String) (hf : f ∈ int_flags) :
    ∃ set : ℤ → Args,
      Args.parse_arg stof a f value
        = (arg_at f value >>= fun v => sto_result f (stoi v) >>= fun n => pure (set n))
      ∧ (∀ n, ∀ g ∈ string_flags, (set n).string_field g = a.string_field g)
      ∧ (∀ n, ∀ g ∈ real_flags, (set n).real_field g = a.real_field g)
      ∧ (∀ n, ∀ g ∈ int_flags, (set n).int_field g = if f = g then some n else a.int_field g) := by
  simp only [int_flags, List.mem_cons, List.mem_singleton, List.mem_nil_iff, or_false] at hf
  rcases hf with rfl | rfl | rfl | rfl | rfl | rfl | rfl | rfl | rfl
  all_goals
    refine ⟨_, rfl, ?_, ?_, ?_⟩
    · intro n g hg
      simp only [string_flags, List.mem_cons, List.mem_singleton, List.mem_nil_iff,
        or_false] at hg
      rcases hg with rfl | rfl <;> rfl
    · intro n g hg
      simp only [real_flags, List.mem_cons, List.mem_singleton, List.mem_nil_iff,
        or_false] at hg
      rcases hg with rfl | rfl | rfl | rfl | rfl | rfl | rfl <;> rfl
    · intro n g hg
      simp only [int_flags, List.mem_cons, List.mem_singleton, List.mem_nil_iff,
        or_false] at hg
      rcases hg with rfl | rfl | rfl | rfl | rfl | rfl | rfl | rfl | rfl <;> rfl

theorem parse_arg_real_eq (stof : String → Except sto_error real) (a : Args)
    (f : String) (value : Option String) (hf : f ∈ real_flags) :
    ∃ set : ℝ → Args,
      Args.parse_arg stof a f value
        = (arg_at f value >>= fun v => sto_result f (stof v) >>= fun x => pure (set x))
      ∧ (∀ x, ∀ g ∈ string_flags, (set x).string_field g = a.string_field g)
      ∧ (∀ x, ∀ g ∈ real_flags, (set x).real_field g = if f = g then some x else a.real_field g)
      ∧ (∀ x, ∀ g ∈ int_flags, (set x).int_field g = a.int_field g) := by
  simp only [real_flags, List.mem_cons, List.mem_singleton, List.mem_nil_iff, or_false] at hf
  rcases hf with rfl | rfl | rfl | rfl | rfl | rfl | rfl
  all_goals
    refine ⟨_, rfl, ?_, ?_, ?_⟩
    · intro n g hg
      simp only [string_flags, List.mem_cons, List.mem_singleton, List.mem_nil_iff,
        or_false] at hg
      rcases hg with rfl | rfl <;> rfl
    · intro n g hg
      simp only [real_flags, List.mem_cons, List.mem_singleton, List.mem_nil_iff,
        or_false] at hg
      rcases hg with rfl | rfl | rfl | rfl | rfl | rfl | rfl <;> rfl
    · intro n g hg
      simp only [int_flags, List.mem_cons, List.mem_singleton, List.mem_nil_iff,
        or_false] at hg
      rcases hg with rfl | rfl | rfl | rfl | rfl | rfl | rfl | rfl | rfl <;> rfl

theorem parse_arg_string_eq (stof : String → Except sto_error real) (a : Args)
    (f : String) (value : Option String) (hf : f ∈ string_flags) :
    ∃ set : String → Args,
      Args.parse_arg stof a f value = (arg_at f value >>= fun v => pure (set v))
      ∧ (∀ x, ∀ g ∈ string_flags,
          (set x).string_field g = if f = g then some x else a.string_field g)
      ∧ (∀ x, ∀ g ∈ real_flags, (set x).real_field g = a.real_field g)
      ∧ (∀ x, ∀ g ∈ int_flags, (set x).int_field g = a.int_field g) := by
  simp only [string_flags, List.mem_cons, List.mem_singleton, List.mem_nil_iff, or_false] at hf
  rcases hf with rfl | rfl
  all_goals
    refine ⟨_, rfl, ?_, ?_, ?_⟩
    · intro n g hg
      simp only [string_flags, List.mem_cons, List.mem_singleton, List.mem_nil_iff,
        or_false] at hg
      rcases hg with rfl | rfl <;> rfl
    · intro n g hg
      simp only [real_flags, List.mem_cons, List.mem_singleton, List.mem_nil_iff,
        or_false] at hg
      rcases hg with rfl | rfl | rfl | rfl | rfl | rfl | rfl <;> rfl
    · intro n g hg
      simp only [int_flags, List.mem_cons, List.mem_singleton, List.mem_nil_iff,
        or_false] at hg
      rcases hg with rfl | rfl | rfl | rfl | rfl | rfl | rfl | rfl | rfl <;> rfl

theorem flags_disjoint :
    (∀ f ∈ string_flags, f ∉ real_flags ∧ f ∉ int_flags)
      ∧ (∀ f ∈ real_flags, f ∉ string_flags ∧ f ∉ int_flags)
      ∧ (∀ f ∈ int_flags, f ∉ string_flags ∧ f ∉ real_flags) := by
  decide

theorem flags_dash :
    ∀ f, f ∈ string_flags ∨ f ∈ real_flags ∨ f ∈ int_flags →
      ¬ f.data.head? ≠ some '-' ∧ f ≠ "-h" := by
  intro f hf
  have h : ∀ g ∈ string_flags ++ real_flags ++ int_flags,
      ¬ g.data.head? ≠ some '-' ∧ g ≠ "-h" := by decide
  apply h
  simp only [List.mem_append]
  tauto

theorem parse_arg_fields (stof : String → Except sto_error real) (a a1 : Args)
    (f v : String) (h : Args.parse_arg stof a f (some v) = Except.ok a1) :
    (∀ g ∈ string_flags, a1.string_field g = if f = g then some v else a.string_field g)
      ∧ (∀ g ∈ real_flags,
          a1.real_field g = if f = g then (stof v).toOption else a.real_field g)
      ∧ (∀ g ∈ int_flags,
          a1.int_field g = if f = g then (stoi v).toOption else a.int_field g) := by
  obtain ⟨d1, d2, d3⟩ := flags_disjoint
  rcases parse_arg_known stof a a1 f (some v) h with hf | hf | hf
  · obtain ⟨set, heq, hS, hR, hI⟩ := parse_arg_string_eq stof a f (some v) hf
    rw [heq] at h
    have h1 : a1 = set v := by
      have h2 : Except.ok (set v) = (Except.ok a1 : Except parse_failure Args) := h
      cases h2
      rfl
    subst h1
    refine ⟨hS v, fun g hg => ?_, fun g hg => ?_⟩
    · rw [hR v g hg, if_neg (fun (hfg : f = g) => (d1 f hf).1 (hfg ▸ hg))]
    · rw [hI v g hg, if_neg (fun (hfg : f = g) => (d1 f hf).2 (hfg ▸ hg))]
  · obtain ⟨set, heq, hS, hR, hI⟩ := parse_arg_real_eq stof a f (some v) hf
    rw [heq] at h
    cases hs : stof v with
    | error e =>
      exfalso
      cases e <;>
      · have h2 : (sto_result f (stof v) >>= fun x => pure (set x))
            = (Except.ok a1 : Except parse_failure Args) := h
        rw [hs] at h2
        cases h2
    | ok x =>
      have h2 : (sto_result f (stof v) >>= fun x => pure (set x))
          = (Except.ok a1 : Except parse_failure Args) := h
      rw [hs] at h2
      have h1 : a1 = set x := by
        have h3 : Except.ok (set x) = (Except.ok a1 : Except parse_failure Args) := h2
        cases h3
        rfl
      subst h1
      refine ⟨fun g hg => ?_, fun g hg => ?_, fun g hg => ?_⟩
      · rw [hS x g hg, if_neg (fun (hfg : f = g) => (d2 f hf).1 (hfg ▸ hg))]
      · rw [hR x g hg]; rfl
      · rw [hI x g hg, if_neg (fun (hfg : f = g) => (d2 f hf).2 (hfg ▸ hg))]
  · obtain ⟨set, heq, hS, hR, hI⟩ := parse_arg_int_eq stof a f (some v) hf
    rw [heq] at h
    cases hs : stoi v with
    | error e =>
      exfalso
      cases e <;>
      · have h2 : (sto_result f (stoi v) >>= fun x => pure (set x))
            = (Except.ok a1 : Except parse_failure Args) := h
        rw [hs] at h2
        cases h2
    | ok x =>
      have h2 : (sto_result f (stoi v) >>= fun x => pure (set x))
          = (Except.ok a1 : Except parse_failure Args) := h
      rw [hs] at h2
      have h1 : a1 = set x := by
        have h3 : Except.ok (set x) = (Except.ok a1 : Except parse_failure Args) := h2
        cases h3
        rfl
      subst h1
      refine ⟨fun g hg => ?_, fun g hg => ?_, fun g hg => ?_⟩
      · rw [hS x g hg, if_neg (fun (hfg : f = g) => (d3 f hf).1 (hfg ▸ hg))]
      · rw [hR x g hg, if_neg (fun (hfg : f = g) => (d3 f hf).2 (hfg ▸ hg))]
      · rw [hI x g hg]; rfl

theorem parse_arg_rejected (stof : String → Except sto_error real) (a : Args)
    (p : String × Option String) (hp : pair_rejected stof p) :
    ∃ msg, Args.parse_arg stof a p.1 p.2 = Except.error (parse_failure.exit_failure msg) := by
  obtain ⟨f, value⟩ := p
  simp only [pair_rejected] at hp
  by_cases hd : f.data.head? ≠ some '-'
  · exact ⟨_, by unfold Args.parse_arg; rw [if_pos hd]⟩
  by_cases hh : f = "-h"
  · exact ⟨_, by unfold Args.parse_arg; rw [if_neg hd, if_pos hh]⟩
  by_cases hk : f ∈ string_flags ∨ f ∈ real_flags ∨ f ∈ int_flags
  swap
  · rw [not_or, not_or] at hk
    exact ⟨_, parse_arg_unknown stof a f value hd hh hk.1 hk.2.1 hk.2.2⟩
  obtain ⟨d1, d2, d3⟩ := flags_disjoint
  cases value with
  | none =>
    rcases hk with hf | hf | hf
    · obtain ⟨set, heq, _⟩ := parse_arg_string_eq stof a f none hf
      exact ⟨_, heq⟩
    · obtain ⟨set, heq, _⟩ := parse_arg_real_eq stof a f none hf
      exact ⟨_, heq⟩
    · obtain ⟨set, heq, _⟩ := parse_arg_int_eq stof a f none hf
      exact ⟨_, heq⟩
  | some v =>
    rcases hp with hp | hp | hp | hp | hp | hp
    · exact absurd hp hd
    · exact absurd hp hh
    · exact absurd hk (by rw [not_or, not_or]; exact hp)
    · cases hp
    · obtain ⟨hf, v1, hv1, hs⟩ := hp
      cases hv1
      obtain ⟨set, heq, _⟩ := parse_arg_int_eq stof a f (some v) hf
      refine ⟨f ++ " is missing an argument", ?_⟩
      rw [heq]
      show (sto_result f (stoi v) >>= fun x => pure (set x)) = _
      rw [hs]
      rfl
    · obtain ⟨hf, v1, hv1, hs⟩ := hp
      cases hv1
      obtain ⟨set, heq, _⟩ := parse_arg_real_eq stof a f (some v) hf
      refine ⟨f ++ " is missing an argument", ?_⟩
      rw [heq]
      show (sto_result f (stof v) >>= fun x => pure (set x)) = _
      rw [hs]
      rfl

theorem parse_arg_accepted (stof : String → Except sto_error real) (a : Args)
    (p : String × Option String) (hp : ¬ pair_rejected stof p)
    (hn : ¬ pair_non_numeric stof p) :
    ∃ a1, Args.parse_arg stof a p.1 p.2 = Except.ok a1 := by
  obtain ⟨f, value⟩ := p
  simp only [pair_rejected, not_or] at hp
  simp only [pair_non_numeric, not_or] at hn
  obtain ⟨_, _, hk, hv, hio, hro⟩ := hp
  obtain ⟨hii, hri⟩ := hn
  have hk1 : f ∈ string_flags ∨ f ∈ real_flags ∨ f ∈ int_flags := by
    by_contra hc
    rw [not_or, not_or] at hc
    exact hk hc
  cases value with
  | none => exact absurd rfl hv
  | some v =>
    rcases hk1 with hf | hf | hf
    · obtain ⟨set, heq, _⟩ := parse_arg_string_eq stof a f (some v) hf
      exact ⟨set v, heq⟩
    · obtain ⟨set, heq, _⟩ := parse_arg_real_eq stof a f (some v) hf
      cases hs : stof v with
      | ok x =>
        refine ⟨set x, ?_⟩
        rw [heq]
        show (sto_result f (stof v) >>= fun x => pure (set x)) = _
        rw [hs]
        rfl
      | error e =>
        cases e
        · exact absurd ⟨hf, v, rfl, hs⟩ hri
        · exact absurd ⟨hf, v, rfl, hs⟩ hro
    · obtain ⟨set, heq, _⟩ := parse_arg_int_eq stof a f (some v) hf
      cases hs : stoi v with
      | ok x =>
        refine ⟨set x, ?_⟩
        rw [heq]
        show (sto_result f (stoi v) >>= fun x => pure (set x)) = _
        rw [hs]
        rfl
      | error e =>
        cases e
        · exact absurd ⟨hf, v, rfl, hs⟩ hii
        · exact absurd ⟨hf, v, rfl, hs⟩ hio

theorem parse_arg_none (stof : String → Except sto_error real) (a a1 : Args) (f : String) :
    Args.parse_arg stof a f none ≠ Except.ok a1 := by
  intro h
  obtain ⟨msg, hm⟩ := parse_arg_rejected stof a (f, none) (Or.inr (Or.inr (Or.inr (Or.inl rfl))))
  rw [h] at hm
  cases hm

theorem parse_loop_fields (stof : String → Except sto_error real) :
    ∀ (l : List String) (a a1 : Args), Args.parse_loop stof l a = Except.ok a1 →
      (∀ g ∈ string_flags, a1.string_field g
          = match last_value g (flag_pairs l) with
            | some v => some v
            | none => a.string_field g)
      ∧ (∀ g ∈ real_flags, a1.real_field g
          = match last_value g (flag_pairs l) with
            | some v => (stof v).toOption
            | none => a.real_field g)
      ∧ (∀ g ∈ int_flags, a1.int_field g
          = match last_value g (flag_pairs l) with
            | some v => (stoi v).toOption
            | none => a.int_field g) := by
  intro l
  induction l using flag_pairs.induct with
  | case1 =>
    intro a a1 h
    have h1 : a = a1 := by
      have h2 : Except.ok a = (Except.ok a1 : Except parse_failure Args) := h
      cases h2
      rfl
    subst h1
    exact ⟨fun g _ => rfl, fun g _ => rfl, fun g _ => rfl⟩
  | case2 flag =>
    intro a a1 h
    exact absurd h (parse_arg_none stof a a1 flag)
  | case3 flag value rest ih =>
    intro a a1 h
    cases hp : Args.parse_arg stof a flag (some value) with
    | error e =>
      have h2 : (Args.parse_arg stof a flag (some value) >>= fun a2 =>
          Args.parse_loop stof rest a2) = Except.ok a1 := h
      rw [hp] at h2
      cases h2
    | ok a2 =>
      have h2 : (Args.parse_arg stof a flag (some value) >>= fun a2 =>
          Args.parse_loop stof rest a2) = Except.ok a1 := h
      rw [hp] at h2
      have h3 : Args.parse_loop stof rest a2 = Except.ok a1 := h2
      obtain ⟨iS, iR, iI⟩ := ih a2 a1 h3
      obtain ⟨fS, fR, fI⟩ := parse_arg_fields stof a a2 flag value hp
      refine ⟨fun g hg => ?_, fun g hg => ?_, fun g hg => ?_⟩
      · rw [iS g hg, fS g hg]
        simp only [flag_pairs, last_value]
        cases last_value g (flag_pairs rest) with
        | some x => rfl
        | none =>
          by_cases hfg : flag = g
          · simp [hfg]
          · simp [hfg]
      · rw [iR g hg, fR g hg]
        simp only [flag_pairs, last_value]
        cases last_value g (flag_pairs rest) with
        | some x => rfl
        | none =>
          by_cases hfg : flag = g
          · simp [hfg]
          · simp [hfg]
      · rw [iI g hg, fI g hg]
        simp only [flag_pairs, last_value]
        cases last_value g (flag_pairs rest) with
        | some x => rfl
        | none =>
          by_cases hfg : flag = g
          · simp [hfg]
          · simp [hfg]

theorem parse_loop_outcome (stof : String → Except sto_error real) :
    ∀ (l : List String) (a : Args), (∀ p ∈ flag_pairs l, ¬ pair_non_numeric stof p) →
      ((∃ p ∈ flag_pairs l, pair_rejected stof p) →
          ∃ msg, Args.parse_loop stof l a = Except.error (parse_failure.exit_failure msg))
      ∧ ((∀ p ∈ flag_pairs l, ¬ pair_rejected stof p) →
          ∃ a1, Args.parse_loop stof l a = Except.ok a1) := by
  intro l
  induction l using flag_pairs.induct with
  | case1 =>
    intro a _
    exact ⟨fun ⟨p, hp, _⟩ => absurd hp (by simp [flag_pairs]), fun _ => ⟨a, rfl⟩⟩
  | case2 flag =>
    intro a _
    have hrej : pair_rejected stof (flag, none) := Or.inr (Or.inr (Or.inr (Or.inl rfl)))
    refine ⟨fun _ => parse_arg_rejected stof a (flag, none) hrej, fun h => ?_⟩
    exact absurd hrej (h _ (by simp [flag_pairs]))
  | case3 flag value rest ih =>
    intro a hnum
    have hnum0 : ¬ pair_non_numeric stof (flag, some value) :=
      hnum _ (by simp [flag_pairs])
    have hnum1 : ∀ p ∈ flag_pairs rest, ¬ pair_non_numeric stof p :=
      fun p hp => hnum p (by simp [flag_pairs, hp])
    have hunf : ∀ r, Args.parse_arg stof a flag (some value) = r →
        Args.parse_loop stof (flag :: value :: rest) a
          = (r >>= fun a2 => Args.parse_loop stof rest a2) := by
      intro r hr
      rw [← hr]
      rfl
    by_cases hrej : pair_rejected stof (flag, some value)
    · obtain ⟨msg, hm⟩ := parse_arg_rejected stof a (flag, some value) hrej
      refine ⟨fun _ => ⟨msg, by rw [hunf _ hm]; rfl⟩, fun h => ?_⟩
      exact absurd hrej (h _ (by simp [flag_pairs]))
    · obtain ⟨a2, ha2⟩ := parse_arg_accepted stof a (flag, some value) hrej hnum0
      obtain ⟨ih1, ih2⟩ := ih a2 hnum1
      refine ⟨fun ⟨p, hp, hpr⟩ => ?_, fun h => ?_⟩
      · have hp1 : p = (flag, some value) ∨ p ∈ flag_pairs rest := by
          simpa [flag_pairs] using hp
        rcases hp1 with hp1 | hp1
        · exact absurd (hp1 ▸ hpr) hrej
        · obtain ⟨msg, hm⟩ := ih1 ⟨p, hp1, hpr⟩
          exact ⟨msg, by rw [hunf _ ha2]; exact hm⟩
      · obtain ⟨a1, h1⟩ := ih2 (fun p hp => h p (by simp [flag_pairs, hp]))
        exact ⟨a1, by rw [hunf _ ha2]; exact h1⟩

/-- C29 (amended): on a command line in which no numeric flag is given a value
that `std::stoi` or `std::stof` refuses with `std::invalid_argument`,
`Args::parse_args` (called on the defaults of the constructor) rejects every
configuration error in the same way, with a message on `std::cerr`, the help
and `exit(EXIT_FAILURE)`: an argument without a leading dash at a flag
position, `-h`, an unknown flag, a flag without a value, a numeric value out of
range, and a missing or empty `-input` or `-output`.  On every other such
command line it returns normally, and every field is the value of the last
occurrence of its flag, or its default when the flag does not occur. -/
theorem parse_args_spec (stof : String → Except sto_error real) (args : List String)
    (hnum : ∀ p ∈ flag_pairs args.tail, ¬ pair_non_numeric stof p) :
    (args_rejected stof args.tail →
        ∃ msg, Args.parse_args stof Args.default args
          = Except.error (parse_failure.exit_failure msg))
      ∧ (¬ args_rejected stof args.tail →
        ∃ a, Args.parse_args stof Args.default args = Except.ok a
          ∧ (∀ g ∈ string_flags, a.string_field g
              = match last_value g (flag_pairs args.tail) with
                | some v => some v
                | none => Args.default.string_field g)
          ∧ (∀ g ∈ real_flags, a.real_field g
              = match last_value g (flag_pairs args.tail) with
                | some v => (stof v).toOption
                | none => Args.default.real_field g)
          ∧ (∀ g ∈ int_flags, a.int_field g
              = match last_value g (flag_pairs args.tail) with
                | some v => (stoi v).toOption
                | none => Args.default.int_field g)) := by
  obtain ⟨hout1, hout2⟩ := parse_loop_outcome stof args.tail Args.default hnum
  have hunf : ∀ r, Args.parse_loop stof args.tail Args.default = r →
      Args.parse_args stof Args.default args
        = (r >>= fun a1 => if a1.input.isEmpty ∨ a1.output.isEmpty then
            Except.error (parse_failure.exit_failure "Empty input or output path.")
          else pure a1) := by
    intro r hr
    rw [← hr]
    rfl
  by_cases hrej : ∃ p ∈ flag_pairs args.tail, pair_rejected stof p
  · obtain ⟨msg, hm⟩ := hout1 hrej
    refine ⟨fun _ => ⟨msg, by rw [hunf _ hm]; rfl⟩, fun h => absurd (Or.inl hrej) h⟩
  · obtain ⟨a1, h1⟩ := hout2 (fun p hp hpr => hrej ⟨p, hp, hpr⟩)
    obtain ⟨fS, fR, fI⟩ := parse_loop_fields stof args.tail Args.default a1 h1
    have hin : a1.input = (last_value "-input" (flag_pairs args.tail)).getD "" := by
      have := fS "-input" (by decide)
      cases hl : last_value "-input" (flag_pairs args.tail) with
      | none =>
        rw [hl] at this
        have h2 : some a1.input = some "" := this
        simpa using h2
      | some v =>
        rw [hl] at this
        have h2 : some a1.input = some v := this
        simpa using h2
    have hou : a1.output = (last_value "-output" (flag_pairs args.tail)).getD "" := by
      have := fS "-output" (by decide)
      cases hl : last_value "-output" (flag_pairs args.tail) with
      | none =>
        rw [hl] at this
        have h2 : some a1.output = some "" := this
        simpa using h2
      | some v =>
        rw [hl] at this
        have h2 : some a1.output = some v := this
        simpa using h2
    by_cases hempty : a1.input.isEmpty ∨ a1.output.isEmpty
    · refine ⟨fun _ => ⟨"Empty input or output path.", ?_⟩, fun h => ?_⟩
      · rw [hunf _ h1]
        show (if a1.input.isEmpty ∨ a1.output.isEmpty then _ else _) = _
        rw [if_pos hempty]
      · exfalso
        apply h
        right
        rw [String.isEmpty_iff, String.isEmpty_iff, hin, hou] at hempty
        exact hempty
    · refine ⟨fun h => ?_, fun _ => ⟨a1, ?_, fS, fR, fI⟩⟩
      · exfalso
        rcases h with h | h
        · exact hrej h
        · apply hempty
          rw [String.isEmpty_iff, String.isEmpty_iff, hin, hou]
          exact h
      · rw [hunf _ h1]
        show (if a1.input.isEmpty ∨ a1.output.isEmpty then _ else _) = _
        rw [if_neg hempty]
        rfl

/-- C29 as stated fails on the command line
`minkowski -input corpus -output out -dimension abc`: `std::stoi` throws
`std::invalid_argument`, which `parse_args` does not catch; no help is printed
and `exit(EXIT_FAILURE)` is not called.  (No flag with a real value occurs, so
`std::stof` is not called; any function can stand for it.) -/
theorem parse_args_dimension_abc :
    Args.parse_args (fun _ => Except.error sto_error.invalid_argument) Args.default
        ["minkowski", "-input", "corpus", "-output", "out", "-dimension", "abc"]
      = Except.error parse_failure.invalid_argument :=
  rfl

theorem stoi_fifty : stoi "50" = Except.ok 50 := rfl

/-- C29 on the command line `minkowski -input corpus -output out -dimension 50`:
the call returns, `dimension` is 50, `input` is `corpus` and `epochs` keeps its
default 5. -/
theorem parse_args_spec_witness :
    (∀ p ∈ flag_pairs
        (["minkowski", "-input", "corpus", "-output", "out", "-dimension", "50"] : List String).tail,
        ¬ pair_non_numeric (fun _ => Except.error sto_error.invalid_argument) p)
      ∧ ∃ a, Args.parse_args (fun _ => Except.error sto_error.invalid_argument) Args.default
            ["minkowski", "-input", "corpus", "-output", "out", "-dimension", "50"] = Except.ok a
          ∧ a.int_field "-dimension" = some 50 ∧ a.int_field "-epochs" = some 5
          ∧ a.string_field "-input" = some "corpus" := by
  have hnum : ∀ p ∈ flag_pairs
      (["minkowski", "-input", "corpus", "-output", "out", "-dimension", "50"] : List String).tail,
      ¬ pair_non_numeric (fun _ => Except.error sto_error.invalid_argument) p := by
    intro p hp
    simp only [List.tail_cons, flag_pairs, List.mem_cons, List.mem_singleton, List.mem_nil_iff,
      or_false] at hp
    rcases hp with rfl | rfl | rfl
    · simp [pair_non_numeric, int_flags, real_flags]
    · simp [pair_non_numeric, int_flags, real_flags]
    · simp [pair_non_numeric, int_flags, real_flags, stoi_fifty]
  have hacc : ¬ args_rejected (fun _ => Except.error sto_error.invalid_argument)
      (["minkowski", "-input", "corpus", "-output", "out", "-dimension", "50"] : List String).tail := by
    rintro (⟨p, hp, hr⟩ | h | h)
    · simp only [List.tail_cons, flag_pairs, List.mem_cons, List.mem_singleton,
        List.mem_nil_iff, or_false] at hp
      rcases hp with rfl | rfl | rfl
      · simp [pair_rejected, string_flags, int_flags, real_flags] at hr
      · simp [pair_rejected, string_flags, int_flags, real_flags] at hr
      · simp [pair_rejected, string_flags, int_flags, real_flags, stoi_fifty] at hr
    · exact absurd h (by decide)
    · exact absurd h (by decide)
  obtain ⟨a, ha, fS, _, fI⟩ :=
    (parse_args_spec (fun _ => Except.error sto_error.invalid_argument)
      ["minkowski", "-input", "corpus", "-output", "out", "-dimension", "50"] hnum).2 hacc
  refine ⟨hnum, a, ha, ?_, ?_, ?_⟩
  · rw [fI "-dimension" (by decide)]
    rfl
  · rw [fI "-epochs" (by decide)]
    rfl
  · rw [fS "-input" (by decide)]
    rfl

/-! ### The reference tokenisation -/

theorem splitOnP_prefix {α : Type} (p : α → Bool) (a l : List α) (ha : ∀ x ∈ a, ¬ p x = true) :
    (a ++ l).splitOnP p = (l.splitOnP p).modifyHead (fun x => a ++ x) := by
  induction a with
  | nil =>
    simp only [List.nil_append]
    cases l.splitOnP p <;> rfl
  | cons x a ih =>
    rw [List.cons_append, List.splitOnP_cons, if_neg (ha x (List.mem_cons_self _ _)),
      ih (fun y hy => ha y (List.mem_cons_of_mem _ hy)), List.modifyHead_modifyHead]
    rfl

theorem line_words_single (a : List Char) (ha : ∀ c ∈ a, is_whitespace c = false) :
    line_words a = if a = [] then [] else [String.mk a] := by
  unfold line_words
  rw [List.splitOnP_eq_single _ _ (fun c hc => by rw [ha c hc]; simp)]
  by_cases h : a = []
  · simp [h]
  · simp [h]

theorem line_words_first (a rest : List Char) (c : Char)
    (ha : ∀ x ∈ a, is_whitespace x = false) (hc : is_whitespace c = true) :
    line_words (a ++ c :: rest) = (if a = [] then [] else [String.mk a]) ++ line_words rest := by
  unfold line_words
  rw [List.splitOnP_first _ _ (fun x hx => by rw [ha x hx]; simp) c hc]
  by_cases h : a = []
  · simp [h]
  · simp [h]

theorem whitespace_of_newline (c : Char) (h : c = '\n') : is_whitespace c = true := by
  subst h
  decide

theorem reference_tokens_single (a : List Char) (ha : ∀ c ∈ a, is_whitespace c = false) :
    reference_tokens a = if a = [] then [] else [String.mk a] := by
  unfold reference_tokens
  rw [List.splitOnP_eq_single _ _ (fun c hc => by
    intro hn
    have h1 : c = '\n' := by simpa using hn
    have h2 := ha c hc
    rw [whitespace_of_newline c h1] at h2
    exact absurd h2 (by simp))]
  simp only [List.map_cons, List.map_nil, List.intercalate, List.intersperse_single,
    List.flatten_cons, List.flatten_nil, List.append_nil]
  exact line_words_single a ha

theorem reference_tokens_cons (a rest : List Char) (c : Char)
    (ha : ∀ x ∈ a, is_whitespace x = false) (hc : is_whitespace c = true) :
    reference_tokens (a ++ c :: rest)
      = (if a = [] then [] else [String.mk a]) ++ (if c = '\n' then [Dictionary.EOS] else [])
        ++ reference_tokens rest := by
  have hnl : ∀ x ∈ a, ¬ (decide (x = '\n')) = true := by
    intro x hx hn
    have h1 : x = '\n' := by simpa using hn
    have := ha x hx
    rw [whitespace_of_newline x h1] at this
    exact absurd this (by simp)
  unfold reference_tokens
  obtain ⟨l0, ls, hl⟩ : ∃ l0 ls, (rest.splitOnP fun c => c = '\n') = l0 :: ls := by
    cases h : rest.splitOnP fun c => c = '\n' with
    | nil => exact absurd h (List.splitOnP_ne_nil _ _)
    | cons l0 ls => exact ⟨l0, ls, rfl⟩
  by_cases hn : c = '\n'
  · rw [List.splitOnP_first _ _ hnl c (by simpa using hn), hl, if_pos hn]
    simp only [List.map_cons, List.intercalate, List.intersperse_cons₂, List.flatten_cons]
    rw [line_words_single a ha]
    simp
  · have hpre : ∀ x ∈ a ++ [c], ¬ (decide (x = '\n')) = true := by
      intro x hx
      rcases List.mem_append.mp hx with h1 | h1
      · exact hnl x h1
      · have : x = c := by simpa using h1
        subst this
        simpa using hn
    have happ : a ++ c :: rest = (a ++ [c]) ++ rest := by simp
    rw [happ, splitOnP_prefix _ _ _ hpre, hl, if_neg hn]
    simp only [List.modifyHead_cons, List.map_cons, List.append_assoc, List.singleton_append,
      List.append_nil]
    rw [line_words_first a l0 c ha hc]
    cases ls with
    | nil => simp [List.intercalate]
    | cons l1 ls1 => simp [List.intercalate]

theorem whitespace_iff (c : Char) :
    (c = ' ' ∨ c = '\n' ∨ c = '\r' ∨ c = '\t' ∨ c = Char.ofNat 11 ∨ c = Char.ofNat 12
        ∨ c = Char.ofNat 0) ↔ is_whitespace c = true := by
  unfold is_whitespace
  simp only [decide_eq_true_eq]
  tauto

theorem data_of_isEmpty (w : String) (h : w.isEmpty = true) : w = "" ∧ w.data = [] := by
  have h1 : w = "" := (String.isEmpty_iff w).mp h
  exact ⟨h1, by rw [h1]⟩

theorem data_of_not_isEmpty (w : String) (h : ¬ w.isEmpty = true) : w.data ≠ [] := by
  intro hd
  apply h
  rw [String.isEmpty_iff, String.ext_iff, hd]

theorem read_word_loop_reference (eof : Bool) : ∀ (cs : List Char) (w : String),
    Char.ofNat 255 ∉ cs → (∀ c ∈ w.data, is_whitespace c = false) →
    ((read_word_loop eof cs w).1 = true →
        reference_tokens (w.data ++ cs)
          = (read_word_loop eof cs w).2.1 :: reference_tokens (read_word_loop eof cs w).2.2.1
        ∧ Char.ofNat 255 ∉ (read_word_loop eof cs w).2.2.1)
    ∧ ((read_word_loop eof cs w).1 = false → reference_tokens (w.data ++ cs) = []) := by
  intro cs
  induction cs with
  | nil =>
    intro w _ hw
    have hr : read_word_loop eof [] w = (!w.isEmpty, w, [], true) := by
      rw [read_word_loop]
    rw [hr, List.append_nil, reference_tokens_single w.data hw]
    refine ⟨fun h => ⟨?_, by simp⟩, fun h => ?_⟩
    · have h1 : ¬ w.isEmpty = true := by simpa using h
      rw [if_neg (data_of_not_isEmpty w h1), reference_tokens_single [] (by simp)]
      rfl
    · have h1 : w.isEmpty = true := by simpa using h
      rw [if_pos (data_of_isEmpty w h1).2]
  | cons c rest ih =>
    intro w h255 hw
    have hc255 : ¬ c = Char.ofNat 255 := fun h => h255 (h ▸ List.mem_cons_self _ _)
    have hrest : Char.ofNat 255 ∉ rest := fun h => h255 (List.mem_cons_of_mem _ h)
    by_cases hws : c = ' ' ∨ c = '\n' ∨ c = '\r' ∨ c = '\t' ∨ c = Char.ofNat 11
        ∨ c = Char.ofNat 12 ∨ c = Char.ofNat 0
    · have hcw : is_whitespace c = true := (whitespace_iff c).mp hws
      by_cases hwe : w.isEmpty = true
      · obtain ⟨hw0, hd0⟩ := data_of_isEmpty w hwe
        by_cases hn : c = '\n'
        · have hr : read_word_loop eof (c :: rest) w = (true, w ++ Dictionary.EOS, rest, eof) := by
            rw [read_word_loop.eq_def]
            simp only [if_neg hc255, if_pos hws, if_pos hwe, if_pos hn]
          rw [hr, hd0]
          refine ⟨fun _ => ⟨?_, hrest⟩, fun h => absurd h (by simp)⟩
          rw [reference_tokens_cons [] rest c (by simp) hcw, if_pos hn, hw0]
          rfl
        · have hr : read_word_loop eof (c :: rest) w = read_word_loop eof rest w := by
            rw [read_word_loop.eq_def]
            simp only [if_neg hc255, if_pos hws, if_pos hwe, if_neg hn]
          have href : reference_tokens (w.data ++ c :: rest) = reference_tokens (w.data ++ rest) := by
            rw [hd0, reference_tokens_cons [] rest c (by simp) hcw, if_neg hn]
            rfl
          rw [hr, href]
          exact ih w hrest hw
      · have hd1 := data_of_not_isEmpty w hwe
        have hr : read_word_loop eof (c :: rest) w
            = (true, w, if c = '\n' then c :: rest else rest, eof) := by
          rw [read_word_loop.eq_def]
          simp only [if_neg hc255, if_pos hws, if_neg hwe]
        rw [hr]
        refine ⟨fun _ => ⟨?_, ?_⟩, fun h => absurd h (by simp)⟩
        · rw [reference_tokens_cons w.data rest c hw hcw, if_neg hd1]
          by_cases hn : c = '\n'
          · have := reference_tokens_cons [] rest c (by simp) hcw
            simp only [List.nil_append] at this
            simp only [if_pos hn, this]
            rfl
          · simp only [if_neg hn]
            rfl
        · show Char.ofNat 255 ∉ (if c = '\n' then c :: rest else rest)
          split
          · exact h255
          · exact hrest
    · have hcw : is_whitespace c = false := by
        rw [← Bool.not_eq_true]
        exact fun h => hws ((whitespace_iff c).mpr h)
      have hr : read_word_loop eof (c :: rest) w = read_word_loop eof rest (w.push c) := by
        rw [read_word_loop.eq_def]
        simp only [if_neg hc255, if_neg hws]
      have happ : w.data ++ c :: rest = (w.push c).data ++ rest := by
        rw [String.data_push, List.append_assoc]
        rfl
      rw [hr, happ]
      refine ih (w.push c) hrest ?_
      intro x hx
      rw [String.data_push] at hx
      rcases List.mem_append.mp hx with h1 | h1
      · exact hw x h1
      · have : x = c := by simpa using h1
        rw [this]
        exact hcw

theorem read_words_reference : ∀ (fuel : ℕ) (stream : istream) (l : List String),
    Char.ofNat 255 ∉ stream.rest → read_words fuel stream = some l →
    l = reference_tokens stream.rest := by
  intro fuel
  induction fuel with
  | zero => intro stream l _ h; simp [read_words] at h
  | succ fuel ih =>
    intro stream l h255 h
    unfold read_words at h
    obtain ⟨htrue, hfalse⟩ := read_word_loop_reference stream.eofbit stream.rest "" h255
      (fun c hc => absurd hc (by simp))
    have hdata : ("" : String).data ++ stream.rest = stream.rest := rfl
    rw [hdata] at htrue hfalse
    rcases hrw : Dictionary.read_word stream with ⟨ok, w, s1⟩
    rw [hrw] at h
    unfold Dictionary.read_word at hrw
    simp only [Prod.mk.injEq] at hrw
    obtain ⟨h1, h2, h3⟩ := hrw
    cases ok with
    | false =>
      have hl : l = [] := by simpa using h.symm
      rw [hl, hfalse h1]
    | true =>
      obtain ⟨href, hno⟩ := htrue h1
      simp only at h
      cases hr : read_words fuel s1 with
      | none => simp [hr] at h
      | some l1 =>
        rw [hr] at h
        have hl : l = w :: l1 := by simpa using h.symm
        have hs1 : s1.rest = (read_word_loop stream.eofbit stream.rest "").2.2.1 := by
          rw [← h3]
        have := ih s1 l1 (by rw [hs1]; exact hno) hr
        rw [hl, this, href, h2, hs1]

theorem all_words_reference (stream : istream) (h255 : Char.ofNat 255 ∉ stream.rest) :
    all_words stream = reference_tokens stream.rest := by
  obtain ⟨l, hl⟩ := read_words_total (stream.rest.length + 1) stream (Nat.lt_succ_self _)
  rw [all_words_eq _ stream l hl]
  exact read_words_reference _ stream l h255 hl

/-- Every word the scan of `read_word` returns with `true` is non-empty and free
of whitespace characters, whatever bytes the input holds. -/
theorem read_word_loop_clean (eofbit : Bool) :
    ∀ (cs : List Char) (w : String), (∀ c ∈ w.data, is_whitespace c = false) →
      (read_word_loop eofbit cs w).1 = true →
      (read_word_loop eofbit cs w).2.1 ≠ ""
        ∧ ∀ c ∈ (read_word_loop eofbit cs w).2.1.data, is_whitespace c = false := by
  intro cs
  induction cs with
  | nil =>
    intro w hw h
    rw [read_word_loop.eq_def] at h ⊢
    simp only at h ⊢
    refine ⟨?_, hw⟩
    intro he
    rw [he] at h
    exact absurd h (by decide)
  | cons c rest ih =>
    intro w hw h
    rw [read_word_loop.eq_def] at h ⊢
    simp only at h ⊢
    have hne : (!w.isEmpty) = true → w ≠ "" := by
      intro hb he
      rw [he] at hb
      exact absurd hb (by decide)
    by_cases hc255 : c = Char.ofNat 255
    · simp only [if_pos hc255] at h ⊢
      by_cases he : eofbit = true
      · simp only [if_pos he] at h ⊢
        exact ⟨hne h, hw⟩
      · simp only [if_neg he] at h ⊢
        cases rest with
        | nil => exact ⟨hne h, hw⟩
        | cons _ _ => exact ⟨hne h, hw⟩
    · simp only [if_neg hc255] at h ⊢
      by_cases hws : c = ' ' ∨ c = '\n' ∨ c = '\r' ∨ c = '\t' ∨ c = Char.ofNat 11
          ∨ c = Char.ofNat 12 ∨ c = Char.ofNat 0
      · simp only [if_pos hws] at h ⊢
        by_cases hemp : w.isEmpty = true
        · simp only [if_pos hemp] at h ⊢
          by_cases hn : c = '\n'
          · simp only [if_pos hn]
            rw [(data_of_isEmpty w hemp).1]
            decide
          · simp only [if_neg hn] at h ⊢
            exact ih w hw h
        · simp only [if_neg hemp] at h ⊢
          refine ⟨?_, hw⟩
          intro he
          rw [he] at hemp
          exact hemp (by decide)
      · simp only [if_neg hws] at h ⊢
        refine ih (w.push c) ?_ h
        intro x hx
        rw [String.data_push, List.mem_append] at hx
        rcases hx with hx | hx
        · exact hw x hx
        · rw [List.mem_singleton] at hx
          rw [hx]
          cases hq : is_whitespace c with
          | false => rfl
          | true => exact absurd ((whitespace_iff c).mpr hq) hws

theorem read_words_clean : ∀ (fuel : ℕ) (stream : istream) (l : List String),
    read_words fuel stream = some l →
    ∀ w ∈ l, w ≠ "" ∧ ∀ c ∈ w.data, is_whitespace c = false := by
  intro fuel
  induction fuel with
  | zero => intro stream l h; simp [read_words] at h
  | succ fuel ih =>
    intro stream l h
    unfold read_words at h
    have hclean := read_word_loop_clean stream.eofbit stream.rest "" (by simp)
    cases hr : Dictionary.read_word stream with
    | mk b r =>
      obtain ⟨w1, s1⟩ := r
      have hb : (read_word_loop stream.eofbit stream.rest "").1 = b := by
        have := congrArg Prod.fst hr
        simpa [Dictionary.read_word] using this
      have hw1 : (read_word_loop stream.eofbit stream.rest "").2.1 = w1 := by
        have := congrArg (fun p => p.2.1) hr
        simpa [Dictionary.read_word] using this
      rw [hr] at h
      cases b with
      | false =>
        simp only [Option.some.injEq] at h
        subst h
        intro w hw
        simp at hw
      | true =>
        simp only [Option.map_eq_some'] at h
        obtain ⟨l1, hl1, hl⟩ := h
        subst hl
        intro w hw
        rcases List.mem_cons.mp hw with hw | hw
        · rw [hw, ← hw1]
          exact hclean hb
        · exact ih s1 l1 hl1 w hw

/-- Every word of `all_words` is non-empty and free of whitespace characters,
whatever bytes the stream holds. -/
theorem all_words_clean (stream : istream) :
    ∀ w ∈ all_words stream, w ≠ "" ∧ ∀ c ∈ w.data, is_whitespace c = false := by
  obtain ⟨l, hl⟩ := read_words_total (stream.rest.length + 1) stream (Nat.lt_succ_self _)
  rw [all_words_eq _ stream l hl]
  exact read_words_clean _ stream l hl

/-- C31 fails on a byte of value 255, which the signed `char c` of `read_word`
takes for `EOF`: in the input `Lou\xffs x` the word that holds the byte is cut
before it and the byte after it is dropped by `in.get()`, so the words read are
`Lou`, `x` whereas the split at whitespace gives `Lou\xffs`, `x`; in the input
`a \xffb c` the byte opens a word, `read_word` returns false there and the
remaining words `\xffb`, `c` are never read. -/
theorem read_word_stops_at_byte_255 :
    all_words ⟨['L', 'o', 'u', Char.ofNat 255, 's', ' ', 'x'],
        ['L', 'o', 'u', Char.ofNat 255, 's', ' ', 'x'], false⟩ = ["Lou", "x"]
      ∧ reference_tokens ['L', 'o', 'u', Char.ofNat 255, 's', ' ', 'x']
          = [String.mk ['L', 'o', 'u', Char.ofNat 255, 's'], "x"]
      ∧ all_words ⟨['a', ' ', Char.ofNat 255, 'b', ' ', 'c'],
          ['a', ' ', Char.ofNat 255, 'b', ' ', 'c'], false⟩ = ["a"]
      ∧ reference_tokens ['a', ' ', Char.ofNat 255, 'b', ' ', 'c']
          = ["a", String.mk [Char.ofNat 255, 'b'], "c"] := by
  refine ⟨?_, ?_, ?_, ?_⟩ <;> decide

/-! ### Pairs of equal ids in `skipgram` -/

/-- The trace records a call for a pair of distinct ids and none for a pair of
equal ids: on the lock table `[free, free]` with no negatives to draw, the pair
at positions `0`, `1` of the line `0 1` gives the call with source `0` and
samples `[1]`, and the pair at positions `0`, `1` of the line `0 0` gives none. -/
theorem skipgram_step_call_example (model : Model) :
    Minkowski.skipgram_step_call [0, 1] 0 20 0 1
        (⟨Args.default, [], [false, false], [0, 1], false⟩, model, [], 1) = some (0, [1])
      ∧ Minkowski.skipgram_step_call [0, 0] 0 20 0 1
        (⟨Args.default, [], [false, false], [0, 1], false⟩, model, [], 1) = none := by
  constructor
  · simp [Minkowski.skipgram_step_call, Minkowski.obtain_vectors, try_lock,
      Minkowski.obtain_loop, samples_bound]
  · simp [Minkowski.skipgram_step_call, Minkowski.obtain_vectors, try_lock, unlock]

end minkowski
